import Mathlib

/- A shallow embedding of src/binary-search-tree.js: a pointer-based binary
   search tree with parent links mapping unique integer keys to integer
   values. JavaScript objects live in an explicit heap indexed by node ids,
   and every loop of the source is modelled with an explicit fuel parameter
   (the outer `Option` is `none` exactly when the fuel runs out, which never
   happens once the fuel exceeds the bounds stated in the lemmas below).
   JavaScript exceptions are modelled with `Except JsErr`. -/

namespace BSTree

abbrev NodeId := Nat

/-- One JavaScript Node object, as built by BinarySearchTree.prototype.Node:
    a key, a value, and parent/leftChild/rightChild references, where `none`
    models the null reference. -/
structure Node where
  key : Int
  value : Int
  parent : Option NodeId
  leftChild : Option NodeId
  rightChild : Option NodeId
  deriving DecidableEq, Repr

/-- The object heap: a map from node ids to allocated nodes. -/
def Heap : Type := NodeId → Option Node

/-- Writing one field-updated node back into the heap. -/
def Heap.set (h : Heap) (i : NodeId) (nd : Node) : Heap :=
  fun j => if j = i then some nd else h j

def Heap.empty : Heap := fun _ => none

/-- Field update corresponding to the JavaScript assignment `x.parent = p`. -/
def Node.setParent (nd : Node) (p : Option NodeId) : Node :=
  ⟨nd.key, nd.value, p, nd.leftChild, nd.rightChild⟩

/-- Field update corresponding to the JavaScript assignment `x.leftChild = l`. -/
def Node.setLeft (nd : Node) (l : Option NodeId) : Node :=
  ⟨nd.key, nd.value, nd.parent, l, nd.rightChild⟩

/-- Field update corresponding to the JavaScript assignment `x.rightChild = r`. -/
def Node.setRight (nd : Node) (r : Option NodeId) : Node :=
  ⟨nd.key, nd.value, nd.parent, nd.leftChild, r⟩

/-- The two exceptions thrown by the source: the duplicate-key throw in
    Node.prototype.insert and the missing-key throw in
    BinarySearchTree.prototype.remove. -/
inductive JsErr where
  | duplicateKey
  | keyNotFound
  deriving DecidableEq, Repr

/-- Node.prototype.min: follow leftChild links while they are non-null and
    return the final node. -/
def Node.min : Nat → Heap → NodeId → Option NodeId
  | 0, _, _ => none
  | fuel + 1, h, currNode => do
    let nd ← h currNode
    match nd.leftChild with
    | none => some currNode
    | some l => Node.min fuel h l

/-- Node.prototype.max: follow rightChild links while they are non-null and
    return the final node. -/
def Node.max : Nat → Heap → NodeId → Option NodeId
  | 0, _, _ => none
  | fuel + 1, h, currNode => do
    let nd ← h currNode
    match nd.rightChild with
    | none => some currNode
    | some r => Node.max fuel h r

/-- Node.prototype.get: standard iterative BST descent; the inner `Option`
    is the JavaScript return value (null when the key is absent). -/
def Node.get : Nat → Heap → NodeId → Int → Option (Option NodeId)
  | 0, _, _, _ => none
  | fuel + 1, h, currNode, key => do
    let nd ← h currNode
    if key < nd.key then
      match nd.leftChild with
      | none => some none
      | some l => Node.get fuel h l key
    else if nd.key < key then
      match nd.rightChild with
      | none => some none
      | some r => Node.get fuel h r key
    else
      some (some currNode)

/-- Node.prototype.insert: descend as in get; on reaching a null child slot,
    allocate the new node there (at the fresh id) with its parent set to the
    current node, and return it; throw on an equal key. -/
def Node.insert : Nat → Heap → NodeId → Int → Int → NodeId →
    Option (Except JsErr (Heap × NodeId))
  | 0, _, _, _, _, _ => none
  | fuel + 1, h, currNode, key, value, fresh => do
    let nd ← h currNode
    if key < nd.key then
      match nd.leftChild with
      | none =>
        some (Except.ok
          (Heap.set (Heap.set h fresh ⟨key, value, some currNode, none, none⟩)
            currNode (nd.setLeft (some fresh)), fresh))
      | some l => Node.insert fuel h l key value fresh
    else if nd.key < key then
      match nd.rightChild with
      | none =>
        some (Except.ok
          (Heap.set (Heap.set h fresh ⟨key, value, some currNode, none, none⟩)
            currNode (nd.setRight (some fresh)), fresh))
      | some r => Node.insert fuel h r key value fresh
    else
      some (Except.error JsErr.duplicateKey)

/-- Node.prototype.replaceWith: rewrite the parent's child pointer on
    whichever side `self` occupies to point at `node`, and update the parent
    pointer of `node` when it is non-null. -/
def Node.replaceWith (h : Heap) (self : NodeId) (node : Option NodeId) :
    Option Heap := do
  let sd ← h self
  let parent := sd.parent
  let h1 ←
    match node with
    | some nid => do
      let nd ← h nid
      some (Heap.set h nid (nd.setParent parent))
    | none => some h
  match parent with
  | none => some h1
  | some p => do
    let pd ← h1 p
    if pd.leftChild = some self then
      some (Heap.set h1 p (pd.setLeft node))
    else
      some (Heap.set h1 p (pd.setRight node))

/-- Node.prototype.adoptLeftChild: `node.leftChild.parent = self;
    self.leftChild = node.leftChild;` (fails if `node` has no left child,
    which the source never does). -/
def Node.adoptLeftChild (h : Heap) (self node : NodeId) : Option Heap := do
  let nd ← h node
  let lc ← nd.leftChild
  let lcd ← h lc
  let h1 := Heap.set h lc (lcd.setParent (some self))
  let sd ← h1 self
  some (Heap.set h1 self (sd.setLeft (some lc)))

/-- Node.prototype.adoptRightChild: `node.rightChild.parent = self;
    self.rightChild = node.rightChild;`. -/
def Node.adoptRightChild (h : Heap) (self node : NodeId) : Option Heap := do
  let nd ← h node
  let rc ← nd.rightChild
  let rcd ← h rc
  let h1 := Heap.set h rc (rcd.setParent (some self))
  let sd ← h1 self
  some (Heap.set h1 self (sd.setRight (some rc)))

/-- Node.prototype.remove, translated case by case from the source. Returns
    the updated heap together with the JavaScript return value (the node now
    occupying this node's position, or null). -/
def Node.remove (fuel : Nat) (h : Heap) (self : NodeId) :
    Option (Heap × Option NodeId) := do
  let nd ← h self
  let step ←
    if nd.rightChild = none then
      some (h, nd.leftChild)
    else if nd.leftChild = none then
      some (h, nd.rightChild)
    else do
      let leftOrRoot ←
        match nd.parent with
        | none => some true
        | some p => do
          let pd ← h p
          some (pd.leftChild == some self)
      if leftOrRoot then do
        let l ← nd.leftChild
        let replacementNode ← Node.max fuel h l
        let h1 ←
          if some replacementNode ≠ nd.leftChild then do
            let rd ← h replacementNode
            let ha ← Node.replaceWith h replacementNode rd.leftChild
            Node.adoptLeftChild ha replacementNode self
          else
            some h
        let h2 ← Node.adoptRightChild h1 replacementNode self
        some (h2, some replacementNode)
      else do
        let r ← nd.rightChild
        let replacementNode ← Node.min fuel h r
        let h1 ←
          if some replacementNode ≠ nd.rightChild then do
            let rd ← h replacementNode
            let ha ← Node.replaceWith h replacementNode rd.rightChild
            Node.adoptRightChild ha replacementNode self
          else
            some h
        let h2 ← Node.adoptLeftChild h1 replacementNode self
        some (h2, some replacementNode)
  let h3 ← Node.replaceWith step.1 self step.2
  some (h3, step.2)

/-- The loop of Node.prototype.traverse, with its explicit ancestor stack.
    `acc` holds the visits made so far in reverse order; each visit records
    the node id together with the key and value the callback observes. -/
def Node.traverseLoop :
    Nat → Heap → List NodeId → Option NodeId → List (NodeId × Int × Int) →
    Option (List (NodeId × Int × Int))
  | 0, _, _, _, _ => none
  | fuel + 1, h, ancestors, currNode, acc =>
    match currNode with
    | none =>
      match ancestors with
      | [] => some acc.reverse
      | top :: rest => do
        let nd ← h top
        Node.traverseLoop fuel h rest nd.rightChild ((top, nd.key, nd.value) :: acc)
    | some c => do
      let nd ← h c
      Node.traverseLoop fuel h (c :: ancestors) nd.leftChild acc

/-- Node.prototype.traverse: start with the ancestor stack holding this node
    and the cursor at its left child. -/
def Node.traverse (fuel : Nat) (h : Heap) (self : NodeId) :
    Option (List (NodeId × Int × Int)) := do
  let nd ← h self
  Node.traverseLoop fuel h [self] nd.leftChild []

/-- The upward loop of Node.prototype.predecessor: walk parent links until an
    ancestor is reached from its right child, and return that ancestor. -/
def Node.predecessorLoop : Nat → Heap → NodeId → Option NodeId →
    Option (Option NodeId)
  | 0, _, _, _ => none
  | fuel + 1, h, prevNode, currNode =>
    match currNode with
    | none => some none
    | some c => do
      let cd ← h c
      if cd.rightChild = some prevNode then
        some (some c)
      else
        Node.predecessorLoop fuel h c cd.parent

/-- Node.prototype.predecessor: the max of the left subtree when a left child
    exists, otherwise the upward walk. -/
def Node.predecessor (fuel : Nat) (h : Heap) (self : NodeId) :
    Option (Option NodeId) := do
  let nd ← h self
  match nd.leftChild with
  | some l => do
    let m ← Node.max fuel h l
    some (some m)
  | none => Node.predecessorLoop fuel h self nd.parent

/-- The upward loop of Node.prototype.successor: walk parent links until an
    ancestor is reached from its left child, and return that ancestor. -/
def Node.successorLoop : Nat → Heap → NodeId → Option NodeId →
    Option (Option NodeId)
  | 0, _, _, _ => none
  | fuel + 1, h, prevNode, currNode =>
    match currNode with
    | none => some none
    | some c => do
      let cd ← h c
      if cd.leftChild = some prevNode then
        some (some c)
      else
        Node.successorLoop fuel h c cd.parent

/-- Node.prototype.successor: the min of the right subtree when a right child
    exists, otherwise the upward walk. -/
def Node.successor (fuel : Nat) (h : Heap) (self : NodeId) :
    Option (Option NodeId) := do
  let nd ← h self
  match nd.rightChild with
  | some r => do
    let m ← Node.min fuel h r
    some (some m)
  | none => Node.successorLoop fuel h self nd.parent

/-- The JavaScript BinarySearchTree object together with the object heap it
    owns and a fresh-id allocator modelling JavaScript object creation. -/
structure BinarySearchTree where
  heap : Heap
  root : Option NodeId
  numNodes : Int
  nextId : NodeId

/-- The BinarySearchTree constructor: no root, zero nodes. -/
def BinarySearchTree.new : BinarySearchTree := ⟨Heap.empty, none, 0, 0⟩

/-- BinarySearchTree.prototype.insert together with its JavaScript return
    value (second component). The source function body contains no return
    statement, so the method evaluates to undefined (modelled `none`) on
    success, even though Node.prototype.insert does return the created node.
    On a duplicate key the exception propagates and the tree is unchanged. -/
def BinarySearchTree.insert (t : BinarySearchTree) (fuel : Nat)
    (key value : Int) : Option (BinarySearchTree × Except JsErr (Option NodeId)) :=
  match t.root with
  | none =>
    some (⟨Heap.set t.heap t.nextId ⟨key, value, none, none, none⟩,
           some t.nextId, t.numNodes + 1, t.nextId + 1⟩, Except.ok none)
  | some r =>
    match Node.insert fuel t.heap r key value t.nextId with
    | none => none
    | some (Except.error e) => some (t, Except.error e)
    | some (Except.ok (h1, _)) =>
      some (⟨h1, t.root, t.numNodes + 1, t.nextId + 1⟩, Except.ok none)

/-- BinarySearchTree.prototype.get. -/
def BinarySearchTree.get (t : BinarySearchTree) (fuel : Nat) (key : Int) :
    Option (Option NodeId) :=
  match t.root with
  | none => some none
  | some r => Node.get fuel t.heap r key

/-- BinarySearchTree.prototype.min. -/
def BinarySearchTree.min (t : BinarySearchTree) (fuel : Nat) :
    Option (Option NodeId) :=
  match t.root with
  | none => some none
  | some r => do
    let m ← Node.min fuel t.heap r
    some (some m)

/-- BinarySearchTree.prototype.max. -/
def BinarySearchTree.max (t : BinarySearchTree) (fuel : Nat) :
    Option (Option NodeId) :=
  match t.root with
  | none => some none
  | some r => do
    let m ← Node.max fuel t.heap r
    some (some m)

/-- BinarySearchTree.prototype.remove: look the key up, throw if absent,
    otherwise remove the node, updating the root if it was removed and
    decrementing the node count. -/
def BinarySearchTree.remove (t : BinarySearchTree) (fuel : Nat) (key : Int) :
    Option (BinarySearchTree × Except JsErr Unit) := do
  let found ← t.get fuel key
  match found with
  | none => some (t, Except.error JsErr.keyNotFound)
  | some nodeToRemove => do
    let res ← Node.remove fuel t.heap nodeToRemove
    let root1 := if t.root = some nodeToRemove then res.2 else t.root
    some (⟨res.1, root1, t.numNodes - 1, t.nextId⟩, Except.ok ())

/-- BinarySearchTree.prototype.size. -/
def BinarySearchTree.size (t : BinarySearchTree) : Int := t.numNodes

/-- BinarySearchTree.prototype.traverse. -/
def BinarySearchTree.traverse (t : BinarySearchTree) (fuel : Nat) :
    Option (List (NodeId × Int × Int)) :=
  match t.root with
  | none => some []
  | some r => Node.traverse fuel t.heap r

/-- A tree-level operation, for stating properties of arbitrary sequences of
    insert and remove calls. -/
inductive Op where
  | ins (key value : Int)
  | del (key : Int)
  deriving DecidableEq, Repr

/-- Apply one operation; a thrown exception leaves the tree state unchanged,
    exactly as in the source. -/
def applyOp (t : BinarySearchTree) (fuel : Nat) : Op → Option BinarySearchTree
  | Op.ins k v => (t.insert fuel k v).map Prod.fst
  | Op.del k => (t.remove fuel k).map Prod.fst

/-- Apply a sequence of operations in order. -/
def applyOps (t : BinarySearchTree) (fuel : Nat) : List Op → Option BinarySearchTree
  | [] => some t
  | op :: ops => do
    let t1 ← applyOp t fuel op
    applyOps t1 fuel ops

/-- Abstract (mathematical) binary tree of node ids with keys and values;
    the verification layer used to state the representation invariant of the
    pointer structure. -/
inductive ATree where
  | leaf
  | node (id : NodeId) (key value : Int) (l r : ATree)
  deriving DecidableEq, Repr

def ATree.rootId : ATree → Option NodeId
  | ATree.leaf => none
  | ATree.node i _ _ _ _ => some i

/-- In-order list of (id, key, value) triples of an abstract tree. -/
def ATree.entries : ATree → List (NodeId × Int × Int)
  | ATree.leaf => []
  | ATree.node i k v l r => l.entries ++ (i, k, v) :: r.entries

def ATree.ids (t : ATree) : List NodeId := t.entries.map (fun e => e.1)

def ATree.keys (t : ATree) : List Int := t.entries.map (fun e => e.2.1)

def ATree.size (t : ATree) : Nat := t.entries.length

/-- The heap realises the abstract tree `t` at expected parent pointer `p`:
    every abstract node is allocated with exactly the key, value, parent and
    child pointers the abstract tree prescribes. -/
def agrees (h : Heap) (p : Option NodeId) : ATree → Bool
  | ATree.leaf => true
  | ATree.node i k v l r =>
    match h i with
    | none => false
    | some nd =>
      nd.key == k && nd.value == v && nd.parent == p &&
      nd.leftChild == l.rootId && nd.rightChild == r.rootId &&
      agrees h (some i) l && agrees h (some i) r

/-- Representation invariant: the heap realises `A` from a null parent, the
    root field matches, ids are distinct and below the allocator, and the
    stored count equals the abstract size. -/
def Rep (t : BinarySearchTree) (A : ATree) : Prop :=
  agrees t.heap none A = true ∧ t.root = A.rootId ∧ A.ids.Nodup ∧
    (∀ i ∈ A.ids, i < t.nextId) ∧ t.numNodes = (A.size : Int)

/-- Strictly ascending key order, the binary-search-tree invariant on the
    in-order key sequence. -/
def SortedKeys (A : ATree) : Prop := A.keys.Pairwise (· < ·)

/-- Every state of the data structure: some sorted abstract tree is
    represented. -/
def Inv (t : BinarySearchTree) : Prop := ∃ A, Rep t A ∧ SortedKeys A

/-- Which side of its parent a tree position hangs on. -/
inductive Dir where
  | left
  | right
  deriving DecidableEq, Repr

/-- One step of a path from a position up towards the root: the parent node's
    id, key and value, the sibling subtree, and the side the position is on. -/
structure Step where
  dir : Dir
  id : NodeId
  key : Int
  value : Int
  other : ATree
  deriving DecidableEq, Repr

/-- Rebuild the whole tree from a subtree and its path to the root (the head
    of the path is the immediate parent). -/
def plug : ATree → List Step → ATree
  | t, [] => t
  | t, s :: rest =>
    match s.dir with
    | Dir.left => plug (ATree.node s.id s.key s.value t s.other) rest
    | Dir.right => plug (ATree.node s.id s.key s.value s.other t) rest

/-- The parent pointer a position with the given path must carry (`p` is the
    parent of the whole plugged tree, null at the top level). -/
def parentOf (p : Option NodeId) : List Step → Option NodeId
  | [] => p
  | s :: _ => some s.id

/-- The heap realises a path: every ancestor on it is allocated with the
    prescribed fields, its child pointer on the plug side being `cid`. -/
def pathOK (h : Heap) (p : Option NodeId) : Option NodeId → List Step → Bool
  | _, [] => true
  | cid, s :: rest =>
    (match h s.id with
     | none => false
     | some nd =>
       nd.key == s.key && nd.value == s.value && nd.parent == parentOf p rest &&
       (match s.dir with
        | Dir.left => nd.leftChild == cid && nd.rightChild == s.other.rootId
        | Dir.right => nd.leftChild == s.other.rootId && nd.rightChild == cid) &&
       agrees h (some s.id) s.other) &&
    pathOK h p (some s.id) rest

/-- Entries contributed by a path strictly to the left of the plugged
    position, in order. -/
def ctxI : List Step → List (NodeId × Int × Int)
  | [] => []
  | s :: rest =>
    match s.dir with
    | Dir.left => ctxI rest
    | Dir.right => ctxI rest ++ s.other.entries ++ [(s.id, s.key, s.value)]

/-- Entries contributed by a path strictly to the right of the plugged
    position, in order. -/
def ctxJ : List Step → List (NodeId × Int × Int)
  | [] => []
  | s :: rest =>
    match s.dir with
    | Dir.left => (s.id, s.key, s.value) :: (s.other.entries ++ ctxJ rest)
    | Dir.right => ctxJ rest

/-- The id of the nearest ancestor reached from its right child: the node
    Node.prototype.predecessor's upward loop stops at. -/
def firstRightId : List Step → Option NodeId
  | [] => none
  | s :: rest =>
    match s.dir with
    | Dir.right => some s.id
    | Dir.left => firstRightId rest

/-- The id of the nearest ancestor reached from its left child: the node
    Node.prototype.successor's upward loop stops at. -/
def firstLeftId : List Step → Option NodeId
  | [] => none
  | s :: rest =>
    match s.dir with
    | Dir.left => some s.id
    | Dir.right => firstLeftId rest

/-- Functional mirror of the insert descent: where the pointer program hangs
    the fresh node. -/
def insertF : ATree → Int → Int → NodeId → ATree
  | ATree.leaf, k, v, fresh => ATree.node fresh k v ATree.leaf ATree.leaf
  | ATree.node i ki vi l r, k, v, fresh =>
    if k < ki then ATree.node i ki vi (insertF l k v fresh) r
    else if ki < k then ATree.node i ki vi l (insertF r k v fresh)
    else ATree.node i ki vi l r

/-- The in-order last entry of an abstract tree (the one Node.prototype.max
    finds). -/
def maxEntry : ATree → Option (NodeId × Int × Int)
  | ATree.leaf => none
  | ATree.node i k v _ ATree.leaf => some (i, k, v)
  | ATree.node _ _ _ _ (ATree.node j kj vj rl rr) =>
    maxEntry (ATree.node j kj vj rl rr)

/-- The in-order first entry of an abstract tree (the one Node.prototype.min
    finds). -/
def minEntry : ATree → Option (NodeId × Int × Int)
  | ATree.leaf => none
  | ATree.node i k v ATree.leaf _ => some (i, k, v)
  | ATree.node _ _ _ (ATree.node j kj vj ll lr) _ =>
    minEntry (ATree.node j kj vj ll lr)

/-- Drop the in-order last node, replacing it by its left subtree. -/
def removeMaxF : ATree → ATree
  | ATree.leaf => ATree.leaf
  | ATree.node _ _ _ l ATree.leaf => l
  | ATree.node i k v l (ATree.node j kj vj rl rr) =>
    ATree.node i k v l (removeMaxF (ATree.node j kj vj rl rr))

/-- Drop the in-order first node, replacing it by its right subtree. -/
def removeMinF : ATree → ATree
  | ATree.leaf => ATree.leaf
  | ATree.node _ _ _ ATree.leaf r => r
  | ATree.node i k v (ATree.node j kj vj ll lr) r =>
    ATree.node i k v (removeMinF (ATree.node j kj vj ll lr)) r

/-- The abstract subtree that replaces a removed position `node n k v L R`,
    following the case analysis of Node.prototype.remove; `leftOrRoot` tells
    whether the removed node was the root or a left child. -/
def removeSubF (L R : ATree) (leftOrRoot : Bool) : ATree :=
  match R with
  | ATree.leaf => L
  | _ =>
    match L with
    | ATree.leaf => R
    | _ =>
      if leftOrRoot then
        match maxEntry L with
        | some (m, km, vm) => ATree.node m km vm (removeMaxF L) R
        | none => ATree.leaf
      else
        match minEntry R with
        | some (m, km, vm) => ATree.node m km vm L (removeMinF R)
        | none => ATree.leaf

/- ------------------------------------------------------------------ -/
/- Basic lemmas about the heap and node field updates.                 -/
/- ------------------------------------------------------------------ -/

/-- A small concrete tree used to exercise the theorems on a closed input:
    node 1 (key 10) at the root, node 0 (key 5) as its left child and
    node 2 (key 15) as its right child. -/
def sampleHeap : Heap :=
  Heap.set (Heap.set (Heap.set Heap.empty
    1 ⟨10, 100, none, some 0, some 2⟩)
    0 ⟨5, 50, some 1, none, none⟩)
    2 ⟨15, 150, some 1, none, none⟩

/-- The tree object owning sampleHeap. -/
def sampleTree : BinarySearchTree := ⟨sampleHeap, some 1, 3, 3⟩

/-- The abstract tree realised by sampleHeap. -/
def sampleATree : ATree :=
  ATree.node 1 10 100 (ATree.node 0 5 50 ATree.leaf ATree.leaf)
    (ATree.node 2 15 150 ATree.leaf ATree.leaf)

theorem Heap.set_self (h : Heap) (i : NodeId) (nd : Node) :
    Heap.set h i nd i = some nd := by
  simp [Heap.set]

theorem Heap.set_ne (h : Heap) (i : NodeId) (nd : Node) {j : NodeId}
    (hj : j ≠ i) : Heap.set h i nd j = h j := by
  simp [Heap.set, hj]

@[simp] theorem Node.setParent_key (nd : Node) (p : Option NodeId) :
    (nd.setParent p).key = nd.key := rfl

@[simp] theorem Node.setParent_value (nd : Node) (p : Option NodeId) :
    (nd.setParent p).value = nd.value := rfl

@[simp] theorem Node.setParent_parent (nd : Node) (p : Option NodeId) :
    (nd.setParent p).parent = p := rfl

@[simp] theorem Node.setParent_left (nd : Node) (p : Option NodeId) :
    (nd.setParent p).leftChild = nd.leftChild := rfl

@[simp] theorem Node.setParent_right (nd : Node) (p : Option NodeId) :
    (nd.setParent p).rightChild = nd.rightChild := rfl

@[simp] theorem Node.setLeft_key (nd : Node) (l : Option NodeId) :
    (nd.setLeft l).key = nd.key := rfl

@[simp] theorem Node.setLeft_value (nd : Node) (l : Option NodeId) :
    (nd.setLeft l).value = nd.value := rfl

@[simp] theorem Node.setLeft_parent (nd : Node) (l : Option NodeId) :
    (nd.setLeft l).parent = nd.parent := rfl

@[simp] theorem Node.setLeft_left (nd : Node) (l : Option NodeId) :
    (nd.setLeft l).leftChild = l := rfl

@[simp] theorem Node.setLeft_right (nd : Node) (l : Option NodeId) :
    (nd.setLeft l).rightChild = nd.rightChild := rfl

@[simp] theorem Node.setRight_key (nd : Node) (r : Option NodeId) :
    (nd.setRight r).key = nd.key := rfl

@[simp] theorem Node.setRight_value (nd : Node) (r : Option NodeId) :
    (nd.setRight r).value = nd.value := rfl

@[simp] theorem Node.setRight_parent (nd : Node) (r : Option NodeId) :
    (nd.setRight r).parent = nd.parent := rfl

@[simp] theorem Node.setRight_left (nd : Node) (r : Option NodeId) :
    (nd.setRight r).leftChild = nd.leftChild := rfl

@[simp] theorem Node.setRight_right (nd : Node) (r : Option NodeId) :
    (nd.setRight r).rightChild = r := rfl

/- ------------------------------------------------------------------ -/
/- Structural lemmas about abstract trees.                             -/
/- ------------------------------------------------------------------ -/

@[simp] theorem ATree.entries_leaf : ATree.leaf.entries = [] := rfl

@[simp] theorem ATree.entries_node (i : NodeId) (k v : Int) (l r : ATree) :
    (ATree.node i k v l r).entries = l.entries ++ (i, k, v) :: r.entries := rfl

@[simp] theorem ATree.ids_leaf : ATree.leaf.ids = [] := rfl

@[simp] theorem ATree.ids_node (i : NodeId) (k v : Int) (l r : ATree) :
    (ATree.node i k v l r).ids = l.ids ++ i :: r.ids := by
  simp [ATree.ids]

@[simp] theorem ATree.keys_leaf : ATree.leaf.keys = [] := rfl

@[simp] theorem ATree.keys_node (i : NodeId) (k v : Int) (l r : ATree) :
    (ATree.node i k v l r).keys = l.keys ++ k :: r.keys := by
  simp [ATree.keys]

@[simp] theorem ATree.size_leaf : ATree.leaf.size = 0 := rfl

theorem ATree.size_node (i : NodeId) (k v : Int) (l r : ATree) :
    (ATree.node i k v l r).size = l.size + r.size + 1 := by
  simp [ATree.size]
  omega

theorem ATree.mem_keys_of_mem_entries {t : ATree} {e : NodeId × Int × Int}
    (he : e ∈ t.entries) : e.2.1 ∈ t.keys :=
  List.mem_map_of_mem _ he

theorem ATree.mem_ids_of_mem_entries {t : ATree} {e : NodeId × Int × Int}
    (he : e ∈ t.entries) : e.1 ∈ t.ids :=
  List.mem_map_of_mem _ he

/-- Distinctness facts packaged from a nodup node tree. -/
theorem nodup_node_facts {i : NodeId} {k v : Int} {l r : ATree}
    (hn : (ATree.node i k v l r).ids.Nodup) :
    i ∉ l.ids ∧ i ∉ r.ids ∧ l.ids.Nodup ∧ r.ids.Nodup ∧
      ∀ j ∈ l.ids, j ∉ r.ids := by
  rw [ATree.ids_node, List.nodup_append] at hn
  obtain ⟨hl, hir, hdisj⟩ := hn
  rw [List.nodup_cons] at hir
  refine ⟨fun hmem => hdisj hmem (by simp), hir.1, hl, hir.2, ?_⟩
  intro j hj hjr
  exact hdisj hj (by simp [hjr])

/- ------------------------------------------------------------------ -/
/- Lemmas about the realisation predicate agrees.                      -/
/- ------------------------------------------------------------------ -/

@[simp] theorem agrees_leaf (h : Heap) (p : Option NodeId) :
    agrees h p ATree.leaf = true := rfl

theorem agrees_node (h : Heap) (p : Option NodeId) (i : NodeId) (k v : Int)
    (l r : ATree) :
    agrees h p (ATree.node i k v l r) =
      match h i with
      | none => false
      | some nd =>
        nd.key == k && nd.value == v && nd.parent == p &&
        nd.leftChild == l.rootId && nd.rightChild == r.rootId &&
        agrees h (some i) l && agrees h (some i) r := rfl

theorem agrees_node_iff {h : Heap} {p : Option NodeId} {i : NodeId}
    {k v : Int} {l r : ATree} :
    agrees h p (ATree.node i k v l r) = true ↔
      ∃ nd, h i = some nd ∧ nd.key = k ∧ nd.value = v ∧ nd.parent = p ∧
        nd.leftChild = l.rootId ∧ nd.rightChild = r.rootId ∧
        agrees h (some i) l = true ∧ agrees h (some i) r = true := by
  rw [agrees_node]
  cases hnd : h i with
  | none => simp
  | some nd =>
    simp only [Bool.and_eq_true, beq_iff_eq]
    constructor
    · rintro ⟨⟨⟨⟨⟨h1, h2⟩, h3⟩, h4⟩, h5⟩, h6⟩
      exact ⟨nd, rfl, h1.1, h1.2, h2, h3, h4, h5, h6⟩
    · rintro ⟨nd', hnd', h1, h2, h3, h4, h5, h6, h7⟩
      cases hnd'
      exact ⟨⟨⟨⟨⟨⟨h1, h2⟩, h3⟩, h4⟩, h5⟩, h6⟩, h7⟩

theorem agrees_congr {h h' : Heap} (p : Option NodeId) (t : ATree)
    (hh : ∀ j ∈ t.ids, h' j = h j) : agrees h' p t = agrees h p t := by
  induction t generalizing p with
  | leaf => rfl
  | node i k v l r ihl ihr =>
    have hi : h' i = h i := hh i (by simp)
    unfold agrees
    rw [hi, ihl _ fun j hj => hh j (by simp [hj]),
      ihr _ fun j hj => hh j (by simp [hj])]

theorem agrees_set_notMem {h : Heap} {p : Option NodeId} {t : ATree}
    {i : NodeId} (hi : i ∉ t.ids) (nd : Node) :
    agrees (Heap.set h i nd) p t = agrees h p t :=
  agrees_congr p t fun j hj =>
    Heap.set_ne h i nd fun e => hi (e ▸ hj)

theorem agrees_lookup {h : Heap} {p : Option NodeId} {t : ATree}
    (hag : agrees h p t = true) {e : NodeId × Int × Int}
    (he : e ∈ t.entries) :
    ∃ nd, h e.1 = some nd ∧ nd.key = e.2.1 ∧ nd.value = e.2.2 := by
  induction t generalizing p with
  | leaf => simp at he
  | node i k v l r ihl ihr =>
    rcases agrees_node_iff.1 hag with
      ⟨nd, hnd, hk, hv, _, _, _, hagl, hagr⟩
    rw [ATree.entries_node, List.mem_append, List.mem_cons] at he
    rcases he with he | he | he
    · exact ihl hagl he
    · subst he; exact ⟨nd, hnd, hk, hv⟩
    · exact ihr hagr he

theorem agrees_root_reparent {h : Heap} {p : Option NodeId} {i : NodeId}
    {k v : Int} {l r : ATree} {nd : Node}
    (hag : agrees h p (ATree.node i k v l r) = true)
    (hnd : h i = some nd)
    (hnodup : (ATree.node i k v l r).ids.Nodup) (q : Option NodeId) :
    agrees (Heap.set h i (nd.setParent q)) q (ATree.node i k v l r) = true := by
  rcases agrees_node_iff.1 hag with
    ⟨nd', hnd', hk, hv, _, hl, hr, hagl, hagr⟩
  rw [hnd] at hnd'
  cases hnd'
  obtain ⟨hil, hir, _, _, _⟩ := nodup_node_facts hnodup
  refine agrees_node_iff.2 ⟨nd.setParent q, Heap.set_self h i _, by simp [hk],
    by simp [hv], by simp, by simp [hl], by simp [hr], ?_, ?_⟩
  · rw [agrees_set_notMem hil]; exact hagl
  · rw [agrees_set_notMem hir]; exact hagr

/- ------------------------------------------------------------------ -/
/- Lemmas about paths and plugging.                                    -/
/- ------------------------------------------------------------------ -/

@[simp] theorem plug_nil (t : ATree) : plug t [] = t := rfl

theorem plug_cons (t : ATree) (s : Step) (rest : List Step) :
    plug t (s :: rest) =
      match s.dir with
      | Dir.left => plug (ATree.node s.id s.key s.value t s.other) rest
      | Dir.right => plug (ATree.node s.id s.key s.value s.other t) rest := rfl

theorem plug_append (t : ATree) (P Q : List Step) :
    plug t (P ++ Q) = plug (plug t P) Q := by
  induction P generalizing t with
  | nil => rfl
  | cons s rest ih =>
    cases hd : s.dir <;> simp [plug_cons, hd, ih]

theorem plug_entries (P : List Step) (t : ATree) :
    (plug t P).entries = ctxI P ++ t.entries ++ ctxJ P := by
  induction P generalizing t with
  | nil => simp [ctxI, ctxJ]
  | cons s rest ih =>
    cases hd : s.dir <;>
      simp [plug_cons, hd, ih, ctxI, ctxJ]

theorem plug_rootId_congr {t t' : ATree} (P : List Step)
    (hroot : t.rootId = t'.rootId) :
    (plug t P).rootId = (plug t' P).rootId := by
  induction P generalizing t t' with
  | nil => exact hroot
  | cons s rest ih =>
    cases hd : s.dir <;> simp only [plug_cons, hd] <;> exact ih rfl

@[simp] theorem parentOf_nil (p : Option NodeId) : parentOf p [] = p := rfl

@[simp] theorem parentOf_cons (p : Option NodeId) (s : Step)
    (rest : List Step) : parentOf p (s :: rest) = some s.id := rfl

theorem pathOK_cons (h : Heap) (p cid : Option NodeId) (s : Step)
    (rest : List Step) :
    pathOK h p cid (s :: rest) =
      ((match h s.id with
       | none => false
       | some nd =>
         nd.key == s.key && nd.value == s.value &&
         nd.parent == parentOf p rest &&
         (match s.dir with
          | Dir.left => nd.leftChild == cid && nd.rightChild == s.other.rootId
          | Dir.right => nd.leftChild == s.other.rootId && nd.rightChild == cid) &&
         agrees h (some s.id) s.other) &&
      pathOK h p (some s.id) rest) := rfl

theorem agrees_plug_iff {h : Heap} (P : List Step) (p : Option NodeId)
    (t : ATree) :
    agrees h p (plug t P) = true ↔
      pathOK h p t.rootId P = true ∧ agrees h (parentOf p P) t = true := by
  induction P generalizing t with
  | nil => simp [pathOK]
  | cons s rest ih =>
    cases hd : s.dir
    case left =>
      rw [plug_cons, hd]
      rw [ih]
      rw [agrees_node_iff, pathOK_cons]
      cases hnd : h s.id with
      | none => simp
      | some nd =>
        simp only [hd, Bool.and_eq_true, beq_iff_eq, parentOf_cons]
        constructor
        · rintro ⟨hrest, nd', hnd', h1, h2, h3, h4, h5, h6, h7⟩
          obtain rfl := Option.some.inj hnd'
          exact ⟨⟨⟨⟨⟨⟨h1, h2⟩, h3⟩, h4, h5⟩, h7⟩, hrest⟩, h6⟩
        · rintro ⟨⟨⟨⟨⟨⟨h1, h2⟩, h3⟩, h4, h5⟩, h7⟩, hrest⟩, h6⟩
          exact ⟨hrest, nd, rfl, h1, h2, h3, h4, h5, h6, h7⟩
    case right =>
      rw [plug_cons, hd]
      rw [ih]
      rw [agrees_node_iff, pathOK_cons]
      cases hnd : h s.id with
      | none => simp
      | some nd =>
        simp only [hd, Bool.and_eq_true, beq_iff_eq, parentOf_cons]
        constructor
        · rintro ⟨hrest, nd', hnd', h1, h2, h3, h4, h5, h6, h7⟩
          obtain rfl := Option.some.inj hnd'
          exact ⟨⟨⟨⟨⟨⟨h1, h2⟩, h3⟩, h4, h5⟩, h6⟩, hrest⟩, h7⟩
        · rintro ⟨⟨⟨⟨⟨⟨h1, h2⟩, h3⟩, h4, h5⟩, h6⟩, hrest⟩, h7⟩
          exact ⟨hrest, nd, rfl, h1, h2, h3, h4, h5, h6, h7⟩

/-- All ids mentioned by a path: the ancestors and their sibling subtrees. -/
def pathIds : List Step → List NodeId
  | [] => []
  | s :: rest => s.id :: (s.other.ids ++ pathIds rest)

theorem plug_ids_count (P : List Step) (t : ATree) (x : NodeId) :
    ((plug t P).ids).count x = t.ids.count x + (pathIds P).count x := by
  induction P generalizing t with
  | nil => simp [pathIds]
  | cons s rest ih =>
    cases hd : s.dir <;>
      simp [plug_cons, hd, ih, pathIds, List.count_append, List.count_cons] <;>
      omega

theorem plug_ids_perm (P : List Step) (t : ATree) :
    ((plug t P).ids).Perm (t.ids ++ pathIds P) := by
  rw [List.perm_iff_count]
  intro x
  simp [plug_ids_count, List.count_append]

theorem plug_nodup (P : List Step) (t : ATree)
    (hn : ((plug t P).ids).Nodup) : (t.ids ++ pathIds P).Nodup :=
  (plug_ids_perm P t).nodup hn

theorem pathOK_congr {h h' : Heap} (P : List Step) (p : Option NodeId)
    (hh : ∀ j ∈ pathIds P, h' j = h j) (cid : Option NodeId) :
    pathOK h' p cid P = pathOK h p cid P := by
  induction P generalizing cid with
  | nil => rfl
  | cons s rest ih =>
    rw [pathOK_cons, pathOK_cons, hh s.id (by simp [pathIds])]
    rw [ih (fun j hj => hh j (by simp [pathIds, hj])) (some s.id)]
    cases hs : h s.id with
    | none => rfl
    | some nd =>
      rw [agrees_congr (some s.id) s.other
        (fun j hj => hh j (by simp [pathIds, hj]))]

theorem pathOK_set_notMem {h : Heap} {P : List Step} {p : Option NodeId}
    {i : NodeId} (hi : i ∉ pathIds P) (nd : Node) (cid : Option NodeId) :
    pathOK (Heap.set h i nd) p cid P = pathOK h p cid P :=
  pathOK_congr P p (fun j hj => Heap.set_ne h i nd fun e => hi (e ▸ hj)) cid

theorem pathOK_set_left {h : Heap} {p cid : Option NodeId} {s : Step}
    {rest : List Step} {nd : Node}
    (hOK : pathOK h p cid (s :: rest) = true)
    (hnd : h s.id = some nd) (hdir : s.dir = Dir.left)
    (hother : s.id ∉ s.other.ids) (hrest : s.id ∉ pathIds rest)
    (cid' : Option NodeId) :
    pathOK (Heap.set h s.id (nd.setLeft cid')) p cid' (s :: rest) = true := by
  rw [pathOK_cons] at hOK
  rw [hnd, hdir] at hOK
  simp only [Bool.and_eq_true, beq_iff_eq] at hOK
  obtain ⟨⟨⟨⟨⟨h1, h2⟩, h3⟩, _, h5⟩, h6⟩, h7⟩ := hOK
  rw [pathOK_cons, Heap.set_self, hdir]
  simp only [Bool.and_eq_true, beq_iff_eq]
  refine ⟨⟨⟨⟨⟨by simp [h1], by simp [h2]⟩, by simp [h3]⟩, by simp,
    by simp [h5]⟩, ?_⟩, ?_⟩
  · rw [agrees_set_notMem hother]; exact h6
  · rw [pathOK_set_notMem hrest]; exact h7

theorem pathOK_set_right {h : Heap} {p cid : Option NodeId} {s : Step}
    {rest : List Step} {nd : Node}
    (hOK : pathOK h p cid (s :: rest) = true)
    (hnd : h s.id = some nd) (hdir : s.dir = Dir.right)
    (hother : s.id ∉ s.other.ids) (hrest : s.id ∉ pathIds rest)
    (cid' : Option NodeId) :
    pathOK (Heap.set h s.id (nd.setRight cid')) p cid' (s :: rest) = true := by
  rw [pathOK_cons] at hOK
  rw [hnd, hdir] at hOK
  simp only [Bool.and_eq_true, beq_iff_eq] at hOK
  obtain ⟨⟨⟨⟨⟨h1, h2⟩, h3⟩, h4, _⟩, h6⟩, h7⟩ := hOK
  rw [pathOK_cons, Heap.set_self, hdir]
  simp only [Bool.and_eq_true, beq_iff_eq]
  refine ⟨⟨⟨⟨⟨by simp [h1], by simp [h2]⟩, by simp [h3]⟩, by simp [h4],
    by simp⟩, ?_⟩, ?_⟩
  · rw [agrees_set_notMem hother]; exact h6
  · rw [pathOK_set_notMem hrest]; exact h7

/-- Every entry of an abstract tree sits at a pluggable position. -/
theorem mem_entries_decomp {t : ATree} {e : NodeId × Int × Int}
    (he : e ∈ t.entries) :
    ∃ L R P, t = plug (ATree.node e.1 e.2.1 e.2.2 L R) P := by
  induction t with
  | leaf => simp at he
  | node i k v l r ihl ihr =>
    rw [ATree.entries_node, List.mem_append, List.mem_cons] at he
    rcases he with he | he | he
    · obtain ⟨L, R, P, hP⟩ := ihl he
      refine ⟨L, R, P ++ [⟨Dir.left, i, k, v, r⟩], ?_⟩
      rw [plug_append, ← hP]; rfl
    · subst he
      exact ⟨l, r, [], rfl⟩
    · obtain ⟨L, R, P, hP⟩ := ihr he
      refine ⟨L, R, P ++ [⟨Dir.right, i, k, v, l⟩], ?_⟩
      rw [plug_append, ← hP]; rfl

/- ------------------------------------------------------------------ -/
/- Lemmas about maxEntry, minEntry, removeMaxF, removeMinF.            -/
/- ------------------------------------------------------------------ -/

theorem maxEntry_eq_getLast (t : ATree) : maxEntry t = t.entries.getLast? := by
  induction t with
  | leaf => rfl
  | node i k v l r ihl ihr =>
    cases r with
    | leaf => simp [maxEntry]
    | node j kj vj rl rr =>
      rw [show maxEntry (ATree.node i k v l (ATree.node j kj vj rl rr)) =
        maxEntry (ATree.node j kj vj rl rr) from rfl, ihr]
      cases hE : (ATree.node j kj vj rl rr).entries with
      | nil => simp at hE
      | cons e es =>
        rw [ATree.entries_node, List.getLast?_append, hE,
          List.getLast?_cons_cons]
        cases hgl : (e :: es).getLast? with
        | none =>
          have hne : (e :: es) ≠ [] := by simp
          have hsome := List.getLast?_isSome.mpr hne
          rw [hgl] at hsome
          simp at hsome
        | some a => rfl

theorem minEntry_eq_head (t : ATree) : minEntry t = t.entries.head? := by
  induction t with
  | leaf => rfl
  | node i k v l r ihl ihr =>
    cases l with
    | leaf => simp [minEntry]
    | node j kj vj ll lr =>
      rw [show minEntry (ATree.node i k v (ATree.node j kj vj ll lr) r) =
        minEntry (ATree.node j kj vj ll lr) from rfl, ihl]
      simp [ATree.entries_node]

/-- Decompose a tree at its in-order last node: the node hangs at the end of
    an all-right path, has no right child, and removeMaxF replaces it in
    place by its left subtree. -/
theorem maxEntry_decomp {t : ATree} {m : NodeId} {km vm : Int}
    (hm : maxEntry t = some (m, km, vm)) :
    ∃ Lm Q, t = plug (ATree.node m km vm Lm ATree.leaf) Q ∧
      (∀ s ∈ Q, s.dir = Dir.right) ∧ removeMaxF t = plug Lm Q := by
  induction t with
  | leaf => simp [maxEntry] at hm
  | node i k v l r ihl ihr =>
    cases r with
    | leaf =>
      rw [show maxEntry (ATree.node i k v l ATree.leaf) = some (i, k, v)
        from rfl] at hm
      obtain ⟨rfl, rfl, rfl⟩ : i = m ∧ k = km ∧ v = vm := by
        injection hm with hm'
        refine ⟨congrArg Prod.fst hm', ?_, ?_⟩
        · exact congrArg (fun e => e.2.1) hm'
        · exact congrArg (fun e => e.2.2) hm'
      exact ⟨l, [], rfl, by simp, rfl⟩
    | node j kj vj rl rr =>
      obtain ⟨Lm, Q, hQ1, hQ2, hQ3⟩ := ihr (by
        rw [show maxEntry (ATree.node i k v l (ATree.node j kj vj rl rr)) =
          maxEntry (ATree.node j kj vj rl rr) from rfl] at hm
        exact hm)
      refine ⟨Lm, Q ++ [⟨Dir.right, i, k, v, l⟩], ?_, ?_, ?_⟩
      · rw [plug_append, ← hQ1]; rfl
      · intro s hs
        rcases List.mem_append.1 hs with hs | hs
        · exact hQ2 s hs
        · simp at hs; subst hs; rfl
      · rw [plug_append, ← hQ3]
        rfl

/-- Decompose a tree at its in-order first node, symmetrically. -/
theorem minEntry_decomp {t : ATree} {m : NodeId} {km vm : Int}
    (hm : minEntry t = some (m, km, vm)) :
    ∃ Rm Q, t = plug (ATree.node m km vm ATree.leaf Rm) Q ∧
      (∀ s ∈ Q, s.dir = Dir.left) ∧ removeMinF t = plug Rm Q := by
  induction t with
  | leaf => simp [minEntry] at hm
  | node i k v l r ihl ihr =>
    cases l with
    | leaf =>
      rw [show minEntry (ATree.node i k v ATree.leaf r) = some (i, k, v)
        from rfl] at hm
      obtain ⟨rfl, rfl, rfl⟩ : i = m ∧ k = km ∧ v = vm := by
        injection hm with hm'
        refine ⟨congrArg Prod.fst hm', ?_, ?_⟩
        · exact congrArg (fun e => e.2.1) hm'
        · exact congrArg (fun e => e.2.2) hm'
      exact ⟨r, [], rfl, by simp, rfl⟩
    | node j kj vj ll lr =>
      obtain ⟨Rm, Q, hQ1, hQ2, hQ3⟩ := ihl (by
        rw [show minEntry (ATree.node i k v (ATree.node j kj vj ll lr) r) =
          minEntry (ATree.node j kj vj ll lr) from rfl] at hm
        exact hm)
      refine ⟨Rm, Q ++ [⟨Dir.left, i, k, v, r⟩], ?_, ?_, ?_⟩
      · rw [plug_append, ← hQ1]; rfl
      · intro s hs
        rcases List.mem_append.1 hs with hs | hs
        · exact hQ2 s hs
        · simp at hs; subst hs; rfl
      · rw [plug_append, ← hQ3]
        rfl

theorem ctxJ_all_right {Q : List Step} (hQ : ∀ s ∈ Q, s.dir = Dir.right) :
    ctxJ Q = [] := by
  induction Q with
  | nil => rfl
  | cons s rest ih =>
    have := hQ s (by simp)
    simp [ctxJ, this, ih fun s hs => hQ s (by simp [hs])]

theorem ctxI_all_left {Q : List Step} (hQ : ∀ s ∈ Q, s.dir = Dir.left) :
    ctxI Q = [] := by
  induction Q with
  | nil => rfl
  | cons s rest ih =>
    have := hQ s (by simp)
    simp [ctxI, this, ih fun s hs => hQ s (by simp [hs])]

theorem maxEntry_isSome {t : ATree} (ht : t ≠ ATree.leaf) :
    ∃ e, maxEntry t = some e := by
  cases t with
  | leaf => exact absurd rfl ht
  | node i k v l r =>
    rw [maxEntry_eq_getLast]
    cases hgl : (ATree.node i k v l r).entries.getLast? with
    | none =>
      have hne : (ATree.node i k v l r).entries ≠ [] := by simp
      have hsome := List.getLast?_isSome.mpr hne
      rw [hgl] at hsome
      simp at hsome
    | some e => exact ⟨e, rfl⟩

theorem minEntry_isSome {t : ATree} (ht : t ≠ ATree.leaf) :
    ∃ e, minEntry t = some e := by
  cases t with
  | leaf => exact absurd rfl ht
  | node i k v l r =>
    rw [minEntry_eq_head]
    cases hE : (ATree.node i k v l r).entries with
    | nil => simp at hE
    | cons e es => exact ⟨e, rfl⟩

/- ------------------------------------------------------------------ -/
/- Specifications of the heap navigation loops.                        -/
/- ------------------------------------------------------------------ -/

theorem sorted_node_facts {i : NodeId} {k v : Int} {l r : ATree}
    (hs : SortedKeys (ATree.node i k v l r)) :
    SortedKeys l ∧ SortedKeys r ∧ (∀ x ∈ l.keys, x < k) ∧
      ∀ y ∈ r.keys, k < y := by
  unfold SortedKeys at *
  rw [ATree.keys_node, List.pairwise_append] at hs
  obtain ⟨hl, hkr, hcross⟩ := hs
  rw [List.pairwise_cons] at hkr
  exact ⟨hl, hkr.2, fun x hx => hcross x hx k (by simp),
    fun y hy => hkr.1 y hy⟩

theorem nodeMax_spec {h : Heap} {r : ATree} :
    ∀ {p : Option NodeId} {i : NodeId} {k v : Int} {l : ATree} {fuel : Nat}
      {m : NodeId} {km vm : Int},
      agrees h p (ATree.node i k v l r) = true →
      maxEntry (ATree.node i k v l r) = some (m, km, vm) →
      (ATree.node i k v l r).size < fuel →
      Node.max fuel h i = some m := by
  induction r with
  | leaf =>
    intro p i k v l fuel m km vm hag hm hfuel
    obtain ⟨nd, hnd, _, _, _, _, hri, _, _⟩ := agrees_node_iff.1 hag
    have hi : i = m := by
      rw [show maxEntry (ATree.node i k v l ATree.leaf) = some (i, k, v)
        from rfl] at hm
      exact congrArg (fun e => (Option.getD (e.map Prod.fst) 0)) hm
    have h1 : 1 ≤ (ATree.node i k v l ATree.leaf).size := by
      simp [ATree.size]
    cases fuel with
    | zero => omega
    | succ f =>
      subst hi
      simp [Node.max, hnd, hri, ATree.rootId]
  | node j kj vj rl rr ihl ihr =>
    intro p i k v l fuel m km vm hag hm hfuel
    obtain ⟨nd, hnd, _, _, _, _, hri, _, hagr⟩ := agrees_node_iff.1 hag
    have hm' : maxEntry (ATree.node j kj vj rl rr) = some (m, km, vm) := hm
    have hsz : (ATree.node i k v l (ATree.node j kj vj rl rr)).size =
        l.size + (ATree.node j kj vj rl rr).size + 1 := ATree.size_node ..
    cases fuel with
    | zero => omega
    | succ f =>
      have : Node.max f h j = some m :=
        ihr hagr hm' (by
          have := ATree.size_node i k v l (ATree.node j kj vj rl rr)
          omega)
      simp [Node.max, hnd, hri, ATree.rootId, this]

theorem nodeMin_spec {h : Heap} {l : ATree} :
    ∀ {p : Option NodeId} {i : NodeId} {k v : Int} {r : ATree} {fuel : Nat}
      {m : NodeId} {km vm : Int},
      agrees h p (ATree.node i k v l r) = true →
      minEntry (ATree.node i k v l r) = some (m, km, vm) →
      (ATree.node i k v l r).size < fuel →
      Node.min fuel h i = some m := by
  induction l with
  | leaf =>
    intro p i k v r fuel m km vm hag hm hfuel
    obtain ⟨nd, hnd, _, _, _, hle, _, _, _⟩ := agrees_node_iff.1 hag
    have hi : i = m := by
      rw [show minEntry (ATree.node i k v ATree.leaf r) = some (i, k, v)
        from rfl] at hm
      exact congrArg (fun e => (Option.getD (e.map Prod.fst) 0)) hm
    have h1 : 1 ≤ (ATree.node i k v ATree.leaf r).size := by
      simp [ATree.size]
    cases fuel with
    | zero => omega
    | succ f =>
      subst hi
      simp [Node.min, hnd, hle, ATree.rootId]
  | node j kj vj ll lr ihl ihr =>
    intro p i k v r fuel m km vm hag hm hfuel
    obtain ⟨nd, hnd, _, _, _, hle, _, hagl, _⟩ := agrees_node_iff.1 hag
    have hm' : minEntry (ATree.node j kj vj ll lr) = some (m, km, vm) := hm
    cases fuel with
    | zero =>
      have := ATree.size_node i k v (ATree.node j kj vj ll lr) r
      omega
    | succ f =>
      have : Node.min f h j = some m :=
        ihl hagl hm' (by
          have := ATree.size_node i k v (ATree.node j kj vj ll lr) r
          omega)
      simp [Node.min, hnd, hle, ATree.rootId, this]

theorem nodeGet_found {h : Heap} {t : ATree} :
    ∀ {p : Option NodeId} {fuel : Nat} {n rt : NodeId} {k v : Int},
      agrees h p t = true → SortedKeys t → (n, k, v) ∈ t.entries →
      t.rootId = some rt → t.size < fuel →
      Node.get fuel h rt k = some (some n) := by
  induction t with
  | leaf =>
    intro p fuel n rt k v _ _ he _ _
    simp at he
  | node i ki vi l r ihl ihr =>
    intro p fuel n rt k v hag hs he hrt hfuel
    obtain ⟨nd, hnd, hkey, _, _, hle, hri, hagl, hagr⟩ := agrees_node_iff.1 hag
    obtain rfl : i = rt := by
      rw [show (ATree.node i ki vi l r).rootId = some i from rfl] at hrt
      exact Option.some.inj hrt
    obtain ⟨hsl, hsr, hlk, hrk⟩ := sorted_node_facts hs
    have hsz := ATree.size_node i ki vi l r
    cases fuel with
    | zero => omega
    | succ f =>
      rw [ATree.entries_node, List.mem_append, List.mem_cons] at he
      rcases he with he | he | he
      · have hk : k < ki := hlk k (ATree.mem_keys_of_mem_entries he)
        obtain ⟨l0, hl0⟩ : ∃ l0, l.rootId = some l0 := by
          cases l with
          | leaf => simp at he
          | node a b c d e => exact ⟨a, rfl⟩
        have hrec : Node.get f h l0 k = some (some n) :=
          ihl hagl hsl he hl0 (by omega)
        simp [Node.get, hnd, hkey, hk, hle, hl0, hrec]
      · obtain ⟨rfl, rfl, rfl⟩ : n = i ∧ k = ki ∧ v = vi := by
          refine ⟨congrArg Prod.fst he, ?_, ?_⟩
          · exact congrArg (fun e => e.2.1) he
          · exact congrArg (fun e => e.2.2) he
        simp [Node.get, hnd, hkey]
      · have hk : ki < k := hrk k (ATree.mem_keys_of_mem_entries he)
        obtain ⟨r0, hr0⟩ : ∃ r0, r.rootId = some r0 := by
          cases r with
          | leaf => simp at he
          | node a b c d e => exact ⟨a, rfl⟩
        have hrec : Node.get f h r0 k = some (some n) :=
          ihr hagr hsr he hr0 (by omega)
        simp [Node.get, hnd, hkey, hk, not_lt.2 hk.le, hri, hr0, hrec]

theorem nodeGet_absent {h : Heap} {t : ATree} :
    ∀ {p : Option NodeId} {fuel : Nat} {rt : NodeId} {k : Int},
      agrees h p t = true → k ∉ t.keys → t.rootId = some rt →
      t.size < fuel →
      Node.get fuel h rt k = some none := by
  induction t with
  | leaf =>
    intro p fuel rt k _ _ hrt _
    simp [ATree.rootId] at hrt
  | node i ki vi l r ihl ihr =>
    intro p fuel rt k hag hk hrt hfuel
    obtain ⟨nd, hnd, hkey, _, _, hle, hri, hagl, hagr⟩ := agrees_node_iff.1 hag
    obtain rfl : i = rt := by
      rw [show (ATree.node i ki vi l r).rootId = some i from rfl] at hrt
      exact Option.some.inj hrt
    have hsz := ATree.size_node i ki vi l r
    have hkl : k ∉ l.keys := fun hc => hk (by simp [hc])
    have hkr : k ∉ r.keys := fun hc => hk (by simp [hc])
    have hki : k ≠ ki := fun hc => hk (by simp [hc])
    cases fuel with
    | zero => omega
    | succ f =>
      rcases lt_trichotomy k ki with hlt | heq | hgt
      · cases hl : l with
        | leaf =>
          subst hl
          simp [Node.get, hnd, hkey, hlt, hle, ATree.rootId]
        | node a b c d e =>
          subst hl
          have hrec : Node.get f h a k = some none :=
            ihl hagl hkl rfl (by omega)
          simp [Node.get, hnd, hkey, hlt, hle, ATree.rootId, hrec]
      · exact absurd heq hki
      · cases hr : r with
        | leaf =>
          subst hr
          simp [Node.get, hnd, hkey, hgt, not_lt.2 hgt.le, hri, ATree.rootId]
        | node a b c d e =>
          subst hr
          have hrec : Node.get f h a k = some none :=
            ihr hagr hkr rfl (by omega)
          simp [Node.get, hnd, hkey, hgt, not_lt.2 hgt.le, hri,
            ATree.rootId, hrec]

/- ------------------------------------------------------------------ -/
/- The insert operation.                                               -/
/- ------------------------------------------------------------------ -/

theorem insertF_node (i : NodeId) (ki vi k v : Int) (l r : ATree)
    (fresh : NodeId) :
    insertF (ATree.node i ki vi l r) k v fresh =
      if k < ki then ATree.node i ki vi (insertF l k v fresh) r
      else if ki < k then ATree.node i ki vi l (insertF r k v fresh)
      else ATree.node i ki vi l r := rfl

theorem insertF_rootId {t : ATree} (ht : t ≠ ATree.leaf) (k v : Int)
    (fresh : NodeId) : (insertF t k v fresh).rootId = t.rootId := by
  cases t with
  | leaf => exact absurd rfl ht
  | node i ki vi l r =>
    rw [insertF_node]
    split
    · rfl
    · split <;> rfl

theorem insertF_split {t : ATree} {k : Int} (hk : k ∉ t.keys) (v : Int)
    (fresh : NodeId) :
    ∃ A B, t.entries = A ++ B ∧
      (insertF t k v fresh).entries = A ++ (fresh, k, v) :: B := by
  induction t with
  | leaf => exact ⟨[], [], rfl, rfl⟩
  | node i ki vi l r ihl ihr =>
    have hkl : k ∉ l.keys := fun hc => hk (by simp [hc])
    have hkr : k ∉ r.keys := fun hc => hk (by simp [hc])
    have hki : k ≠ ki := fun hc => hk (by simp [hc])
    rcases lt_trichotomy k ki with hlt | heq | hgt
    · obtain ⟨A, B, hAB, hAB'⟩ := ihl hkl
      refine ⟨A, B ++ (i, ki, vi) :: r.entries, ?_, ?_⟩
      · rw [ATree.entries_node, hAB, List.append_assoc]
      · rw [show insertF (ATree.node i ki vi l r) k v fresh =
          ATree.node i ki vi (insertF l k v fresh) r by
            rw [insertF_node]; simp [hlt]]
        rw [ATree.entries_node, hAB']
        simp
    · exact absurd heq hki
    · obtain ⟨A, B, hAB, hAB'⟩ := ihr hkr
      refine ⟨l.entries ++ (i, ki, vi) :: A, B, ?_, ?_⟩
      · rw [ATree.entries_node, hAB]
        simp
      · rw [show insertF (ATree.node i ki vi l r) k v fresh =
          ATree.node i ki vi l (insertF r k v fresh) by
            rw [insertF_node]; simp [hgt, not_lt.2 hgt.le]]
        rw [ATree.entries_node, hAB']
        simp

theorem insertF_mem_keys {t : ATree} {k v : Int} {fresh : NodeId} {x : Int}
    (hx : x ∈ (insertF t k v fresh).keys) : x = k ∨ x ∈ t.keys := by
  induction t with
  | leaf =>
    simp [insertF] at hx
    exact Or.inl hx
  | node i ki vi l r ihl ihr =>
    unfold insertF at hx
    by_cases hlt : k < ki
    · simp only [if_pos hlt] at hx
      rw [ATree.keys_node, List.mem_append, List.mem_cons] at hx
      rcases hx with hx | hx | hx
      · rcases ihl hx with hx | hx
        · exact Or.inl hx
        · exact Or.inr (by simp [hx])
      · exact Or.inr (by simp [hx])
      · exact Or.inr (by simp [hx])
    · by_cases hgt : ki < k
      · simp only [if_neg hlt, if_pos hgt] at hx
        rw [ATree.keys_node, List.mem_append, List.mem_cons] at hx
        rcases hx with hx | hx | hx
        · exact Or.inr (by simp [hx])
        · exact Or.inr (by simp [hx])
        · rcases ihr hx with hx | hx
          · exact Or.inl hx
          · exact Or.inr (by simp [hx])
      · simp only [if_neg hlt, if_neg hgt] at hx
        exact Or.inr hx

theorem insertF_sorted {t : ATree} {k : Int} (hs : SortedKeys t)
    (hk : k ∉ t.keys) (v : Int) (fresh : NodeId) :
    SortedKeys (insertF t k v fresh) := by
  induction t with
  | leaf =>
    unfold SortedKeys insertF
    simp
  | node i ki vi l r ihl ihr =>
    have hkl : k ∉ l.keys := fun hc => hk (by simp [hc])
    have hkr : k ∉ r.keys := fun hc => hk (by simp [hc])
    have hki : k ≠ ki := fun hc => hk (by simp [hc])
    obtain ⟨hsl, hsr, hlk, hrk⟩ := sorted_node_facts hs
    rcases lt_trichotomy k ki with hlt | heq | hgt
    · rw [show insertF (ATree.node i ki vi l r) k v fresh =
        ATree.node i ki vi (insertF l k v fresh) r by
          rw [insertF_node]; simp [hlt]]
      unfold SortedKeys
      rw [ATree.keys_node, List.pairwise_append]
      refine ⟨ihl hsl hkl, ?_, ?_⟩
      · rw [List.pairwise_cons]
        exact ⟨fun y hy => hrk y hy, hsr⟩
      · intro x hx y hy
        rcases insertF_mem_keys hx with rfl | hx
        · rcases List.mem_cons.1 hy with rfl | hy
          · exact hlt
          · exact hlt.trans (hrk y hy)
        · rcases List.mem_cons.1 hy with rfl | hy
          · exact hlk x hx
          · exact (hlk x hx).trans (hrk y hy)
    · exact absurd heq hki
    · rw [show insertF (ATree.node i ki vi l r) k v fresh =
        ATree.node i ki vi l (insertF r k v fresh) by
          rw [insertF_node]; simp [hgt, not_lt.2 hgt.le]]
      unfold SortedKeys
      rw [ATree.keys_node, List.pairwise_append]
      refine ⟨hsl, ?_, ?_⟩
      · rw [List.pairwise_cons]
        refine ⟨fun y hy => ?_, ihr hsr hkr⟩
        rcases insertF_mem_keys hy with rfl | hy
        · exact hgt
        · exact hrk y hy
      · intro x hx y hy
        rcases List.mem_cons.1 hy with rfl | hy
        · exact hlk x hx
        · rcases insertF_mem_keys hy with rfl | hy
          · exact (hlk x hx).trans hgt
          · exact (hlk x hx).trans (hrk y hy)

theorem nodeInsert_spec {h : Heap} {t : ATree} :
    ∀ {p : Option NodeId} {fuel : Nat} {rt fresh : NodeId} {k v : Int},
      agrees h p t = true → t.ids.Nodup → k ∉ t.keys → fresh ∉ t.ids →
      t.rootId = some rt → t.size < fuel →
      ∃ h', Node.insert fuel h rt k v fresh =
          some (Except.ok (h', fresh)) ∧
        agrees h' p (insertF t k v fresh) = true ∧
        ∀ j, j ≠ fresh → j ∉ t.ids → h' j = h j := by
  induction t with
  | leaf =>
    intro p fuel rt fresh k v _ _ _ _ hrt _
    simp [ATree.rootId] at hrt
  | node i ki vi l r ihl ihr =>
    intro p fuel rt fresh k v hag hnodup hk hfresh hrt hfuel
    obtain ⟨nd, hnd, hkey, hval, hpar, hle, hri, hagl, hagr⟩ :=
      agrees_node_iff.1 hag
    obtain rfl : i = rt := by
      rw [show (ATree.node i ki vi l r).rootId = some i from rfl] at hrt
      exact Option.some.inj hrt
    obtain ⟨hinl, hinr, hndl, hndr, hdisj⟩ := nodup_node_facts hnodup
    have hfi : i ≠ fresh := fun hc => hfresh (hc ▸ (by simp : i ∈ (ATree.node i ki vi l r).ids))
    have hfl : fresh ∉ l.ids := fun hc => hfresh (by simp [hc])
    have hfr : fresh ∉ r.ids := fun hc => hfresh (by simp [hc])
    have hkl : k ∉ l.keys := fun hc => hk (by simp [hc])
    have hkr : k ∉ r.keys := fun hc => hk (by simp [hc])
    have hki : k ≠ ki := fun hc => hk (by simp [hc])
    have hsz := ATree.size_node i ki vi l r
    cases fuel with
    | zero => omega
    | succ f =>
      rcases lt_trichotomy k ki with hlt | heq | hgt
      · cases hl : l with
        | leaf =>
          subst hl
          refine ⟨Heap.set (Heap.set h fresh ⟨k, v, some i, none, none⟩) i
            (nd.setLeft (some fresh)), ?_, ?_, ?_⟩
          · simp [Node.insert, hnd, hkey, hlt, hle, ATree.rootId]
          · rw [show insertF (ATree.node i ki vi ATree.leaf r) k v fresh =
              ATree.node i ki vi (ATree.node fresh k v ATree.leaf ATree.leaf) r
              by rw [insertF_node]; simp [hlt, insertF]]
            refine agrees_node_iff.2 ⟨nd.setLeft (some fresh),
              Heap.set_self .., by simp [hkey], by simp [hval],
              by simp [hpar], by simp [ATree.rootId], by simp [hri], ?_, ?_⟩
            · refine agrees_node_iff.2 ⟨⟨k, v, some i, none, none⟩, ?_,
                rfl, rfl, rfl, rfl, rfl, rfl, rfl⟩
              rw [Heap.set_ne _ _ _ (Ne.symm hfi), Heap.set_self]
            · rw [agrees_set_notMem hinr, agrees_set_notMem hfr]
              exact hagr
          · intro j hjf hjm
            have hji : j ≠ i := fun hc => hjm (by simp [hc])
            rw [Heap.set_ne _ _ _ hji, Heap.set_ne _ _ _ hjf]
        | node a b c d e =>
          subst hl
          obtain ⟨h', hrun, hag', hframe⟩ :=
            @ihl (some i) f a fresh k v hagl hndl hkl hfl rfl (by omega)
          refine ⟨h', ?_, ?_, ?_⟩
          · simp [Node.insert, hnd, hkey, hlt, hle, ATree.rootId, hrun]
          · rw [show insertF (ATree.node i ki vi (ATree.node a b c d e) r)
                k v fresh =
              ATree.node i ki vi (insertF (ATree.node a b c d e) k v fresh) r
              by rw [insertF_node]; simp [hlt, insertF]]
            have hi' : h' i = some nd := by
              rw [hframe i hfi hinl]; exact hnd
            refine agrees_node_iff.2 ⟨nd, hi', hkey, hval, hpar, ?_, hri,
              hag', ?_⟩
            · rw [insertF_rootId (by simp) k v fresh]
              exact hle
            · rw [agrees_congr (some i) r (fun j hj =>
                hframe j (fun hc => hfr (hc ▸ hj)) (fun hc => hdisj j hc hj))]
              exact hagr
          · intro j hjf hjm
            refine hframe j hjf fun hc => hjm ?_
            simp only [ATree.ids_node, List.mem_append, List.mem_cons] at hc ⊢
            tauto
      · exact absurd heq hki
      · cases hr : r with
        | leaf =>
          subst hr
          refine ⟨Heap.set (Heap.set h fresh ⟨k, v, some i, none, none⟩) i
            (nd.setRight (some fresh)), ?_, ?_, ?_⟩
          · simp [Node.insert, hnd, hkey, hgt, not_lt.2 hgt.le, hri,
              ATree.rootId]
          · rw [show insertF (ATree.node i ki vi l ATree.leaf) k v fresh =
              ATree.node i ki vi l (ATree.node fresh k v ATree.leaf ATree.leaf)
              by rw [insertF_node]; simp [hgt, not_lt.2 hgt.le, insertF]]
            refine agrees_node_iff.2 ⟨nd.setRight (some fresh),
              Heap.set_self .., by simp [hkey], by simp [hval],
              by simp [hpar], by simp [hle], by simp [ATree.rootId], ?_, ?_⟩
            · rw [agrees_set_notMem hinl, agrees_set_notMem hfl]
              exact hagl
            · refine agrees_node_iff.2 ⟨⟨k, v, some i, none, none⟩, ?_,
                rfl, rfl, rfl, rfl, rfl, rfl, rfl⟩
              rw [Heap.set_ne _ _ _ (Ne.symm hfi), Heap.set_self]
          · intro j hjf hjm
            have hji : j ≠ i := fun hc => hjm (by simp [hc])
            rw [Heap.set_ne _ _ _ hji, Heap.set_ne _ _ _ hjf]
        | node a b c d e =>
          subst hr
          obtain ⟨h', hrun, hag', hframe⟩ :=
            @ihr (some i) f a fresh k v hagr hndr hkr hfr rfl (by omega)
          refine ⟨h', ?_, ?_, ?_⟩
          · simp [Node.insert, hnd, hkey, hgt, not_lt.2 hgt.le, hri,
              ATree.rootId, hrun]
          · rw [show insertF (ATree.node i ki vi l (ATree.node a b c d e))
                k v fresh =
              ATree.node i ki vi l (insertF (ATree.node a b c d e) k v fresh)
              by rw [insertF_node]; simp [hgt, not_lt.2 hgt.le, insertF]]
            have hi' : h' i = some nd := by
              rw [hframe i hfi hinr]; exact hnd
            refine agrees_node_iff.2 ⟨nd, hi', hkey, hval, hpar, hle, ?_,
              ?_, hag'⟩
            · rw [insertF_rootId (by simp) k v fresh]
              exact hri
            · rw [agrees_congr (some i) l (fun j hj =>
                hframe j (fun hc => hfl (hc ▸ hj)) (fun hc => hdisj j hj hc))]
              exact hagl
          · intro j hjf hjm
            refine hframe j hjf fun hc => hjm ?_
            simp only [ATree.ids_node, List.mem_append, List.mem_cons] at hc ⊢
            tauto

theorem nodeInsert_dup {h : Heap} {t : ATree} :
    ∀ {p : Option NodeId} {fuel : Nat} {rt fresh : NodeId} {k v : Int},
      agrees h p t = true → SortedKeys t → k ∈ t.keys →
      t.rootId = some rt → t.size < fuel →
      Node.insert fuel h rt k v fresh =
        some (Except.error JsErr.duplicateKey) := by
  induction t with
  | leaf =>
    intro p fuel rt fresh k v _ _ hk _ _
    simp at hk
  | node i ki vi l r ihl ihr =>
    intro p fuel rt fresh k v hag hs hk hrt hfuel
    obtain ⟨nd, hnd, hkey, _, _, hle, hri, hagl, hagr⟩ := agrees_node_iff.1 hag
    obtain rfl : i = rt := by
      rw [show (ATree.node i ki vi l r).rootId = some i from rfl] at hrt
      exact Option.some.inj hrt
    obtain ⟨hsl, hsr, hlk, hrk⟩ := sorted_node_facts hs
    have hsz := ATree.size_node i ki vi l r
    cases fuel with
    | zero => omega
    | succ f =>
      rw [ATree.keys_node, List.mem_append, List.mem_cons] at hk
      rcases hk with hk | hk | hk
      · have hlt : k < ki := hlk k hk
        cases hl : l with
        | leaf => subst hl; simp at hk
        | node a b c d e =>
          subst hl
          have hrec : Node.insert f h a k v fresh =
              some (Except.error JsErr.duplicateKey) :=
            ihl hagl hsl hk rfl (by omega)
          simp [Node.insert, hnd, hkey, hlt, hle, ATree.rootId, hrec]
      · subst hk
        simp [Node.insert, hnd, hkey]
      · have hgt : ki < k := hrk k hk
        cases hr : r with
        | leaf => subst hr; simp at hk
        | node a b c d e =>
          subst hr
          have hrec : Node.insert f h a k v fresh =
              some (Except.error JsErr.duplicateKey) :=
            ihr hagr hsr hk rfl (by omega)
          simp [Node.insert, hnd, hkey, hgt, not_lt.2 hgt.le, hri,
            ATree.rootId, hrec]

/- ------------------------------------------------------------------ -/
/- The remove operation: heap-level specification.                     -/
/- ------------------------------------------------------------------ -/

theorem nodup_plug_facts {t : ATree} {P : List Step}
    (hn : ((plug t P).ids).Nodup) :
    t.ids.Nodup ∧ (pathIds P).Nodup ∧ ∀ j ∈ t.ids, j ∉ pathIds P := by
  have hperm := plug_nodup P t hn
  rw [List.nodup_append] at hperm
  exact ⟨hperm.1, hperm.2.1, fun j hj => hperm.2.2 hj⟩

theorem pathIds_cons (s : Step) (rest : List Step) :
    pathIds (s :: rest) = s.id :: (s.other.ids ++ pathIds rest) := rfl

theorem nodup_pathIds_cons {s : Step} {rest : List Step}
    (hn : (pathIds (s :: rest)).Nodup) :
    s.id ∉ s.other.ids ∧ s.id ∉ pathIds rest := by
  rw [pathIds_cons, List.nodup_cons] at hn
  exact ⟨fun hc => hn.1 (by simp [hc]), fun hc => hn.1 (by simp [hc])⟩

theorem replaceWith_run_none_root {h : Heap} {self : NodeId} {sd : Node}
    (hsd : h self = some sd) (hp : sd.parent = none) :
    Node.replaceWith h self none = some h := by
  unfold Node.replaceWith
  rw [hsd]
  simp only [Option.bind_eq_bind, Option.some_bind, hp]

theorem replaceWith_run_none_par {h : Heap} {self p : NodeId} {sd pd : Node}
    (hsd : h self = some sd) (hp : sd.parent = some p)
    (hpd : h p = some pd) :
    Node.replaceWith h self none =
      if pd.leftChild = some self then some (Heap.set h p (pd.setLeft none))
      else some (Heap.set h p (pd.setRight none)) := by
  unfold Node.replaceWith
  rw [hsd]
  simp only [Option.bind_eq_bind, Option.some_bind, hp]
  rw [hpd]
  simp only [Option.some_bind]

theorem replaceWith_run_some_root {h : Heap} {self x : NodeId} {sd xd : Node}
    (hsd : h self = some sd) (hx : h x = some xd) (hp : sd.parent = none) :
    Node.replaceWith h self (some x) =
      some (Heap.set h x (xd.setParent none)) := by
  unfold Node.replaceWith
  rw [hsd]
  simp only [Option.bind_eq_bind, Option.some_bind]
  rw [hx]
  simp only [Option.some_bind, hp]

theorem replaceWith_run_some_par {h : Heap} {self x p : NodeId}
    {sd xd pd : Node} (hsd : h self = some sd) (hx : h x = some xd)
    (hp : sd.parent = some p)
    (hpd : Heap.set h x (xd.setParent (some p)) p = some pd) :
    Node.replaceWith h self (some x) =
      (if pd.leftChild = some self then
        some (Heap.set (Heap.set h x (xd.setParent (some p))) p
          (pd.setLeft (some x)))
      else
        some (Heap.set (Heap.set h x (xd.setParent (some p))) p
          (pd.setRight (some x)))) := by
  unfold Node.replaceWith
  rw [hsd]
  simp only [Option.bind_eq_bind, Option.some_bind]
  rw [hx]
  simp only [Option.some_bind, hp]
  rw [hpd]
  simp only [Option.some_bind]

theorem adoptLeft_run {h : Heap} {self node lc : NodeId} {nd lcd sd : Node}
    (hnode : h node = some nd) (hlc : nd.leftChild = some lc)
    (hlcd : h lc = some lcd)
    (hsd : Heap.set h lc (lcd.setParent (some self)) self = some sd) :
    Node.adoptLeftChild h self node =
      some (Heap.set (Heap.set h lc (lcd.setParent (some self))) self
        (sd.setLeft (some lc))) := by
  unfold Node.adoptLeftChild
  rw [hnode]
  simp only [Option.bind_eq_bind, Option.some_bind, hlc]
  rw [hlcd]
  simp only [Option.some_bind]
  rw [hsd]
  simp only [Option.some_bind]

theorem adoptRight_run {h : Heap} {self node rc : NodeId} {nd rcd sd : Node}
    (hnode : h node = some nd) (hrc : nd.rightChild = some rc)
    (hrcd : h rc = some rcd)
    (hsd : Heap.set h rc (rcd.setParent (some self)) self = some sd) :
    Node.adoptRightChild h self node =
      some (Heap.set (Heap.set h rc (rcd.setParent (some self))) self
        (sd.setRight (some rc))) := by
  unfold Node.adoptRightChild
  rw [hnode]
  simp only [Option.bind_eq_bind, Option.some_bind, hrc]
  rw [hrcd]
  simp only [Option.some_bind]
  rw [hsd]
  simp only [Option.some_bind]

theorem nodeRemove_run1 {h : Heap} {n : NodeId} {nd : Node} {fuel : Nat}
    (hnd : h n = some nd) (hri : nd.rightChild = none) :
    Node.remove fuel h n =
      (Node.replaceWith h n nd.leftChild).bind fun h3 =>
        some (h3, nd.leftChild) := by
  unfold Node.remove
  rw [hnd]
  simp only [Option.bind_eq_bind, Option.some_bind, hri, if_true]

theorem nodeRemove_run2 {h : Heap} {n r0 : NodeId} {nd : Node} {fuel : Nat}
    (hnd : h n = some nd) (hri : nd.rightChild = some r0)
    (hle : nd.leftChild = none) :
    Node.remove fuel h n =
      (Node.replaceWith h n nd.rightChild).bind fun h3 =>
        some (h3, nd.rightChild) := by
  unfold Node.remove
  rw [hnd]
  simp only [Option.bind_eq_bind, Option.some_bind, hri, hle, if_true]
  simp

theorem nodeRemove_run3_deep_root {h : Heap} {n l r0 m : NodeId} {nd rd : Node}
    {fuel : Nat} (hnd : h n = some nd) (hle : nd.leftChild = some l)
    (hri : nd.rightChild = some r0) (hpar : nd.parent = none)
    (hmax : Node.max fuel h l = some m) (hml : m ≠ l) (hrd : h m = some rd) :
    Node.remove fuel h n =
      (Node.replaceWith h m rd.leftChild).bind fun ha =>
      (Node.adoptLeftChild ha m n).bind fun h1 =>
      (Node.adoptRightChild h1 m n).bind fun h2 =>
      (Node.replaceWith h2 n (some m)).bind fun h3 =>
      some (h3, some m) := by
  unfold Node.remove
  rw [hnd]
  simp only [Option.bind_eq_bind, Option.some_bind, hri, hle, hpar, if_true]
  rw [hmax]
  simp only [Option.some_bind]
  rw [if_pos (fun hc : some m = some l => hml (Option.some.inj hc))]
  rw [hrd]
  simp only [Option.some_bind]
  simp

theorem nodeRemove_run3_deep_left {h : Heap} {n l r0 m p : NodeId}
    {nd pd rd : Node} {fuel : Nat} (hnd : h n = some nd)
    (hle : nd.leftChild = some l) (hri : nd.rightChild = some r0)
    (hpar : nd.parent = some p) (hpd : h p = some pd)
    (hpl : pd.leftChild = some n)
    (hmax : Node.max fuel h l = some m) (hml : m ≠ l) (hrd : h m = some rd) :
    Node.remove fuel h n =
      (Node.replaceWith h m rd.leftChild).bind fun ha =>
      (Node.adoptLeftChild ha m n).bind fun h1 =>
      (Node.adoptRightChild h1 m n).bind fun h2 =>
      (Node.replaceWith h2 n (some m)).bind fun h3 =>
      some (h3, some m) := by
  unfold Node.remove
  rw [hnd]
  simp only [Option.bind_eq_bind, Option.some_bind, hri, hle, hpar]
  rw [hpd]
  simp only [Option.some_bind, hpl, beq_self_eq_true, if_true]
  rw [hmax]
  simp only [Option.some_bind]
  rw [if_pos (fun hc : some m = some l => hml (Option.some.inj hc))]
  rw [hrd]
  simp only [Option.some_bind]
  simp

theorem nodeRemove_run3_shallow_root {h : Heap} {n l r0 : NodeId} {nd : Node}
    {fuel : Nat} (hnd : h n = some nd) (hle : nd.leftChild = some l)
    (hri : nd.rightChild = some r0) (hpar : nd.parent = none)
    (hmax : Node.max fuel h l = some l) :
    Node.remove fuel h n =
      (Node.adoptRightChild h l n).bind fun h2 =>
      (Node.replaceWith h2 n (some l)).bind fun h3 =>
      some (h3, some l) := by
  unfold Node.remove
  rw [hnd]
  simp only [Option.bind_eq_bind, Option.some_bind, hri, hle, hpar, if_true]
  rw [hmax]
  simp only [Option.some_bind]
  rw [if_neg (fun hc : ¬ some l = some l => hc rfl)]
  simp

theorem nodeRemove_run3_shallow_left {h : Heap} {n l r0 p : NodeId}
    {nd pd : Node} {fuel : Nat} (hnd : h n = some nd)
    (hle : nd.leftChild = some l) (hri : nd.rightChild = some r0)
    (hpar : nd.parent = some p) (hpd : h p = some pd)
    (hpl : pd.leftChild = some n)
    (hmax : Node.max fuel h l = some l) :
    Node.remove fuel h n =
      (Node.adoptRightChild h l n).bind fun h2 =>
      (Node.replaceWith h2 n (some l)).bind fun h3 =>
      some (h3, some l) := by
  unfold Node.remove
  rw [hnd]
  simp only [Option.bind_eq_bind, Option.some_bind, hri, hle, hpar]
  rw [hpd]
  simp only [Option.some_bind, hpl, beq_self_eq_true, if_true]
  rw [hmax]
  simp only [Option.some_bind]
  rw [if_neg (fun hc : ¬ some l = some l => hc rfl)]
  simp

theorem nodeRemove_run4_deep {h : Heap} {n l0 r0 m p : NodeId}
    {nd pd rd : Node} {fuel : Nat} (hnd : h n = some nd)
    (hle : nd.leftChild = some l0) (hri : nd.rightChild = some r0)
    (hpar : nd.parent = some p) (hpd : h p = some pd)
    (hpl : pd.leftChild ≠ some n)
    (hmin : Node.min fuel h r0 = some m) (hmr : m ≠ r0) (hrd : h m = some rd) :
    Node.remove fuel h n =
      (Node.replaceWith h m rd.rightChild).bind fun ha =>
      (Node.adoptRightChild ha m n).bind fun h1 =>
      (Node.adoptLeftChild h1 m n).bind fun h2 =>
      (Node.replaceWith h2 n (some m)).bind fun h3 =>
      some (h3, some m) := by
  unfold Node.remove
  rw [hnd]
  simp only [Option.bind_eq_bind, Option.some_bind, hri, hle, hpar]
  rw [hpd]
  simp only [Option.some_bind]
  rw [show (pd.leftChild == some n) = false from beq_eq_false_iff_ne.2 hpl]
  simp only [Bool.false_eq_true, if_false]
  rw [hmin]
  simp only [Option.some_bind]
  rw [if_pos (fun hc : some m = some r0 => hmr (Option.some.inj hc))]
  rw [hrd]
  simp only [Option.some_bind]
  simp

theorem nodeRemove_run4_shallow {h : Heap} {n l0 r0 p : NodeId}
    {nd pd : Node} {fuel : Nat} (hnd : h n = some nd)
    (hle : nd.leftChild = some l0) (hri : nd.rightChild = some r0)
    (hpar : nd.parent = some p) (hpd : h p = some pd)
    (hpl : pd.leftChild ≠ some n)
    (hmin : Node.min fuel h r0 = some r0) :
    Node.remove fuel h n =
      (Node.adoptLeftChild h r0 n).bind fun h2 =>
      (Node.replaceWith h2 n (some r0)).bind fun h3 =>
      some (h3, some r0) := by
  unfold Node.remove
  rw [hnd]
  simp only [Option.bind_eq_bind, Option.some_bind, hri, hle, hpar]
  rw [hpd]
  simp only [Option.some_bind]
  rw [show (pd.leftChild == some n) = false from beq_eq_false_iff_ne.2 hpl]
  simp only [Bool.false_eq_true, if_false]
  rw [hmin]
  simp only [Option.some_bind]
  rw [if_neg (fun hc : ¬ some r0 = some r0 => hc rfl)]
  simp

/-- Case 1 of Node.prototype.remove: no right child.  The left subtree (or
    nothing) is spliced into the removed node's position. -/
theorem nodeRemove_case1 {h : Heap} {n : NodeId} {k v : Int} {L : ATree}
    {P : List Step} (fuel : Nat)
    (hag : agrees h none (plug (ATree.node n k v L ATree.leaf) P) = true)
    (hnodup : ((plug (ATree.node n k v L ATree.leaf) P).ids).Nodup) :
    ∃ h', Node.remove fuel h n = some (h', L.rootId) ∧
      agrees h' none (plug L P) = true ∧ h' n = h n := by
  rcases (agrees_plug_iff P none _).1 hag with ⟨hpath, hagn⟩
  obtain ⟨nd, hnd, hkey, hval, hpar, hle, hri, hagL, _⟩ :=
    agrees_node_iff.1 hagn
  obtain ⟨hndt, hndP, hdisj⟩ := nodup_plug_facts hnodup
  obtain ⟨hnL, _, hndL, _, _⟩ := nodup_node_facts hndt
  have hnP : n ∉ pathIds P := hdisj n (by simp)
  have hLP : ∀ j ∈ L.ids, j ∉ pathIds P := fun j hj => hdisj j (by simp [hj])
  rw [show ATree.leaf.rootId = none from rfl] at hri
  cases hL : L with
  | leaf =>
    subst hL
    rw [show ATree.leaf.rootId = none from rfl] at hle ⊢
    cases hP : P with
    | nil =>
      subst hP
      rw [parentOf_nil] at hpar
      refine ⟨h, ?_, by simpa using hagL, rfl⟩
      rw [nodeRemove_run1 hnd hri, hle, replaceWith_run_none_root hnd hpar]
      rfl
    | cons s rest =>
      subst hP
      obtain ⟨nds, hnds⟩ : ∃ nds, h s.id = some nds := by
        rw [pathOK_cons] at hpath
        cases hns : h s.id with
        | none => rw [hns] at hpath; simp at hpath
        | some x => exact ⟨x, rfl⟩
      rw [parentOf_cons] at hpar
      obtain ⟨hsO, hsP⟩ := nodup_pathIds_cons hndP
      cases hdir : s.dir with
      | left =>
        have hisleft : nds.leftChild = some n := by
          rw [pathOK_cons, hnds, hdir] at hpath
          simp only [Bool.and_eq_true, beq_iff_eq] at hpath
          exact hpath.1.1.2.1
        refine ⟨Heap.set h s.id (nds.setLeft none), ?_, ?_, ?_⟩
        · rw [nodeRemove_run1 hnd hri, hle,
            replaceWith_run_none_par hnd hpar hnds, if_pos hisleft]
          rfl
        · refine (agrees_plug_iff _ _ _).2 ⟨?_, by simp⟩
          exact pathOK_set_left hpath hnds hdir hsO hsP none
        · rw [Heap.set_ne]
          intro hc
          exact hnP (hc ▸ (by simp [pathIds_cons]))
      | right =>
        have hnotleft : nds.leftChild ≠ some n := by
          rw [pathOK_cons, hnds, hdir] at hpath
          simp only [Bool.and_eq_true, beq_iff_eq] at hpath
          have hother : nds.leftChild = s.other.rootId := hpath.1.1.2.1
          rw [hother]
          cases hO : s.other with
          | leaf => simp [ATree.rootId]
          | node oi ok ov ol orr =>
            intro hc
            have hoi : oi = n := by
              rw [show (ATree.node oi ok ov ol orr).rootId = some oi
                from rfl] at hc
              exact Option.some.inj hc
            apply hnP
            rw [pathIds_cons]
            simp [← hoi, hO]
        refine ⟨Heap.set h s.id (nds.setRight none), ?_, ?_, ?_⟩
        · rw [nodeRemove_run1 hnd hri, hle,
            replaceWith_run_none_par hnd hpar hnds, if_neg hnotleft]
          rfl
        · refine (agrees_plug_iff _ _ _).2 ⟨?_, by simp⟩
          exact pathOK_set_right hpath hnds hdir hsO hsP none
        · rw [Heap.set_ne]
          intro hc
          exact hnP (hc ▸ (by simp [pathIds_cons]))
  | node l0 lk lv ll lr =>
    subst hL
    rw [show (ATree.node l0 lk lv ll lr).rootId = some l0 from rfl] at hle ⊢
    obtain ⟨ld, hld, _, _, _, _, _, _, _⟩ := agrees_node_iff.1 hagL
    have hl0n : l0 ≠ n := by
      intro hc
      exact hnL (by simp [← hc])
    have hl0P : l0 ∉ pathIds P := hLP l0 (by simp)
    cases hP : P with
    | nil =>
      subst hP
      rw [parentOf_nil] at hpar
      refine ⟨Heap.set h l0 (ld.setParent none), ?_, ?_, ?_⟩
      · rw [nodeRemove_run1 hnd hri, hle,
          replaceWith_run_some_root hnd hld hpar]
        rfl
      · simp only [plug_nil]
        exact agrees_root_reparent hagL hld hndL none
      · exact Heap.set_ne _ _ _ (Ne.symm hl0n)
    | cons s rest =>
      subst hP
      obtain ⟨nds, hnds⟩ : ∃ nds, h s.id = some nds := by
        rw [pathOK_cons] at hpath
        cases hns : h s.id with
        | none => rw [hns] at hpath; simp at hpath
        | some x => exact ⟨x, rfl⟩
      rw [parentOf_cons] at hpar
      obtain ⟨hsO, hsP⟩ := nodup_pathIds_cons hndP
      have hsl0 : s.id ≠ l0 := by
        intro hc
        exact hl0P (hc ▸ (by simp [pathIds_cons]))
      have hpath1 : pathOK (Heap.set h l0 (ld.setParent (some s.id))) none
          (some n) (s :: rest) = true := by
        rw [pathOK_set_notMem hl0P]
        exact hpath
      have hnds1 : Heap.set h l0 (ld.setParent (some s.id)) s.id =
          some nds := by
        rw [Heap.set_ne _ _ _ hsl0]
        exact hnds
      have hagL1 : agrees (Heap.set h l0 (ld.setParent (some s.id)))
          (some s.id) (ATree.node l0 lk lv ll lr) = true :=
        agrees_root_reparent hagL hld hndL (some s.id)
      have hsidL : s.id ∉ (ATree.node l0 lk lv ll lr).ids := by
        intro hc
        rcases (by simpa using hc : s.id ∈ ll.ids ∨ s.id = l0 ∨
            s.id ∈ lr.ids) with hc' | hc' | hc'
        · exact hLP s.id (by simp [hc']) (by simp [pathIds_cons])
        · exact hsl0 hc'
        · exact hLP s.id (by simp [hc']) (by simp [pathIds_cons])
      cases hdir : s.dir with
      | left =>
        have hisleft : nds.leftChild = some n := by
          rw [pathOK_cons, hnds, hdir] at hpath
          simp only [Bool.and_eq_true, beq_iff_eq] at hpath
          exact hpath.1.1.2.1
        refine ⟨Heap.set (Heap.set h l0 (ld.setParent (some s.id))) s.id
          (nds.setLeft (some l0)), ?_, ?_, ?_⟩
        · rw [nodeRemove_run1 hnd hri, hle,
            replaceWith_run_some_par hnd hld hpar hnds1, if_pos hisleft]
          rfl
        · refine (agrees_plug_iff _ _ _).2 ⟨?_, ?_⟩
          · exact pathOK_set_left hpath1 hnds1 hdir hsO hsP (some l0)
          · rw [parentOf_cons, agrees_set_notMem hsidL]
            exact hagL1
        · rw [Heap.set_ne, Heap.set_ne _ _ _ (Ne.symm hl0n)]
          intro hc
          exact hnP (hc ▸ (by simp [pathIds_cons]))
      | right =>
        have hnotleft : nds.leftChild ≠ some n := by
          rw [pathOK_cons, hnds, hdir] at hpath
          simp only [Bool.and_eq_true, beq_iff_eq] at hpath
          have hother : nds.leftChild = s.other.rootId := hpath.1.1.2.1
          rw [hother]
          cases hO : s.other with
          | leaf => simp [ATree.rootId]
          | node oi ok ov ol orr =>
            intro hc
            have hoi : oi = n := by
              rw [show (ATree.node oi ok ov ol orr).rootId = some oi
                from rfl] at hc
              exact Option.some.inj hc
            apply hnP
            rw [pathIds_cons]
            simp [← hoi, hO]
        refine ⟨Heap.set (Heap.set h l0 (ld.setParent (some s.id))) s.id
          (nds.setRight (some l0)), ?_, ?_, ?_⟩
        · rw [nodeRemove_run1 hnd hri, hle,
            replaceWith_run_some_par hnd hld hpar hnds1, if_neg hnotleft]
          rfl
        · refine (agrees_plug_iff _ _ _).2 ⟨?_, ?_⟩
          · exact pathOK_set_right hpath1 hnds1 hdir hsO hsP (some l0)
          · rw [parentOf_cons, agrees_set_notMem hsidL]
            exact hagL1
        · rw [Heap.set_ne, Heap.set_ne _ _ _ (Ne.symm hl0n)]
          intro hc
          exact hnP (hc ▸ (by simp [pathIds_cons]))

/-- Case 2 of Node.prototype.remove: a right child but no left child.  The
    right subtree is spliced into the removed node's position. -/
theorem nodeRemove_case2 {h : Heap} {n r0 : NodeId} {k v kr vr : Int}
    {rl rr : ATree} {P : List Step} (fuel : Nat)
    (hag : agrees h none
      (plug (ATree.node n k v ATree.leaf (ATree.node r0 kr vr rl rr)) P) =
      true)
    (hnodup : ((plug (ATree.node n k v ATree.leaf
      (ATree.node r0 kr vr rl rr)) P).ids).Nodup) :
    ∃ h', Node.remove fuel h n = some (h', some r0) ∧
      agrees h' none (plug (ATree.node r0 kr vr rl rr) P) = true ∧
      h' n = h n := by
  rcases (agrees_plug_iff P none _).1 hag with ⟨hpath, hagn⟩
  obtain ⟨nd, hnd, hkey, hval, hpar, hle, hri, _, hagR⟩ :=
    agrees_node_iff.1 hagn
  obtain ⟨hndt, hndP, hdisj⟩ := nodup_plug_facts hnodup
  obtain ⟨_, hnR, _, hndR, _⟩ := nodup_node_facts hndt
  have hnP : n ∉ pathIds P := hdisj n (by simp)
  have hRP : ∀ j ∈ (ATree.node r0 kr vr rl rr).ids, j ∉ pathIds P :=
    fun j hj => hdisj j (by simp; simp at hj; tauto)
  rw [show ATree.leaf.rootId = none from rfl] at hle
  rw [show (ATree.node r0 kr vr rl rr).rootId = some r0 from rfl] at hri
  obtain ⟨rd, hrd, _, _, _, _, _, _, _⟩ := agrees_node_iff.1 hagR
  have hr0n : r0 ≠ n := by
    intro hc
    exact hnR (by simp [← hc])
  have hr0P : r0 ∉ pathIds P := hRP r0 (by simp)
  cases hP : P with
  | nil =>
    subst hP
    rw [parentOf_nil] at hpar
    refine ⟨Heap.set h r0 (rd.setParent none), ?_, ?_, ?_⟩
    · rw [nodeRemove_run2 hnd hri hle, hri,
        replaceWith_run_some_root hnd hrd hpar]
      rfl
    · simp only [plug_nil]
      exact agrees_root_reparent hagR hrd hndR none
    · exact Heap.set_ne _ _ _ (Ne.symm hr0n)
  | cons s rest =>
    subst hP
    obtain ⟨nds, hnds⟩ : ∃ nds, h s.id = some nds := by
      rw [pathOK_cons] at hpath
      cases hns : h s.id with
      | none => rw [hns] at hpath; simp at hpath
      | some x => exact ⟨x, rfl⟩
    rw [parentOf_cons] at hpar
    obtain ⟨hsO, hsP⟩ := nodup_pathIds_cons hndP
    have hsr0 : s.id ≠ r0 := by
      intro hc
      exact hr0P (hc ▸ (by simp [pathIds_cons]))
    have hpath1 : pathOK (Heap.set h r0 (rd.setParent (some s.id))) none
        (some n) (s :: rest) = true := by
      rw [pathOK_set_notMem hr0P]
      exact hpath
    have hnds1 : Heap.set h r0 (rd.setParent (some s.id)) s.id =
        some nds := by
      rw [Heap.set_ne _ _ _ hsr0]
      exact hnds
    have hagR1 : agrees (Heap.set h r0 (rd.setParent (some s.id)))
        (some s.id) (ATree.node r0 kr vr rl rr) = true :=
      agrees_root_reparent hagR hrd hndR (some s.id)
    have hsidR : s.id ∉ (ATree.node r0 kr vr rl rr).ids := by
      intro hc
      exact hRP s.id hc (by simp [pathIds_cons])
    cases hdir : s.dir with
    | left =>
      have hisleft : nds.leftChild = some n := by
        rw [pathOK_cons, hnds, hdir] at hpath
        simp only [Bool.and_eq_true, beq_iff_eq] at hpath
        exact hpath.1.1.2.1
      refine ⟨Heap.set (Heap.set h r0 (rd.setParent (some s.id))) s.id
        (nds.setLeft (some r0)), ?_, ?_, ?_⟩
      · rw [nodeRemove_run2 hnd hri hle, hri,
          replaceWith_run_some_par hnd hrd hpar hnds1, if_pos hisleft]
        rfl
      · refine (agrees_plug_iff _ _ _).2 ⟨?_, ?_⟩
        · exact pathOK_set_left hpath1 hnds1 hdir hsO hsP (some r0)
        · rw [parentOf_cons, agrees_set_notMem hsidR]
          exact hagR1
      · rw [Heap.set_ne, Heap.set_ne _ _ _ (Ne.symm hr0n)]
        intro hc
        exact hnP (hc ▸ (by simp [pathIds_cons]))
    | right =>
      have hnotleft : nds.leftChild ≠ some n := by
        rw [pathOK_cons, hnds, hdir] at hpath
        simp only [Bool.and_eq_true, beq_iff_eq] at hpath
        have hother : nds.leftChild = s.other.rootId := hpath.1.1.2.1
        rw [hother]
        cases hO : s.other with
        | leaf => simp [ATree.rootId]
        | node oi ok ov ol orr =>
          intro hc
          have hoi : oi = n := by
            rw [show (ATree.node oi ok ov ol orr).rootId = some oi
              from rfl] at hc
            exact Option.some.inj hc
          apply hnP
          rw [pathIds_cons]
          simp [← hoi, hO]
      refine ⟨Heap.set (Heap.set h r0 (rd.setParent (some s.id))) s.id
        (nds.setRight (some r0)), ?_, ?_, ?_⟩
      · rw [nodeRemove_run2 hnd hri hle, hri,
          replaceWith_run_some_par hnd hrd hpar hnds1, if_neg hnotleft]
        rfl
      · refine (agrees_plug_iff _ _ _).2 ⟨?_, ?_⟩
        · exact pathOK_set_right hpath1 hnds1 hdir hsO hsP (some r0)
        · rw [parentOf_cons, agrees_set_notMem hsidR]
          exact hagR1
      · rw [Heap.set_ne, Heap.set_ne _ _ _ (Ne.symm hr0n)]
        intro hc
        exact hnP (hc ▸ (by simp [pathIds_cons]))

/-- Final step of the two-children removal cases: `h2` already realises the
    replacement node `m` with its new left and right subtrees attached, and
    the removed node `n` still holds the position on the path; the final
    `replaceWith` splices `m` into that position. -/
theorem nodeRemove_splice {h2 : Heap} {n m : NodeId} {km vm : Int}
    {L2 R2 : ATree} {P : List Step} {nd md : Node}
    (hnd : h2 n = some nd) (hpar : nd.parent = parentOf none P)
    (hmd : h2 m = some md) (hk : md.key = km) (hv : md.value = vm)
    (hl : md.leftChild = L2.rootId) (hr : md.rightChild = R2.rootId)
    (hagL : agrees h2 (some m) L2 = true)
    (hagR : agrees h2 (some m) R2 = true)
    (hpath : pathOK h2 none (some n) P = true)
    (hmn : m ≠ n)
    (hmL : m ∉ L2.ids) (hmR : m ∉ R2.ids) (hmP : m ∉ pathIds P)
    (hnP : n ∉ pathIds P) (hndP : (pathIds P).Nodup)
    (hLP : ∀ j ∈ L2.ids, j ∉ pathIds P)
    (hRP : ∀ j ∈ R2.ids, j ∉ pathIds P) :
    ∃ h3, Node.replaceWith h2 n (some m) = some h3 ∧
      agrees h3 none (plug (ATree.node m km vm L2 R2) P) = true ∧
      h3 n = h2 n := by
  cases hP : P with
  | nil =>
    subst hP
    rw [parentOf_nil] at hpar
    refine ⟨Heap.set h2 m (md.setParent none), ?_, ?_, ?_⟩
    · exact replaceWith_run_some_root hnd hmd hpar
    · rw [plug_nil]
      refine agrees_node_iff.2 ⟨md.setParent none, Heap.set_self ..,
        by simp [hk], by simp [hv], by simp, by simp [hl], by simp [hr],
        ?_, ?_⟩
      · rw [agrees_set_notMem hmL]
        exact hagL
      · rw [agrees_set_notMem hmR]
        exact hagR
    · rw [Heap.set_ne _ _ _ (Ne.symm hmn)]
  | cons s rest =>
    subst hP
    rw [parentOf_cons] at hpar
    obtain ⟨nds, hnds⟩ : ∃ nds, h2 s.id = some nds := by
      rw [pathOK_cons] at hpath
      cases hns : h2 s.id with
      | none => rw [hns] at hpath; simp at hpath
      | some x => exact ⟨x, rfl⟩
    have hsm : s.id ≠ m := fun hc => hmP (hc ▸ (by simp [pathIds_cons]))
    have hsn : s.id ≠ n := fun hc => hnP (hc ▸ (by simp [pathIds_cons]))
    have hnds1 : Heap.set h2 m (md.setParent (some s.id)) s.id =
        some nds := by
      rw [Heap.set_ne _ _ _ hsm]
      exact hnds
    have hpath1 : pathOK (Heap.set h2 m (md.setParent (some s.id))) none
        (some n) (s :: rest) = true := by
      rw [pathOK_set_notMem hmP]
      exact hpath
    have hsL : s.id ∉ L2.ids := fun hc =>
      hLP s.id hc (by simp [pathIds_cons])
    have hsR : s.id ∉ R2.ids := fun hc =>
      hRP s.id hc (by simp [pathIds_cons])
    have hagnode : ∀ cd : Node, agrees (Heap.set (Heap.set h2 m
        (md.setParent (some s.id))) s.id cd) (some s.id)
        (ATree.node m km vm L2 R2) = true := by
      intro cd
      refine agrees_node_iff.2 ⟨md.setParent (some s.id), ?_,
        by simp [hk], by simp [hv], by simp, by simp [hl], by simp [hr],
        ?_, ?_⟩
      · rw [Heap.set_ne _ _ _ (Ne.symm hsm)]
        exact Heap.set_self ..
      · rw [agrees_set_notMem hsL, agrees_set_notMem hmL]
        exact hagL
      · rw [agrees_set_notMem hsR, agrees_set_notMem hmR]
        exact hagR
    obtain ⟨hsO, hsP⟩ := nodup_pathIds_cons hndP
    cases hdir : s.dir with
    | left =>
      have hisleft : nds.leftChild = some n := by
        rw [pathOK_cons, hnds, hdir] at hpath
        simp only [Bool.and_eq_true, beq_iff_eq] at hpath
        exact hpath.1.1.2.1
      refine ⟨Heap.set (Heap.set h2 m (md.setParent (some s.id))) s.id
        (nds.setLeft (some m)), ?_, ?_, ?_⟩
      · rw [replaceWith_run_some_par hnd hmd hpar hnds1, if_pos hisleft]
      · refine (agrees_plug_iff _ _ _).2 ⟨?_, ?_⟩
        · exact pathOK_set_left hpath1 hnds1 hdir hsO hsP (some m)
        · rw [parentOf_cons]
          exact hagnode (nds.setLeft (some m))
      · rw [Heap.set_ne _ _ _ (Ne.symm hsn), Heap.set_ne _ _ _ (Ne.symm hmn)]
    | right =>
      have hnotleft : nds.leftChild ≠ some n := by
        rw [pathOK_cons, hnds, hdir] at hpath
        simp only [Bool.and_eq_true, beq_iff_eq] at hpath
        have hother : nds.leftChild = s.other.rootId := hpath.1.1.2.1
        rw [hother]
        cases hO : s.other with
        | leaf => simp [ATree.rootId]
        | node oi ok ov ol orr =>
          intro hc
          have hoi : oi = n := by
            rw [show (ATree.node oi ok ov ol orr).rootId = some oi
              from rfl] at hc
            exact Option.some.inj hc
          apply hnP
          rw [pathIds_cons]
          simp [← hoi, hO]
      refine ⟨Heap.set (Heap.set h2 m (md.setParent (some s.id))) s.id
        (nds.setRight (some m)), ?_, ?_, ?_⟩
      · rw [replaceWith_run_some_par hnd hmd hpar hnds1, if_neg hnotleft]
      · refine (agrees_plug_iff _ _ _).2 ⟨?_, ?_⟩
        · exact pathOK_set_right hpath1 hnds1 hdir hsO hsP (some m)
        · rw [parentOf_cons]
          exact hagnode (nds.setRight (some m))
      · rw [Heap.set_ne _ _ _ (Ne.symm hsn), Heap.set_ne _ _ _ (Ne.symm hmn)]


theorem plug_rootId_mem (P : List Step) :
    ∀ (t : ATree) (s : Step) {x : NodeId},
      (plug t (s :: P)).rootId = some x → x ∈ pathIds (s :: P) := by
  induction P with
  | nil =>
    intro t s x hx
    cases hd : s.dir <;> rw [plug_cons, hd] at hx <;>
      simp only [plug_nil] at hx
    · have hsx : s.id = x := Option.some.inj hx
      rw [pathIds_cons]
      simp [← hsx]
    · have hsx : s.id = x := Option.some.inj hx
      rw [pathIds_cons]
      simp [← hsx]
  | cons s1 rest ih =>
    intro t s x hx
    rw [pathIds_cons, List.mem_cons, List.mem_append]
    have hmem : x ∈ pathIds (s1 :: rest) := by
      cases hd : s.dir <;> rw [plug_cons, hd] at hx
      · exact ih _ s1 hx
      · exact ih _ s1 hx
    right
    right
    exact hmem

/-- The tail of the deep predecessor case: the replacement `m` has already
    been spliced out of the left subtree, which now reads as `L'`; adopt the
    removed node's two subtrees under `m` and splice `m` into the removed
    position. -/
theorem nodeRemove_deepTail {ha : Heap} {n m l0 r0 : NodeId}
    {km vm lk lv kr vr : Int} {la lb rl rr : ATree} {P : List Step}
    {nd rd : Node}
    (hnd : ha n = some nd) (hpar : nd.parent = parentOf none P)
    (hle : nd.leftChild = some l0) (hri : nd.rightChild = some r0)
    (hrd : ha m = some rd) (hrdk : rd.key = km) (hrdv : rd.value = vm)
    (hagL : agrees ha (some n) (ATree.node l0 lk lv la lb) = true)
    (hagR : agrees ha (some n) (ATree.node r0 kr vr rl rr) = true)
    (hpath : pathOK ha none (some n) P = true)
    (hmn : m ≠ n)
    (hmL : m ∉ (ATree.node l0 lk lv la lb).ids)
    (hmR : m ∉ (ATree.node r0 kr vr rl rr).ids)
    (hmP : m ∉ pathIds P)
    (hnL : n ∉ (ATree.node l0 lk lv la lb).ids)
    (hnR : n ∉ (ATree.node r0 kr vr rl rr).ids)
    (hnP : n ∉ pathIds P) (hndP : (pathIds P).Nodup)
    (hndL : (ATree.node l0 lk lv la lb).ids.Nodup)
    (hndR : (ATree.node r0 kr vr rl rr).ids.Nodup)
    (hLR : ∀ j ∈ (ATree.node l0 lk lv la lb).ids,
      j ∉ (ATree.node r0 kr vr rl rr).ids)
    (hLP : ∀ j ∈ (ATree.node l0 lk lv la lb).ids, j ∉ pathIds P)
    (hRP : ∀ j ∈ (ATree.node r0 kr vr rl rr).ids, j ∉ pathIds P) :
    ∃ h', ((Node.adoptLeftChild ha m n).bind fun h1 =>
        (Node.adoptRightChild h1 m n).bind fun h2 =>
        (Node.replaceWith h2 n (some m)).bind fun h3 =>
        some (h3, some m)) = some (h', some m) ∧
      agrees h' none (plug (ATree.node m km vm (ATree.node l0 lk lv la lb)
        (ATree.node r0 kr vr rl rr)) P) = true ∧
      h' n = ha n := by
  obtain ⟨l0d, hl0d, _, _, _, _, _, _, _⟩ := agrees_node_iff.1 hagL
  obtain ⟨rdR, hrdR, _, _, _, _, _, _, _⟩ := agrees_node_iff.1 hagR
  have hml0 : m ≠ l0 := fun hc => hmL (by simp [hc])
  have hmr0 : m ≠ r0 := fun hc => hmR (by simp [hc])
  have hnl0 : n ≠ l0 := fun hc => hnL (by simp [hc])
  have hnr0 : n ≠ r0 := fun hc => hnR (by simp [hc])
  have hl0r0 : l0 ≠ r0 := fun hc => hLR l0 (by simp) (by simp [hc])
  -- step 1: adoptLeftChild ha m n
  have hstep1 : Node.adoptLeftChild ha m n =
      some (Heap.set (Heap.set ha l0 (l0d.setParent (some m))) m
        (rd.setLeft (some l0))) :=
    adoptLeft_run hnd hle hl0d (by rw [Heap.set_ne _ _ _ hml0]; exact hrd)
  set h1 := Heap.set (Heap.set ha l0 (l0d.setParent (some m))) m
    (rd.setLeft (some l0)) with hh1
  have h1n : h1 n = some nd := by
    rw [hh1, Heap.set_ne _ _ _ (Ne.symm hmn), Heap.set_ne _ _ _ hnl0]
    exact hnd
  have h1r0 : h1 r0 = some rdR := by
    rw [hh1, Heap.set_ne _ _ _ (Ne.symm hmr0),
      Heap.set_ne _ _ _ (Ne.symm hl0r0)]
    exact hrdR
  have h1m : h1 m = some (rd.setLeft (some l0)) := by
    rw [hh1]
    exact Heap.set_self ..
  -- step 2: adoptRightChild h1 m n
  have hstep2 : Node.adoptRightChild h1 m n =
      some (Heap.set (Heap.set h1 r0 (rdR.setParent (some m))) m
        ((rd.setLeft (some l0)).setRight (some r0))) :=
    adoptRight_run h1n hri h1r0
      (by rw [Heap.set_ne _ _ _ hmr0]; exact h1m)
  set h2 := Heap.set (Heap.set h1 r0 (rdR.setParent (some m))) m
    ((rd.setLeft (some l0)).setRight (some r0)) with hh2
  have h2n : h2 n = some nd := by
    rw [hh2, Heap.set_ne _ _ _ (Ne.symm hmn), Heap.set_ne _ _ _ hnr0]
    exact h1n
  have h2m : h2 m = some ((rd.setLeft (some l0)).setRight (some r0)) := by
    rw [hh2]
    exact Heap.set_self ..
  -- the heap h2 realises m with its two new subtrees
  have hagL2 : agrees h2 (some m) (ATree.node l0 lk lv la lb) = true := by
    rw [hh2, agrees_set_notMem hmL,
      agrees_set_notMem (fun hc => hLR r0 hc (by simp)), hh1,
      agrees_set_notMem hmL]
    exact agrees_root_reparent hagL hl0d hndL (some m)
  have hagR2 : agrees h2 (some m) (ATree.node r0 kr vr rl rr) = true := by
    rw [hh2, agrees_set_notMem hmR]
    have hagR1 : agrees h1 (some n) (ATree.node r0 kr vr rl rr) = true := by
      rw [hh1, agrees_set_notMem hmR,
        agrees_set_notMem (fun hc => hLR l0 (by simp) hc)]
      exact hagR
    exact agrees_root_reparent hagR1 h1r0 hndR (some m)
  have hpath2 : pathOK h2 none (some n) P = true := by
    rw [hh2, pathOK_set_notMem hmP,
      pathOK_set_notMem (fun hc => hRP r0 (by simp) hc), hh1,
      pathOK_set_notMem hmP,
      pathOK_set_notMem (fun hc => hLP l0 (by simp) hc)]
    exact hpath
  have hmdk : ((rd.setLeft (some l0)).setRight (some r0)).key = km := by
    simp [hrdk]
  have hmdv : ((rd.setLeft (some l0)).setRight (some r0)).value = vm := by
    simp [hrdv]
  have hmdl : ((rd.setLeft (some l0)).setRight (some r0)).leftChild =
      (ATree.node l0 lk lv la lb).rootId := by
    simp [ATree.rootId]
  have hmdr : ((rd.setLeft (some l0)).setRight (some r0)).rightChild =
      (ATree.node r0 kr vr rl rr).rootId := by
    simp [ATree.rootId]
  obtain ⟨h3, hsplice, hag3, h3n⟩ :=
    nodeRemove_splice h2n hpar h2m hmdk hmdv hmdl hmdr
      hagL2 hagR2 hpath2 hmn hmL hmR hmP hnP hndP hLP hRP
  refine ⟨h3, ?_, hag3, by rw [h3n, h2n, hnd]⟩
  rw [hstep1]
  simp only [Option.some_bind]
  rw [hstep2]
  simp only [Option.some_bind]
  rw [hsplice]
  rfl

/-- The tail of the shallow predecessor case: the replacement `m` is the
    removed node's left child itself; it keeps its own left subtree, adopts
    the removed node's right subtree, and is spliced into position. -/
theorem nodeRemove_shallowTail {h : Heap} {n m r0 : NodeId}
    {km vm kr vr : Int} {Lm rl rr : ATree} {P : List Step} {nd rd : Node}
    (hnd : h n = some nd) (hpar : nd.parent = parentOf none P)
    (hri : nd.rightChild = some r0)
    (hrd : h m = some rd) (hrdk : rd.key = km) (hrdv : rd.value = vm)
    (hrdl : rd.leftChild = Lm.rootId)
    (hagLm : agrees h (some m) Lm = true)
    (hagR : agrees h (some n) (ATree.node r0 kr vr rl rr) = true)
    (hpath : pathOK h none (some n) P = true)
    (hmn : m ≠ n) (hmLm : m ∉ Lm.ids)
    (hmR : m ∉ (ATree.node r0 kr vr rl rr).ids)
    (hmP : m ∉ pathIds P)
    (hnR : n ∉ (ATree.node r0 kr vr rl rr).ids)
    (hnP : n ∉ pathIds P) (hndP : (pathIds P).Nodup)
    (hndR : (ATree.node r0 kr vr rl rr).ids.Nodup)
    (hLmR : ∀ j ∈ Lm.ids, j ∉ (ATree.node r0 kr vr rl rr).ids)
    (hLmP : ∀ j ∈ Lm.ids, j ∉ pathIds P)
    (hRP : ∀ j ∈ (ATree.node r0 kr vr rl rr).ids, j ∉ pathIds P) :
    ∃ h', ((Node.adoptRightChild h m n).bind fun h2 =>
        (Node.replaceWith h2 n (some m)).bind fun h3 =>
        some (h3, some m)) = some (h', some m) ∧
      agrees h' none (plug (ATree.node m km vm Lm
        (ATree.node r0 kr vr rl rr)) P) = true ∧
      h' n = h n := by
  obtain ⟨rdR, hrdR, _, _, _, _, _, _, _⟩ := agrees_node_iff.1 hagR
  have hmr0 : m ≠ r0 := fun hc => hmR (by simp [hc])
  have hnr0 : n ≠ r0 := fun hc => hnR (by simp [hc])
  have hstep1 : Node.adoptRightChild h m n =
      some (Heap.set (Heap.set h r0 (rdR.setParent (some m))) m
        (rd.setRight (some r0))) :=
    adoptRight_run hnd hri hrdR
      (by rw [Heap.set_ne _ _ _ hmr0]; exact hrd)
  set h2 := Heap.set (Heap.set h r0 (rdR.setParent (some m))) m
    (rd.setRight (some r0)) with hh2
  have h2n : h2 n = some nd := by
    rw [hh2, Heap.set_ne _ _ _ (Ne.symm hmn), Heap.set_ne _ _ _ hnr0]
    exact hnd
  have h2m : h2 m = some (rd.setRight (some r0)) := by
    rw [hh2]
    exact Heap.set_self ..
  have hagL2 : agrees h2 (some m) Lm = true := by
    rw [hh2, agrees_set_notMem hmLm,
      agrees_set_notMem (fun hc => hLmR r0 hc (by simp))]
    exact hagLm
  have hagR2 : agrees h2 (some m) (ATree.node r0 kr vr rl rr) = true := by
    rw [hh2, agrees_set_notMem hmR]
    exact agrees_root_reparent hagR hrdR hndR (some m)
  have hpath2 : pathOK h2 none (some n) P = true := by
    rw [hh2, pathOK_set_notMem hmP,
      pathOK_set_notMem (fun hc => hRP r0 (by simp) hc)]
    exact hpath
  have hmdk : (rd.setRight (some r0)).key = km := by simp [hrdk]
  have hmdv : (rd.setRight (some r0)).value = vm := by simp [hrdv]
  have hmdl : (rd.setRight (some r0)).leftChild = Lm.rootId := by
    simp [hrdl]
  have hmdr : (rd.setRight (some r0)).rightChild =
      (ATree.node r0 kr vr rl rr).rootId := by
    simp [ATree.rootId]
  obtain ⟨h3, hsplice, hag3, h3n⟩ :=
    nodeRemove_splice h2n hpar h2m hmdk hmdv hmdl hmdr
      hagL2 hagR2 hpath2 hmn hmLm hmR hmP hnP hndP hLmP hRP
  refine ⟨h3, ?_, hag3, by rw [h3n, h2n, hnd]⟩
  rw [hstep1]
  simp only [Option.some_bind]
  rw [hsplice]
  rfl

/-- The tail of the deep successor case, mirroring nodeRemove_deepTail. -/
theorem nodeRemove_deepTail4 {ha : Heap} {n m l0 r0 : NodeId}
    {km vm lk lv kr vr : Int} {la lb rl rr : ATree} {P : List Step}
    {nd rd : Node}
    (hnd : ha n = some nd) (hpar : nd.parent = parentOf none P)
    (hle : nd.leftChild = some l0) (hri : nd.rightChild = some r0)
    (hrd : ha m = some rd) (hrdk : rd.key = km) (hrdv : rd.value = vm)
    (hagL : agrees ha (some n) (ATree.node l0 lk lv la lb) = true)
    (hagR : agrees ha (some n) (ATree.node r0 kr vr rl rr) = true)
    (hpath : pathOK ha none (some n) P = true)
    (hmn : m ≠ n)
    (hmL : m ∉ (ATree.node l0 lk lv la lb).ids)
    (hmR : m ∉ (ATree.node r0 kr vr rl rr).ids)
    (hmP : m ∉ pathIds P)
    (hnL : n ∉ (ATree.node l0 lk lv la lb).ids)
    (hnR : n ∉ (ATree.node r0 kr vr rl rr).ids)
    (hnP : n ∉ pathIds P) (hndP : (pathIds P).Nodup)
    (hndL : (ATree.node l0 lk lv la lb).ids.Nodup)
    (hndR : (ATree.node r0 kr vr rl rr).ids.Nodup)
    (hLR : ∀ j ∈ (ATree.node l0 lk lv la lb).ids,
      j ∉ (ATree.node r0 kr vr rl rr).ids)
    (hLP : ∀ j ∈ (ATree.node l0 lk lv la lb).ids, j ∉ pathIds P)
    (hRP : ∀ j ∈ (ATree.node r0 kr vr rl rr).ids, j ∉ pathIds P) :
    ∃ h', ((Node.adoptRightChild ha m n).bind fun h1 =>
        (Node.adoptLeftChild h1 m n).bind fun h2 =>
        (Node.replaceWith h2 n (some m)).bind fun h3 =>
        some (h3, some m)) = some (h', some m) ∧
      agrees h' none (plug (ATree.node m km vm (ATree.node l0 lk lv la lb)
        (ATree.node r0 kr vr rl rr)) P) = true ∧
      h' n = ha n := by
  obtain ⟨l0d, hl0d, _, _, _, _, _, _, _⟩ := agrees_node_iff.1 hagL
  obtain ⟨rdR, hrdR, _, _, _, _, _, _, _⟩ := agrees_node_iff.1 hagR
  have hml0 : m ≠ l0 := fun hc => hmL (by simp [hc])
  have hmr0 : m ≠ r0 := fun hc => hmR (by simp [hc])
  have hnl0 : n ≠ l0 := fun hc => hnL (by simp [hc])
  have hnr0 : n ≠ r0 := fun hc => hnR (by simp [hc])
  have hl0r0 : l0 ≠ r0 := fun hc => hLR l0 (by simp) (by simp [hc])
  have hstep1 : Node.adoptRightChild ha m n =
      some (Heap.set (Heap.set ha r0 (rdR.setParent (some m))) m
        (rd.setRight (some r0))) :=
    adoptRight_run hnd hri hrdR (by rw [Heap.set_ne _ _ _ hmr0]; exact hrd)
  set h1 := Heap.set (Heap.set ha r0 (rdR.setParent (some m))) m
    (rd.setRight (some r0)) with hh1
  have h1n : h1 n = some nd := by
    rw [hh1, Heap.set_ne _ _ _ (Ne.symm hmn), Heap.set_ne _ _ _ hnr0]
    exact hnd
  have h1l0 : h1 l0 = some l0d := by
    rw [hh1, Heap.set_ne _ _ _ (Ne.symm hml0), Heap.set_ne _ _ _ hl0r0]
    exact hl0d
  have h1m : h1 m = some (rd.setRight (some r0)) := by
    rw [hh1]
    exact Heap.set_self ..
  have hstep2 : Node.adoptLeftChild h1 m n =
      some (Heap.set (Heap.set h1 l0 (l0d.setParent (some m))) m
        ((rd.setRight (some r0)).setLeft (some l0))) :=
    adoptLeft_run h1n hle h1l0
      (by rw [Heap.set_ne _ _ _ hml0]; exact h1m)
  set h2 := Heap.set (Heap.set h1 l0 (l0d.setParent (some m))) m
    ((rd.setRight (some r0)).setLeft (some l0)) with hh2
  have h2n : h2 n = some nd := by
    rw [hh2, Heap.set_ne _ _ _ (Ne.symm hmn), Heap.set_ne _ _ _ hnl0]
    exact h1n
  have h2m : h2 m = some ((rd.setRight (some r0)).setLeft (some l0)) := by
    rw [hh2]
    exact Heap.set_self ..
  have hagL2 : agrees h2 (some m) (ATree.node l0 lk lv la lb) = true := by
    rw [hh2, agrees_set_notMem hmL]
    have hagL1 : agrees h1 (some n) (ATree.node l0 lk lv la lb) = true := by
      rw [hh1, agrees_set_notMem hmL,
        agrees_set_notMem (fun hc => hLR r0 hc (by simp))]
      exact hagL
    exact agrees_root_reparent hagL1 h1l0 hndL (some m)
  have hagR2 : agrees h2 (some m) (ATree.node r0 kr vr rl rr) = true := by
    rw [hh2, agrees_set_notMem hmR,
      agrees_set_notMem (fun hc => hLR l0 (by simp) hc), hh1,
      agrees_set_notMem hmR]
    exact agrees_root_reparent hagR hrdR hndR (some m)
  have hpath2 : pathOK h2 none (some n) P = true := by
    rw [hh2, pathOK_set_notMem hmP,
      pathOK_set_notMem (fun hc => hLP l0 (by simp) hc), hh1,
      pathOK_set_notMem hmP,
      pathOK_set_notMem (fun hc => hRP r0 (by simp) hc)]
    exact hpath
  have hmdk : ((rd.setRight (some r0)).setLeft (some l0)).key = km := by
    simp [hrdk]
  have hmdv : ((rd.setRight (some r0)).setLeft (some l0)).value = vm := by
    simp [hrdv]
  have hmdl : ((rd.setRight (some r0)).setLeft (some l0)).leftChild =
      (ATree.node l0 lk lv la lb).rootId := by
    simp [ATree.rootId]
  have hmdr : ((rd.setRight (some r0)).setLeft (some l0)).rightChild =
      (ATree.node r0 kr vr rl rr).rootId := by
    simp [ATree.rootId]
  obtain ⟨h3, hsplice, hag3, h3n⟩ :=
    nodeRemove_splice h2n hpar h2m hmdk hmdv hmdl hmdr
      hagL2 hagR2 hpath2 hmn hmL hmR hmP hnP hndP hLP hRP
  refine ⟨h3, ?_, hag3, by rw [h3n, h2n, hnd]⟩
  rw [hstep1]
  simp only [Option.some_bind]
  rw [hstep2]
  simp only [Option.some_bind]
  rw [hsplice]
  rfl

/-- The tail of the shallow successor case, mirroring
    nodeRemove_shallowTail. -/
theorem nodeRemove_shallowTail4 {h : Heap} {n m l0 : NodeId}
    {km vm lk lv : Int} {Rm ll lr : ATree} {P : List Step} {nd rd : Node}
    (hnd : h n = some nd) (hpar : nd.parent = parentOf none P)
    (hle : nd.leftChild = some l0)
    (hrd : h m = some rd) (hrdk : rd.key = km) (hrdv : rd.value = vm)
    (hrdr : rd.rightChild = Rm.rootId)
    (hagRm : agrees h (some m) Rm = true)
    (hagL : agrees h (some n) (ATree.node l0 lk lv ll lr) = true)
    (hpath : pathOK h none (some n) P = true)
    (hmn : m ≠ n) (hmRm : m ∉ Rm.ids)
    (hmL : m ∉ (ATree.node l0 lk lv ll lr).ids)
    (hmP : m ∉ pathIds P)
    (hnL : n ∉ (ATree.node l0 lk lv ll lr).ids)
    (hnP : n ∉ pathIds P) (hndP : (pathIds P).Nodup)
    (hndL : (ATree.node l0 lk lv ll lr).ids.Nodup)
    (hRmL : ∀ j ∈ Rm.ids, j ∉ (ATree.node l0 lk lv ll lr).ids)
    (hRmP : ∀ j ∈ Rm.ids, j ∉ pathIds P)
    (hLP : ∀ j ∈ (ATree.node l0 lk lv ll lr).ids, j ∉ pathIds P) :
    ∃ h', ((Node.adoptLeftChild h m n).bind fun h2 =>
        (Node.replaceWith h2 n (some m)).bind fun h3 =>
        some (h3, some m)) = some (h', some m) ∧
      agrees h' none (plug (ATree.node m km vm
        (ATree.node l0 lk lv ll lr) Rm) P) = true ∧
      h' n = h n := by
  obtain ⟨l0d, hl0d, _, _, _, _, _, _, _⟩ := agrees_node_iff.1 hagL
  have hml0 : m ≠ l0 := fun hc => hmL (by simp [hc])
  have hnl0 : n ≠ l0 := fun hc => hnL (by simp [hc])
  have hstep1 : Node.adoptLeftChild h m n =
      some (Heap.set (Heap.set h l0 (l0d.setParent (some m))) m
        (rd.setLeft (some l0))) :=
    adoptLeft_run hnd hle hl0d
      (by rw [Heap.set_ne _ _ _ hml0]; exact hrd)
  set h2 := Heap.set (Heap.set h l0 (l0d.setParent (some m))) m
    (rd.setLeft (some l0)) with hh2
  have h2n : h2 n = some nd := by
    rw [hh2, Heap.set_ne _ _ _ (Ne.symm hmn), Heap.set_ne _ _ _ hnl0]
    exact hnd
  have h2m : h2 m = some (rd.setLeft (some l0)) := by
    rw [hh2]
    exact Heap.set_self ..
  have hagR2 : agrees h2 (some m) Rm = true := by
    rw [hh2, agrees_set_notMem hmRm,
      agrees_set_notMem (fun hc => hRmL l0 hc (by simp))]
    exact hagRm
  have hagL2 : agrees h2 (some m) (ATree.node l0 lk lv ll lr) = true := by
    rw [hh2, agrees_set_notMem hmL]
    exact agrees_root_reparent hagL hl0d hndL (some m)
  have hpath2 : pathOK h2 none (some n) P = true := by
    rw [hh2, pathOK_set_notMem hmP,
      pathOK_set_notMem (fun hc => hLP l0 (by simp) hc)]
    exact hpath
  have hmdk : (rd.setLeft (some l0)).key = km := by simp [hrdk]
  have hmdv : (rd.setLeft (some l0)).value = vm := by simp [hrdv]
  have hmdl : (rd.setLeft (some l0)).leftChild =
      (ATree.node l0 lk lv ll lr).rootId := by
    simp [ATree.rootId]
  have hmdr : (rd.setLeft (some l0)).rightChild = Rm.rootId := by
    simp [hrdr]
  obtain ⟨h3, hsplice, hag3, h3n⟩ :=
    nodeRemove_splice h2n hpar h2m hmdk hmdv hmdl hmdr
      hagL2 hagR2 hpath2 hmn hmL hmRm hmP hnP hndP hLP hRmP
  refine ⟨h3, ?_, hag3, by rw [h3n, h2n, hnd]⟩
  rw [hstep1]
  simp only [Option.some_bind]
  rw [hsplice]
  rfl

theorem mem_plug_ids_iff (Q : List Step) (t : ATree) (x : NodeId) :
    x ∈ (plug t Q).ids ↔ x ∈ t.ids ∨ x ∈ pathIds Q := by
  rw [(plug_ids_perm Q t).mem_iff, List.mem_append]

theorem plug_cons_rootId (t t' : ATree) (s : Step) (rest : List Step) :
    (plug t (s :: rest)).rootId = (plug t' (s :: rest)).rootId := by
  cases hd : s.dir <;> rw [plug_cons, plug_cons, hd] <;>
    exact plug_rootId_congr rest rfl

/-- Case 3 of Node.prototype.remove: two children and the node is the root
    or a left child of its parent; the in-order predecessor `m` takes its
    position. -/
theorem nodeRemove_case3 {h : Heap} {n m r0 : NodeId}
    {k v km vm kr vr : Int} {L rl rr : ATree} {P : List Step} {fuel : Nat}
    (hag : agrees h none
      (plug (ATree.node n k v L (ATree.node r0 kr vr rl rr)) P) = true)
    (hnodup : ((plug (ATree.node n k v L (ATree.node r0 kr vr rl rr))
      P).ids).Nodup)
    (hm : maxEntry L = some (m, km, vm))
    (hLoR : P = [] ∨ ∃ s rest, P = s :: rest ∧ s.dir = Dir.left)
    (hfuel : L.size < fuel) :
    ∃ h', Node.remove fuel h n = some (h', some m) ∧
      agrees h' none (plug (ATree.node m km vm (removeMaxF L)
        (ATree.node r0 kr vr rl rr)) P) = true ∧
      h' n = h n := by
  rcases (agrees_plug_iff P none _).1 hag with ⟨hpath, hagn⟩
  obtain ⟨nd, hnd, hkey, hval, hpar, hle, hri, hagL, hagR⟩ :=
    agrees_node_iff.1 hagn
  obtain ⟨hndt, hndP, hdisj⟩ := nodup_plug_facts hnodup
  obtain ⟨hnL, hnR, hndL, hndR, hdisjLR⟩ := nodup_node_facts hndt
  have hnP : n ∉ pathIds P := hdisj n (by simp)
  have hLPp : ∀ j ∈ L.ids, j ∉ pathIds P := fun j hj =>
    hdisj j (by simp [hj])
  have hRPp : ∀ j ∈ (ATree.node r0 kr vr rl rr).ids, j ∉ pathIds P :=
    fun j hj => hdisj j (by simp; simp at hj; tauto)
  rw [show (ATree.node r0 kr vr rl rr).rootId = some r0 from rfl] at hri
  cases L with
  | leaf => simp [maxEntry] at hm
  | node l0 lk lv la lb =>
    have hmax : Node.max fuel h l0 = some m := nodeMax_spec hagL hm hfuel
    rw [show (ATree.node l0 lk lv la lb).rootId = some l0 from rfl] at hle
    obtain ⟨Lm, Q, hQ, hQright, hQrem⟩ := maxEntry_decomp hm
    have hmSub : m ∈ (ATree.node m km vm Lm ATree.leaf).ids := by simp
    have hmL : m ∈ (ATree.node l0 lk lv la lb).ids := by
      rw [hQ, mem_plug_ids_iff]
      exact Or.inl hmSub
    have hmn : m ≠ n := fun hc => hnL (hc ▸ hmL)
    have hmR : m ∉ (ATree.node r0 kr vr rl rr).ids := hdisjLR m hmL
    have hmP : m ∉ pathIds P := hLPp m hmL
    have htoL : ∀ x, (x ∈ Lm.ids ∨ x ∈ pathIds Q) →
        x ∈ (ATree.node l0 lk lv la lb).ids := by
      intro x hx
      rw [hQ, mem_plug_ids_iff]
      rcases hx with hx | hx
      · exact Or.inl (by simp [hx])
      · exact Or.inr hx
    have hagLQ := hagL
    have hndLQ := hndL
    rw [hQ] at hagLQ hndLQ
    rcases (agrees_plug_iff Q (some n) _).1 hagLQ with ⟨hQpath, hagM⟩
    obtain ⟨rd, hrd, hrdk, hrdv, hrdp, hrdl, hrdr, hagLm, _⟩ :=
      agrees_node_iff.1 hagM
    rw [show ATree.leaf.rootId = none from rfl] at hrdr
    obtain ⟨hndSub, hndQ, hdisjSubQ⟩ := nodup_plug_facts hndLQ
    obtain ⟨hmLm, _, hndLm, _, _⟩ := nodup_node_facts hndSub
    have hmQ : m ∉ pathIds Q := hdisjSubQ m hmSub
    have hLmQ : ∀ j ∈ Lm.ids, j ∉ pathIds Q := fun j hj =>
      hdisjSubQ j (by simp [hj])
    have hLmR : ∀ j ∈ Lm.ids, j ∉ (ATree.node r0 kr vr rl rr).ids :=
      fun j hj => hdisjLR j (htoL j (Or.inl hj))
    have hLmP : ∀ j ∈ Lm.ids, j ∉ pathIds P :=
      fun j hj => hLPp j (htoL j (Or.inl hj))
    cases Q with
    | nil =>
      rw [show plug (ATree.node m km vm Lm ATree.leaf) [] =
        ATree.node m km vm Lm ATree.leaf from rfl] at hQ
      injection hQ with e1 e2 e3 e4 e5
      subst e1
      subst e2
      subst e3
      subst e4
      subst e5
      rw [parentOf_nil] at hrdp
      obtain ⟨h', heq, hagF, hn'⟩ :=
        nodeRemove_shallowTail hnd hpar hri hrd hrdk hrdv hrdl hagLm hagR
          hpath hmn hmLm hmR hmP hnR hnP hndP hndR hLmR hLmP hRPp
      refine ⟨h', ?_, ?_, hn'⟩
      · rcases hLoR with hPnil | ⟨s, rest, hPc, hdirP⟩
        · subst hPnil
          rw [parentOf_nil] at hpar
          rw [nodeRemove_run3_shallow_root hnd hle hri hpar hmax]
          exact heq
        · subst hPc
          rw [parentOf_cons] at hpar
          obtain ⟨nds, hnds⟩ : ∃ nds, h s.id = some nds := by
            rw [pathOK_cons] at hpath
            cases hns : h s.id with
            | none => rw [hns] at hpath; simp at hpath
            | some x => exact ⟨x, rfl⟩
          have hpl : nds.leftChild = some n := by
            rw [pathOK_cons, hnds, hdirP] at hpath
            simp only [Bool.and_eq_true, beq_iff_eq] at hpath
            exact hpath.1.1.2.1
          rw [nodeRemove_run3_shallow_left hnd hle hri hpar hnds hpl hmax]
          exact heq
      · rw [hQrem, plug_nil]
        exact hagF
    | cons s0 Q1 =>
      rw [parentOf_cons] at hrdp
      have hl0Q : l0 ∈ pathIds (s0 :: Q1) :=
        plug_rootId_mem Q1 _ s0 (congrArg ATree.rootId hQ).symm
      have hml0 : m ≠ l0 := fun hc => hmQ (hc ▸ hl0Q)
      obtain ⟨nds0, hnds0⟩ : ∃ nds0, h s0.id = some nds0 := by
        rw [pathOK_cons] at hQpath
        cases hns : h s0.id with
        | none => rw [hns] at hQpath; simp at hQpath
        | some x => exact ⟨x, rfl⟩
      have hdir0 : s0.dir = Dir.right := hQright s0 (by simp)
      obtain ⟨hs0O, hs0Q1⟩ := nodup_pathIds_cons hndQ
      have hnotleft0 : nds0.leftChild ≠ some m := by
        rw [pathOK_cons, hnds0, hdir0] at hQpath
        simp only [Bool.and_eq_true, beq_iff_eq] at hQpath
        have hother : nds0.leftChild = s0.other.rootId := hQpath.1.1.2.1
        rw [hother]
        cases hO : s0.other with
        | leaf => simp [ATree.rootId]
        | node oi ok ov ol orr =>
          intro hc
          have hoi : oi = m := by
            rw [show (ATree.node oi ok ov ol orr).rootId = some oi
              from rfl] at hc
            exact Option.some.inj hc
          apply hmQ
          rw [pathIds_cons]
          simp [← hoi, hO]
      -- the heap ha after splicing m out of the right spine of L
      have hnLm : n ∉ Lm.ids := fun hc => hnL (htoL n (Or.inl hc))
      have hnQ : n ∉ pathIds (s0 :: Q1) := fun hc =>
        hnL (htoL n (Or.inr hc))
      have hmaxfacts : ∀ ha : Heap,
          agrees ha (some n) (plug Lm (s0 :: Q1)) = true →
          ha n = some nd → ha m = some rd →
          agrees ha (some n) (ATree.node r0 kr vr rl rr) = true →
          pathOK ha none (some n) P = true →
          ∃ h', ((Node.adoptLeftChild ha m n).bind fun h1 =>
              (Node.adoptRightChild h1 m n).bind fun h2 =>
              (Node.replaceWith h2 n (some m)).bind fun h3 =>
              some (h3, some m)) = some (h', some m) ∧
            agrees h' none (plug (ATree.node m km vm (plug Lm (s0 :: Q1))
              (ATree.node r0 kr vr rl rr)) P) = true ∧
            h' n = ha n := by
        intro ha hagL' han ham hagR' hpath'
        have hroot : (plug Lm (s0 :: Q1)).rootId = some l0 := by
          rw [plug_cons_rootId Lm (ATree.node m km vm Lm ATree.leaf) s0 Q1,
            ← hQ]
          rfl
        cases hL' : plug Lm (s0 :: Q1) with
        | leaf => rw [hL'] at hroot; simp [ATree.rootId] at hroot
        | node a b c d e =>
          obtain rfl : l0 = a := by
            rw [hL'] at hroot
            exact (Option.some.inj hroot).symm
          rw [hL'] at hagL'
          have hsubids : ∀ x, x ∈ (ATree.node l0 b c d e).ids →
              x ∈ Lm.ids ∨ x ∈ pathIds (s0 :: Q1) := by
            intro x hx
            rw [← hL', mem_plug_ids_iff] at hx
            exact hx
          have hmL' : m ∉ (ATree.node l0 b c d e).ids := by
            intro hc
            rcases hsubids m hc with hc' | hc'
            · exact hmLm hc'
            · exact hmQ hc'
          have hnL' : n ∉ (ATree.node l0 b c d e).ids := by
            intro hc
            rcases hsubids n hc with hc' | hc'
            · exact hnLm hc'
            · exact hnQ hc'
          have hndL' : (ATree.node l0 b c d e).ids.Nodup := by
            rw [← hL']
            refine (plug_ids_perm (s0 :: Q1) Lm).symm.nodup ?_
            rw [List.nodup_append]
            refine ⟨hndLm, hndQ, hLmQ⟩
          have hL'R : ∀ j ∈ (ATree.node l0 b c d e).ids,
              j ∉ (ATree.node r0 kr vr rl rr).ids := by
            intro j hj
            rcases hsubids j hj with hc' | hc'
            · exact hLmR j hc'
            · exact hdisjLR j (htoL j (Or.inr hc'))
          have hL'P : ∀ j ∈ (ATree.node l0 b c d e).ids,
              j ∉ pathIds P := by
            intro j hj
            rcases hsubids j hj with hc' | hc'
            · exact hLmP j hc'
            · exact hLPp j (htoL j (Or.inr hc'))
          obtain ⟨h', heq, hagF, hn'⟩ :=
            nodeRemove_deepTail han hpar hle hri ham hrdk hrdv hagL' hagR'
              hpath' hmn hmL' hmR hmP hnL' hnR hnP hndP hndL' hndR hL'R
              hL'P hRPp
          exact ⟨h', heq, hagF, hn'⟩
      -- build ha by cases on Lm
      cases Lm with
      | leaf =>
        have hrdl' : rd.leftChild = none := by rw [hrdl]; rfl
        have hrw : Node.replaceWith h m rd.leftChild =
            some (Heap.set h s0.id (nds0.setRight none)) := by
          rw [hrdl']
          rw [replaceWith_run_none_par hrd hrdp hnds0, if_neg hnotleft0]
        set ha := Heap.set h s0.id (nds0.setRight none) with hha
        have hs0n : s0.id ≠ n := fun hc => hnQ (hc ▸ (by simp [pathIds_cons]))
        have hs0m : s0.id ≠ m := fun hc => hmQ (hc ▸ (by simp [pathIds_cons]))
        have hs0R : s0.id ∉ (ATree.node r0 kr vr rl rr).ids := by
          intro hc
          exact hdisjLR s0.id (htoL s0.id (Or.inr (by simp [pathIds_cons])))
            hc
        have hs0P : s0.id ∉ pathIds P :=
          hLPp s0.id (htoL s0.id (Or.inr (by simp [pathIds_cons])))
        have hagL' : agrees ha (some n) (plug ATree.leaf (s0 :: Q1)) =
            true := by
          refine (agrees_plug_iff _ _ _).2 ⟨?_, ?_⟩
          · rw [show ATree.leaf.rootId = none from rfl]
            exact pathOK_set_right hQpath hnds0 hdir0 hs0O hs0Q1 none
          · simp
        obtain ⟨h', heq, hagF, hn'⟩ := hmaxfacts ha hagL'
          (by rw [hha, Heap.set_ne _ _ _ (Ne.symm hs0n)]; exact hnd)
          (by rw [hha, Heap.set_ne _ _ _ (Ne.symm hs0m)]; exact hrd)
          (by rw [hha, agrees_set_notMem hs0R]; exact hagR)
          (by rw [hha, pathOK_set_notMem hs0P]; exact hpath)
        refine ⟨h', ?_, ?_, by rw [hn', hha,
          Heap.set_ne _ _ _ (Ne.symm hs0n)]⟩
        · rcases hLoR with hPnil | ⟨s, rest, hPc, hdirP⟩
          · subst hPnil
            rw [parentOf_nil] at hpar
            rw [nodeRemove_run3_deep_root hnd hle hri hpar hmax hml0 hrd,
              hrw]
            simp only [Option.some_bind]
            exact heq
          · subst hPc
            rw [parentOf_cons] at hpar
            obtain ⟨nds, hnds⟩ : ∃ nds, h s.id = some nds := by
              rw [pathOK_cons] at hpath
              cases hns : h s.id with
              | none => rw [hns] at hpath; simp at hpath
              | some x => exact ⟨x, rfl⟩
            have hpl : nds.leftChild = some n := by
              rw [pathOK_cons, hnds, hdirP] at hpath
              simp only [Bool.and_eq_true, beq_iff_eq] at hpath
              exact hpath.1.1.2.1
            rw [nodeRemove_run3_deep_left hnd hle hri hpar hnds hpl hmax
              hml0 hrd, hrw]
            simp only [Option.some_bind]
            exact heq
        · rw [hQrem]
          exact hagF
      | node lm0 lmk lmv lma lmb =>
        obtain ⟨lmd, hlmd, _, _, _, _, _, _, _⟩ := agrees_node_iff.1 hagLm
        have hlm0Lm : lm0 ∈ (ATree.node lm0 lmk lmv lma lmb).ids := by simp
        have hs0lm0 : s0.id ≠ lm0 := fun hc =>
          hLmQ lm0 hlm0Lm (hc ▸ (by simp [pathIds_cons]))
        have hrdl' : rd.leftChild = some lm0 := by
          rw [hrdl]
          rfl
        have hnds0' : Heap.set h lm0 (lmd.setParent (some s0.id)) s0.id =
            some nds0 := by
          rw [Heap.set_ne _ _ _ hs0lm0]
          exact hnds0
        have hrw : Node.replaceWith h m rd.leftChild =
            some (Heap.set (Heap.set h lm0 (lmd.setParent (some s0.id)))
              s0.id (nds0.setRight (some lm0))) := by
          rw [hrdl']
          rw [replaceWith_run_some_par hrd hlmd hrdp hnds0',
            if_neg hnotleft0]
        set ha := Heap.set (Heap.set h lm0 (lmd.setParent (some s0.id)))
          s0.id (nds0.setRight (some lm0)) with hha
        have hs0n : s0.id ≠ n := fun hc => hnQ (hc ▸ (by simp [pathIds_cons]))
        have hs0m : s0.id ≠ m := fun hc => hmQ (hc ▸ (by simp [pathIds_cons]))
        have hlm0n : lm0 ≠ n := fun hc => hnLm (hc ▸ hlm0Lm)
        have hlm0m : lm0 ≠ m := fun hc => hmLm (hc ▸ hlm0Lm)
        have hs0R : s0.id ∉ (ATree.node r0 kr vr rl rr).ids := by
          intro hc
          exact hdisjLR s0.id (htoL s0.id (Or.inr (by simp [pathIds_cons])))
            hc
        have hs0P : s0.id ∉ pathIds P :=
          hLPp s0.id (htoL s0.id (Or.inr (by simp [pathIds_cons])))
        have hlm0R : lm0 ∉ (ATree.node r0 kr vr rl rr).ids :=
          hLmR lm0 hlm0Lm
        have hlm0P : lm0 ∉ pathIds P := hLmP lm0 hlm0Lm
        have hagL' : agrees ha (some n)
            (plug (ATree.node lm0 lmk lmv lma lmb) (s0 :: Q1)) = true := by
          refine (agrees_plug_iff _ _ _).2 ⟨?_, ?_⟩
          · have hQpath1 : pathOK (Heap.set h lm0
                (lmd.setParent (some s0.id))) (some n) (some m)
                (s0 :: Q1) = true := by
              rw [pathOK_set_notMem (fun hc => hLmQ lm0 hlm0Lm hc)]
              exact hQpath
            rw [hha]
            rw [show (ATree.node lm0 lmk lmv lma lmb).rootId = some lm0
              from rfl]
            exact pathOK_set_right hQpath1 hnds0' hdir0 hs0O hs0Q1
              (some lm0)
          · rw [parentOf_cons, hha]
            have hstep : agrees (Heap.set h lm0
                (lmd.setParent (some s0.id))) (some s0.id)
                (ATree.node lm0 lmk lmv lma lmb) = true :=
              agrees_root_reparent hagLm hlmd hndLm (some s0.id)
            rw [agrees_set_notMem (fun hc =>
              hLmQ s0.id hc (by simp [pathIds_cons]))]
            exact hstep
        obtain ⟨h', heq, hagF, hn'⟩ := hmaxfacts ha hagL'
          (by rw [hha, Heap.set_ne _ _ _ (Ne.symm hs0n),
            Heap.set_ne _ _ _ (Ne.symm hlm0n)]; exact hnd)
          (by rw [hha, Heap.set_ne _ _ _ (Ne.symm hs0m),
            Heap.set_ne _ _ _ (Ne.symm hlm0m)]; exact hrd)
          (by rw [hha, agrees_set_notMem hs0R,
            agrees_set_notMem (fun hc => hlm0R hc)]; exact hagR)
          (by rw [hha, pathOK_set_notMem hs0P,
            pathOK_set_notMem (fun hc => hlm0P hc)]; exact hpath)
        refine ⟨h', ?_, ?_, by rw [hn', hha,
          Heap.set_ne _ _ _ (Ne.symm hs0n),
          Heap.set_ne _ _ _ (Ne.symm hlm0n)]⟩
        · rcases hLoR with hPnil | ⟨s, rest, hPc, hdirP⟩
          · subst hPnil
            rw [parentOf_nil] at hpar
            rw [nodeRemove_run3_deep_root hnd hle hri hpar hmax hml0 hrd,
              hrw]
            simp only [Option.some_bind]
            exact heq
          · subst hPc
            rw [parentOf_cons] at hpar
            obtain ⟨nds, hnds⟩ : ∃ nds, h s.id = some nds := by
              rw [pathOK_cons] at hpath
              cases hns : h s.id with
              | none => rw [hns] at hpath; simp at hpath
              | some x => exact ⟨x, rfl⟩
            have hpl : nds.leftChild = some n := by
              rw [pathOK_cons, hnds, hdirP] at hpath
              simp only [Bool.and_eq_true, beq_iff_eq] at hpath
              exact hpath.1.1.2.1
            rw [nodeRemove_run3_deep_left hnd hle hri hpar hnds hpl hmax
              hml0 hrd, hrw]
            simp only [Option.some_bind]
            exact heq
        · rw [hQrem]
          exact hagF

/-- Case 4 of Node.prototype.remove: two children and the node is a right
    child of its parent; the in-order successor `m` takes its position. -/
theorem nodeRemove_case4 {h : Heap} {n m l0 : NodeId}
    {k v km vm lk lv : Int} {ll lr R : ATree} {P : List Step} {fuel : Nat}
    {s : Step} {rest : List Step}
    (hag : agrees h none
      (plug (ATree.node n k v (ATree.node l0 lk lv ll lr) R) P) = true)
    (hnodup : ((plug (ATree.node n k v (ATree.node l0 lk lv ll lr) R)
      P).ids).Nodup)
    (hm : minEntry R = some (m, km, vm))
    (hP : P = s :: rest) (hdirP : s.dir = Dir.right)
    (hfuel : R.size < fuel) :
    ∃ h', Node.remove fuel h n = some (h', some m) ∧
      agrees h' none (plug (ATree.node m km vm (ATree.node l0 lk lv ll lr)
        (removeMinF R)) P) = true ∧
      h' n = h n := by
  rcases (agrees_plug_iff P none _).1 hag with ⟨hpath, hagn⟩
  obtain ⟨nd, hnd, hkey, hval, hpar, hle, hri, hagL, hagR⟩ :=
    agrees_node_iff.1 hagn
  obtain ⟨hndt, hndP, hdisj⟩ := nodup_plug_facts hnodup
  obtain ⟨hnL, hnR, hndL, hndR, hdisjLR⟩ := nodup_node_facts hndt
  have hnP : n ∉ pathIds P := hdisj n (by simp)
  have hRPp : ∀ j ∈ R.ids, j ∉ pathIds P := fun j hj =>
    hdisj j (by simp [hj])
  have hLPp : ∀ j ∈ (ATree.node l0 lk lv ll lr).ids, j ∉ pathIds P :=
    fun j hj => hdisj j (by simp; simp at hj; tauto)
  rw [show (ATree.node l0 lk lv ll lr).rootId = some l0 from rfl] at hle
  -- the parent-side condition: n is a right child
  subst hP
  have hparC : nd.parent = some s.id := by rw [hpar, parentOf_cons]
  obtain ⟨nds, hnds⟩ : ∃ nds, h s.id = some nds := by
    rw [pathOK_cons] at hpath
    cases hns : h s.id with
    | none => rw [hns] at hpath; simp at hpath
    | some x => exact ⟨x, rfl⟩
  have hpl : nds.leftChild ≠ some n := by
    rw [pathOK_cons, hnds, hdirP] at hpath
    simp only [Bool.and_eq_true, beq_iff_eq] at hpath
    have hother : nds.leftChild = s.other.rootId := hpath.1.1.2.1
    rw [hother]
    cases hO : s.other with
    | leaf => simp [ATree.rootId]
    | node oi ok ov ol orr =>
      intro hc
      have hoi : oi = n := by
        rw [show (ATree.node oi ok ov ol orr).rootId = some oi
          from rfl] at hc
        exact Option.some.inj hc
      apply hnP
      rw [pathIds_cons]
      simp [← hoi, hO]
  cases R with
  | leaf => simp [minEntry] at hm
  | node r0 kr vr ra rb =>
    have hmin : Node.min fuel h r0 = some m := nodeMin_spec hagR hm hfuel
    rw [show (ATree.node r0 kr vr ra rb).rootId = some r0 from rfl] at hri
    obtain ⟨Rm, Q, hQ, hQleft, hQrem⟩ := minEntry_decomp hm
    have hmSub : m ∈ (ATree.node m km vm ATree.leaf Rm).ids := by simp
    have hmR : m ∈ (ATree.node r0 kr vr ra rb).ids := by
      rw [hQ, mem_plug_ids_iff]
      exact Or.inl hmSub
    have hmn : m ≠ n := fun hc => hnR (hc ▸ hmR)
    have hmL : m ∉ (ATree.node l0 lk lv ll lr).ids := fun hc =>
      hdisjLR m hc hmR
    have hmP : m ∉ pathIds (s :: rest) := hRPp m hmR
    have htoR : ∀ x, (x ∈ Rm.ids ∨ x ∈ pathIds Q) →
        x ∈ (ATree.node r0 kr vr ra rb).ids := by
      intro x hx
      rw [hQ, mem_plug_ids_iff]
      rcases hx with hx | hx
      · exact Or.inl (by simp [hx])
      · exact Or.inr hx
    have hagRQ := hagR
    have hndRQ := hndR
    rw [hQ] at hagRQ hndRQ
    rcases (agrees_plug_iff Q (some n) _).1 hagRQ with ⟨hQpath, hagM⟩
    obtain ⟨rd, hrd, hrdk, hrdv, hrdp, hrdl, hrdr, _, hagRm⟩ :=
      agrees_node_iff.1 hagM
    rw [show ATree.leaf.rootId = none from rfl] at hrdl
    obtain ⟨hndSub, hndQ, hdisjSubQ⟩ := nodup_plug_facts hndRQ
    obtain ⟨_, hmRm, _, hndRm, _⟩ := nodup_node_facts hndSub
    have hmQ : m ∉ pathIds Q := hdisjSubQ m hmSub
    have hRmQ : ∀ j ∈ Rm.ids, j ∉ pathIds Q := fun j hj =>
      hdisjSubQ j (by simp [hj])
    have hRmL : ∀ j ∈ Rm.ids, j ∉ (ATree.node l0 lk lv ll lr).ids :=
      fun j hj hc => hdisjLR j hc (htoR j (Or.inl hj))
    have hRmP : ∀ j ∈ Rm.ids, j ∉ pathIds (s :: rest) :=
      fun j hj => hRPp j (htoR j (Or.inl hj))
    cases Q with
    | nil =>
      rw [show plug (ATree.node m km vm ATree.leaf Rm) [] =
        ATree.node m km vm ATree.leaf Rm from rfl] at hQ
      injection hQ with e1 e2 e3 e4 e5
      subst e1
      subst e2
      subst e3
      subst e4
      subst e5
      rw [parentOf_nil] at hrdp
      obtain ⟨h', heq, hagF, hn'⟩ :=
        nodeRemove_shallowTail4 hnd hpar hle hrd hrdk hrdv hrdr hagRm hagL
          hpath hmn hmRm hmL hmP hnL hnP hndP hndL hRmL hRmP hLPp
      refine ⟨h', ?_, ?_, hn'⟩
      · rw [nodeRemove_run4_shallow hnd hle hri hparC hnds hpl hmin]
        exact heq
      · rw [hQrem, plug_nil]
        exact hagF
    | cons s0 Q1 =>
      rw [parentOf_cons] at hrdp
      have hr0Q : r0 ∈ pathIds (s0 :: Q1) :=
        plug_rootId_mem Q1 _ s0 (congrArg ATree.rootId hQ).symm
      have hmr0 : m ≠ r0 := fun hc => hmQ (hc ▸ hr0Q)
      obtain ⟨nds0, hnds0⟩ : ∃ nds0, h s0.id = some nds0 := by
        rw [pathOK_cons] at hQpath
        cases hns : h s0.id with
        | none => rw [hns] at hQpath; simp at hQpath
        | some x => exact ⟨x, rfl⟩
      have hdir0 : s0.dir = Dir.left := hQleft s0 (by simp)
      obtain ⟨hs0O, hs0Q1⟩ := nodup_pathIds_cons hndQ
      have hisleft0 : nds0.leftChild = some m := by
        rw [pathOK_cons, hnds0, hdir0] at hQpath
        simp only [Bool.and_eq_true, beq_iff_eq] at hQpath
        exact hQpath.1.1.2.1
      have hnRm : n ∉ Rm.ids := fun hc => hnR (htoR n (Or.inl hc))
      have hnQ : n ∉ pathIds (s0 :: Q1) := fun hc =>
        hnR (htoR n (Or.inr hc))
      have hminfacts : ∀ ha : Heap,
          agrees ha (some n) (plug Rm (s0 :: Q1)) = true →
          ha n = some nd → ha m = some rd →
          agrees ha (some n) (ATree.node l0 lk lv ll lr) = true →
          pathOK ha none (some n) (s :: rest) = true →
          ∃ h', ((Node.adoptRightChild ha m n).bind fun h1 =>
              (Node.adoptLeftChild h1 m n).bind fun h2 =>
              (Node.replaceWith h2 n (some m)).bind fun h3 =>
              some (h3, some m)) = some (h', some m) ∧
            agrees h' none (plug (ATree.node m km vm
              (ATree.node l0 lk lv ll lr) (plug Rm (s0 :: Q1)))
              (s :: rest)) = true ∧
            h' n = ha n := by
        intro ha hagR' han ham hagL' hpath'
        have hroot : (plug Rm (s0 :: Q1)).rootId = some r0 := by
          rw [plug_cons_rootId Rm (ATree.node m km vm ATree.leaf Rm) s0 Q1,
            ← hQ]
          rfl
        cases hR' : plug Rm (s0 :: Q1) with
        | leaf => rw [hR'] at hroot; simp [ATree.rootId] at hroot
        | node a b c d e =>
          obtain rfl : r0 = a := by
            rw [hR'] at hroot
            exact (Option.some.inj hroot).symm
          rw [hR'] at hagR'
          have hsubids : ∀ x, x ∈ (ATree.node r0 b c d e).ids →
              x ∈ Rm.ids ∨ x ∈ pathIds (s0 :: Q1) := by
            intro x hx
            rw [← hR', mem_plug_ids_iff] at hx
            exact hx
          have hmR' : m ∉ (ATree.node r0 b c d e).ids := by
            intro hc
            rcases hsubids m hc with hc' | hc'
            · exact hmRm hc'
            · exact hmQ hc'
          have hnR' : n ∉ (ATree.node r0 b c d e).ids := by
            intro hc
            rcases hsubids n hc with hc' | hc'
            · exact hnRm hc'
            · exact hnQ hc'
          have hndR' : (ATree.node r0 b c d e).ids.Nodup := by
            rw [← hR']
            refine (plug_ids_perm (s0 :: Q1) Rm).symm.nodup ?_
            rw [List.nodup_append]
            refine ⟨hndRm, hndQ, hRmQ⟩
          have hLR' : ∀ j ∈ (ATree.node l0 lk lv ll lr).ids,
              j ∉ (ATree.node r0 b c d e).ids := by
            intro j hj hc
            rcases hsubids j hc with hc' | hc'
            · exact hRmL j hc' hj
            · exact hdisjLR j hj (htoR j (Or.inr hc'))
          have hR'P : ∀ j ∈ (ATree.node r0 b c d e).ids,
              j ∉ pathIds (s :: rest) := by
            intro j hj
            rcases hsubids j hj with hc' | hc'
            · exact hRmP j hc'
            · exact hRPp j (htoR j (Or.inr hc'))
          obtain ⟨h', heq, hagF, hn'⟩ :=
            nodeRemove_deepTail4 han hpar hle hri ham hrdk hrdv hagL'
              hagR' hpath' hmn hmL hmR' hmP hnL hnR' hnP hndP hndL hndR'
              hLR' hLPp hR'P
          exact ⟨h', heq, hagF, hn'⟩
      cases Rm with
      | leaf =>
        have hrdr' : rd.rightChild = none := by rw [hrdr]; rfl
        have hrw : Node.replaceWith h m rd.rightChild =
            some (Heap.set h s0.id (nds0.setLeft none)) := by
          rw [hrdr']
          rw [replaceWith_run_none_par hrd hrdp hnds0, if_pos hisleft0]
        set ha := Heap.set h s0.id (nds0.setLeft none) with hha
        have hs0n : s0.id ≠ n := fun hc =>
          hnQ (hc ▸ (by simp [pathIds_cons]))
        have hs0m : s0.id ≠ m := fun hc =>
          hmQ (hc ▸ (by simp [pathIds_cons]))
        have hs0L : s0.id ∉ (ATree.node l0 lk lv ll lr).ids := by
          intro hc
          exact hdisjLR s0.id hc
            (htoR s0.id (Or.inr (by simp [pathIds_cons])))
        have hs0P : s0.id ∉ pathIds (s :: rest) :=
          hRPp s0.id (htoR s0.id (Or.inr (by simp [pathIds_cons])))
        have hagR' : agrees ha (some n) (plug ATree.leaf (s0 :: Q1)) =
            true := by
          refine (agrees_plug_iff _ _ _).2 ⟨?_, ?_⟩
          · rw [show ATree.leaf.rootId = none from rfl]
            exact pathOK_set_left hQpath hnds0 hdir0 hs0O hs0Q1 none
          · simp
        obtain ⟨h', heq, hagF, hn'⟩ := hminfacts ha hagR'
          (by rw [hha, Heap.set_ne _ _ _ (Ne.symm hs0n)]; exact hnd)
          (by rw [hha, Heap.set_ne _ _ _ (Ne.symm hs0m)]; exact hrd)
          (by rw [hha, agrees_set_notMem hs0L]; exact hagL)
          (by rw [hha, pathOK_set_notMem hs0P]; exact hpath)
        refine ⟨h', ?_, ?_, by rw [hn', hha,
          Heap.set_ne _ _ _ (Ne.symm hs0n)]⟩
        · rw [nodeRemove_run4_deep hnd hle hri hparC hnds hpl hmin hmr0
            hrd, hrw]
          simp only [Option.some_bind]
          exact heq
        · rw [hQrem]
          exact hagF
      | node rm0 rmk rmv rma rmb =>
        obtain ⟨rmd, hrmd, _, _, _, _, _, _, _⟩ := agrees_node_iff.1 hagRm
        have hrm0Rm : rm0 ∈ (ATree.node rm0 rmk rmv rma rmb).ids := by simp
        have hs0rm0 : s0.id ≠ rm0 := fun hc =>
          hRmQ rm0 hrm0Rm (hc ▸ (by simp [pathIds_cons]))
        have hrdr' : rd.rightChild = some rm0 := by
          rw [hrdr]
          rfl
        have hnds0' : Heap.set h rm0 (rmd.setParent (some s0.id)) s0.id =
            some nds0 := by
          rw [Heap.set_ne _ _ _ hs0rm0]
          exact hnds0
        have hrw : Node.replaceWith h m rd.rightChild =
            some (Heap.set (Heap.set h rm0 (rmd.setParent (some s0.id)))
              s0.id (nds0.setLeft (some rm0))) := by
          rw [hrdr']
          rw [replaceWith_run_some_par hrd hrmd hrdp hnds0',
            if_pos hisleft0]
        set ha := Heap.set (Heap.set h rm0 (rmd.setParent (some s0.id)))
          s0.id (nds0.setLeft (some rm0)) with hha
        have hs0n : s0.id ≠ n := fun hc =>
          hnQ (hc ▸ (by simp [pathIds_cons]))
        have hs0m : s0.id ≠ m := fun hc =>
          hmQ (hc ▸ (by simp [pathIds_cons]))
        have hrm0n : rm0 ≠ n := fun hc => hnRm (hc ▸ hrm0Rm)
        have hrm0m : rm0 ≠ m := fun hc => hmRm (hc ▸ hrm0Rm)
        have hs0L : s0.id ∉ (ATree.node l0 lk lv ll lr).ids := by
          intro hc
          exact hdisjLR s0.id hc
            (htoR s0.id (Or.inr (by simp [pathIds_cons])))
        have hs0P : s0.id ∉ pathIds (s :: rest) :=
          hRPp s0.id (htoR s0.id (Or.inr (by simp [pathIds_cons])))
        have hrm0L : rm0 ∉ (ATree.node l0 lk lv ll lr).ids :=
          hRmL rm0 hrm0Rm
        have hrm0P : rm0 ∉ pathIds (s :: rest) := hRmP rm0 hrm0Rm
        have hagR' : agrees ha (some n)
            (plug (ATree.node rm0 rmk rmv rma rmb) (s0 :: Q1)) = true := by
          refine (agrees_plug_iff _ _ _).2 ⟨?_, ?_⟩
          · have hQpath1 : pathOK (Heap.set h rm0
                (rmd.setParent (some s0.id))) (some n) (some m)
                (s0 :: Q1) = true := by
              rw [pathOK_set_notMem (fun hc => hRmQ rm0 hrm0Rm hc)]
              exact hQpath
            rw [hha]
            rw [show (ATree.node rm0 rmk rmv rma rmb).rootId = some rm0
              from rfl]
            exact pathOK_set_left hQpath1 hnds0' hdir0 hs0O hs0Q1
              (some rm0)
          · rw [parentOf_cons, hha]
            have hstep : agrees (Heap.set h rm0
                (rmd.setParent (some s0.id))) (some s0.id)
                (ATree.node rm0 rmk rmv rma rmb) = true :=
              agrees_root_reparent hagRm hrmd hndRm (some s0.id)
            rw [agrees_set_notMem (fun hc =>
              hRmQ s0.id hc (by simp [pathIds_cons]))]
            exact hstep
        obtain ⟨h', heq, hagF, hn'⟩ := hminfacts ha hagR'
          (by rw [hha, Heap.set_ne _ _ _ (Ne.symm hs0n),
            Heap.set_ne _ _ _ (Ne.symm hrm0n)]; exact hnd)
          (by rw [hha, Heap.set_ne _ _ _ (Ne.symm hs0m),
            Heap.set_ne _ _ _ (Ne.symm hrm0m)]; exact hrd)
          (by rw [hha, agrees_set_notMem hs0L,
            agrees_set_notMem (fun hc => hrm0L hc)]; exact hagL)
          (by rw [hha, pathOK_set_notMem hs0P,
            pathOK_set_notMem (fun hc => hrm0P hc)]; exact hpath)
        refine ⟨h', ?_, ?_, by rw [hn', hha,
          Heap.set_ne _ _ _ (Ne.symm hs0n),
          Heap.set_ne _ _ _ (Ne.symm hrm0n)]⟩
        · rw [nodeRemove_run4_deep hnd hle hri hparC hnds hpl hmin hmr0
            hrd, hrw]
          simp only [Option.some_bind]
          exact heq
        · rw [hQrem]
          exact hagF

/- ------------------------------------------------------------------ -/
/- Entry bookkeeping for the removal results.                          -/
/- ------------------------------------------------------------------ -/

theorem removeMaxF_entries {t : ATree} {e : NodeId × Int × Int}
    (hm : maxEntry t = some e) :
    (removeMaxF t).entries ++ [e] = t.entries := by
  induction t with
  | leaf => simp [maxEntry] at hm
  | node i k v l r ihl ihr =>
    cases r with
    | leaf =>
      obtain rfl : (i, k, v) = e := Option.some.inj hm
      rw [show removeMaxF (ATree.node i k v l ATree.leaf) = l from rfl]
      simp
    | node j kj vj rl rr =>
      have hm' : maxEntry (ATree.node j kj vj rl rr) = some e := hm
      rw [show removeMaxF (ATree.node i k v l (ATree.node j kj vj rl rr)) =
        ATree.node i k v l (removeMaxF (ATree.node j kj vj rl rr))
        from rfl]
      rw [ATree.entries_node, ATree.entries_node, List.append_assoc]
      rw [show ((i, k, v) :: (removeMaxF (ATree.node j kj vj rl rr)).entries)
        ++ [e] = (i, k, v) ::
          ((removeMaxF (ATree.node j kj vj rl rr)).entries ++ [e])
        from rfl]
      rw [ihr hm']

theorem removeMinF_entries {t : ATree} {e : NodeId × Int × Int}
    (hm : minEntry t = some e) :
    e :: (removeMinF t).entries = t.entries := by
  induction t with
  | leaf => simp [minEntry] at hm
  | node i k v l r ihl ihr =>
    cases l with
    | leaf =>
      obtain rfl : (i, k, v) = e := Option.some.inj hm
      rw [show removeMinF (ATree.node i k v ATree.leaf r) = r from rfl]
      simp
    | node j kj vj ll lr =>
      have hm' : minEntry (ATree.node j kj vj ll lr) = some e := hm
      rw [show removeMinF (ATree.node i k v (ATree.node j kj vj ll lr) r) =
        ATree.node i k v (removeMinF (ATree.node j kj vj ll lr)) r
        from rfl]
      rw [ATree.entries_node, ATree.entries_node]
      rw [show e :: ((removeMinF (ATree.node j kj vj ll lr)).entries ++
        (i, k, v) :: r.entries) = (e ::
          (removeMinF (ATree.node j kj vj ll lr)).entries) ++
          (i, k, v) :: r.entries from rfl]
      rw [ihl hm']

/- ------------------------------------------------------------------ -/
/- Specification of the traversal loop.                                -/
/- ------------------------------------------------------------------ -/

theorem traverseLoop_zero (h : Heap) (stack : List NodeId)
    (c : Option NodeId) (acc : List (NodeId × Int × Int)) :
    Node.traverseLoop 0 h stack c acc = none := rfl

theorem traverseLoop_succ_some (fuel : Nat) (h : Heap)
    (stack : List NodeId) (c : NodeId) (acc : List (NodeId × Int × Int)) :
    Node.traverseLoop (fuel + 1) h stack (some c) acc =
      (h c).bind fun nd =>
        Node.traverseLoop fuel h (c :: stack) nd.leftChild acc := rfl

theorem traverseLoop_succ_pop (fuel : Nat) (h : Heap) (top : NodeId)
    (rest : List NodeId) (acc : List (NodeId × Int × Int)) :
    Node.traverseLoop (fuel + 1) h (top :: rest) none acc =
      (h top).bind fun nd =>
        Node.traverseLoop fuel h rest nd.rightChild
          ((top, nd.key, nd.value) :: acc) := rfl

theorem traverseLoop_succ_nil (fuel : Nat) (h : Heap)
    (acc : List (NodeId × Int × Int)) :
    Node.traverseLoop (fuel + 1) h [] none acc = some acc.reverse := rfl

theorem traverseLoop_spec {h : Heap} {A : ATree} :
    ∀ {p : Option NodeId} {stack : List NodeId}
      {acc : List (NodeId × Int × Int)} {fuel : Nat},
      agrees h p A = true →
      Node.traverseLoop (2 * A.size + fuel) h stack A.rootId acc =
        Node.traverseLoop fuel h stack none (A.entries.reverse ++ acc) := by
  induction A with
  | leaf =>
    intro p stack acc fuel _
    rw [show (2 * ATree.leaf.size + fuel) = fuel by simp [ATree.size]]
    rfl
  | node i k v l r ihl ihr =>
    intro p stack acc fuel hag
    obtain ⟨nd, hnd, hkey, hval, _, hle, hri, hagl, hagr⟩ :=
      agrees_node_iff.1 hag
    have hsz := ATree.size_node i k v l r
    rw [show 2 * (ATree.node i k v l r).size + fuel =
      (2 * l.size + (2 * r.size + fuel + 1)) + 1 by rw [hsz]; ring]
    rw [show (ATree.node i k v l r).rootId = some i from rfl]
    rw [traverseLoop_succ_some, hnd]
    simp only [Option.some_bind]
    rw [hle, ihl hagl]
    rw [show 2 * r.size + fuel + 1 = (2 * r.size + fuel) + 1 from rfl]
    rw [traverseLoop_succ_pop, hnd]
    simp only [Option.some_bind]
    rw [hri, hkey, hval, ihr hagr]
    rw [ATree.entries_node]
    congr 1
    simp

theorem nodeTraverse_spec {h : Heap} {A : ATree} {p : Option NodeId}
    {i : NodeId} {fuel : Nat} (hag : agrees h p A = true)
    (hroot : A.rootId = some i) (hfuel : 2 * A.size ≤ fuel) :
    Node.traverse fuel h i = some A.entries := by
  cases A with
  | leaf => simp [ATree.rootId] at hroot
  | node i0 k v l r =>
    obtain rfl : i = i0 := by
      rw [show (ATree.node i0 k v l r).rootId = some i0 from rfl] at hroot
      exact (Option.some.inj hroot).symm
    obtain ⟨nd, hnd, hkey, hval, _, hle, hri, hagl, hagr⟩ :=
      agrees_node_iff.1 hag
    unfold Node.traverse
    rw [hnd]
    simp only [Option.bind_eq_bind, Option.some_bind]
    obtain ⟨f0, rfl⟩ : ∃ f0, fuel = 2 * (ATree.node i k v l r).size + f0 :=
      ⟨fuel - 2 * (ATree.node i k v l r).size, by omega⟩
    have hsz := ATree.size_node i k v l r
    rw [hle]
    rw [show 2 * (ATree.node i k v l r).size + f0 =
      2 * l.size + ((2 * r.size + (f0 + 1)) + 1) by rw [hsz]; ring]
    rw [traverseLoop_spec hagl]
    rw [traverseLoop_succ_pop, hnd]
    simp only [Option.some_bind]
    rw [hri, hkey, hval]
    rw [show 2 * r.size + (f0 + 1) = 2 * r.size + (f0 + 1) from rfl]
    rw [traverseLoop_spec hagr]
    rw [show (f0 + 1) = f0 + 1 from rfl, traverseLoop_succ_nil]
    rw [ATree.entries_node]
    congr 1
    simp

/-- BinarySearchTree.prototype.traverse visits exactly the represented
    entries, in order. -/
theorem treeTraverse_spec {t : BinarySearchTree} {A : ATree} {fuel : Nat}
    (hrep : Rep t A) (hfuel : 2 * A.size ≤ fuel) :
    t.traverse fuel = some A.entries := by
  obtain ⟨hag, hroot, _, _, _⟩ := hrep
  unfold BinarySearchTree.traverse
  cases A with
  | leaf =>
    rw [hroot]
    rfl
  | node i k v l r =>
    rw [hroot]
    exact nodeTraverse_spec hag rfl hfuel

/- ------------------------------------------------------------------ -/
/- Fuel monotonicity: a computation that completes with some fuel      -/
/- returns the same answer with any larger fuel.                       -/
/- ------------------------------------------------------------------ -/

theorem nodeMin_mono {f1 : Nat} : ∀ {f2 : Nat} {h : Heap} {i x : NodeId},
    f1 ≤ f2 → Node.min f1 h i = some x → Node.min f2 h i = some x := by
  induction f1 with
  | zero =>
    intro f2 h i x _ hx
    simp [Node.min] at hx
  | succ f ih =>
    intro f2 h i x hle hx
    cases f2 with
    | zero => omega
    | succ f2' =>
      rw [show Node.min (f + 1) h i = (h i).bind fun nd =>
        match nd.leftChild with
        | none => some i
        | some l => Node.min f h l from rfl] at hx
      rw [show Node.min (f2' + 1) h i = (h i).bind fun nd =>
        match nd.leftChild with
        | none => some i
        | some l => Node.min f2' h l from rfl]
      cases hnd : h i with
      | none => rw [hnd] at hx; simp at hx
      | some nd =>
        rw [hnd] at hx
        simp only [Option.some_bind] at hx ⊢
        cases hlc : nd.leftChild with
        | none => rw [hlc] at hx; exact hx
        | some l =>
          rw [hlc] at hx
          exact ih (by omega) hx

theorem nodeMax_mono {f1 : Nat} : ∀ {f2 : Nat} {h : Heap} {i x : NodeId},
    f1 ≤ f2 → Node.max f1 h i = some x → Node.max f2 h i = some x := by
  induction f1 with
  | zero =>
    intro f2 h i x _ hx
    simp [Node.max] at hx
  | succ f ih =>
    intro f2 h i x hle hx
    cases f2 with
    | zero => omega
    | succ f2' =>
      rw [show Node.max (f + 1) h i = (h i).bind fun nd =>
        match nd.rightChild with
        | none => some i
        | some r => Node.max f h r from rfl] at hx
      rw [show Node.max (f2' + 1) h i = (h i).bind fun nd =>
        match nd.rightChild with
        | none => some i
        | some r => Node.max f2' h r from rfl]
      cases hnd : h i with
      | none => rw [hnd] at hx; simp at hx
      | some nd =>
        rw [hnd] at hx
        simp only [Option.some_bind] at hx ⊢
        cases hrc : nd.rightChild with
        | none => rw [hrc] at hx; exact hx
        | some r =>
          rw [hrc] at hx
          exact ih (by omega) hx

theorem nodeGet_mono {f1 : Nat} : ∀ {f2 : Nat} {h : Heap} {i : NodeId}
    {key : Int} {x : Option NodeId},
    f1 ≤ f2 → Node.get f1 h i key = some x → Node.get f2 h i key = some x := by
  induction f1 with
  | zero =>
    intro f2 h i key x _ hx
    simp [Node.get] at hx
  | succ f ih =>
    intro f2 h i key x hle hx
    cases f2 with
    | zero => omega
    | succ f2' =>
      rw [show Node.get (f + 1) h i key = (h i).bind fun nd =>
        if key < nd.key then
          match nd.leftChild with
          | none => some none
          | some l => Node.get f h l key
        else if nd.key < key then
          match nd.rightChild with
          | none => some none
          | some r => Node.get f h r key
        else some (some i) from rfl] at hx
      rw [show Node.get (f2' + 1) h i key = (h i).bind fun nd =>
        if key < nd.key then
          match nd.leftChild with
          | none => some none
          | some l => Node.get f2' h l key
        else if nd.key < key then
          match nd.rightChild with
          | none => some none
          | some r => Node.get f2' h r key
        else some (some i) from rfl]
      cases hnd : h i with
      | none => rw [hnd] at hx; simp at hx
      | some nd =>
        rw [hnd] at hx
        simp only [Option.some_bind] at hx ⊢
        by_cases h1 : key < nd.key
        · rw [if_pos h1] at hx ⊢
          cases hlc : nd.leftChild with
          | none => rw [hlc] at hx; exact hx
          | some l =>
            rw [hlc] at hx
            exact ih (by omega) hx
        · rw [if_neg h1] at hx ⊢
          by_cases h2 : nd.key < key
          · rw [if_pos h2] at hx ⊢
            cases hrc : nd.rightChild with
            | none => rw [hrc] at hx; exact hx
            | some r =>
              rw [hrc] at hx
              exact ih (by omega) hx
          · rw [if_neg h2] at hx ⊢
            exact hx

theorem nodeInsert_mono {f1 : Nat} : ∀ {f2 : Nat} {h : Heap} {i : NodeId}
    {key value : Int} {fresh : NodeId} {x : Except JsErr (Heap × NodeId)},
    f1 ≤ f2 → Node.insert f1 h i key value fresh = some x →
    Node.insert f2 h i key value fresh = some x := by
  induction f1 with
  | zero =>
    intro f2 h i key value fresh x _ hx
    simp [Node.insert] at hx
  | succ f ih =>
    intro f2 h i key value fresh x hle hx
    cases f2 with
    | zero => omega
    | succ f2' =>
      rw [show Node.insert (f + 1) h i key value fresh =
        (h i).bind fun nd =>
        if key < nd.key then
          match nd.leftChild with
          | none => some (Except.ok
              (Heap.set (Heap.set h fresh ⟨key, value, some i, none, none⟩)
                i (nd.setLeft (some fresh)), fresh))
          | some l => Node.insert f h l key value fresh
        else if nd.key < key then
          match nd.rightChild with
          | none => some (Except.ok
              (Heap.set (Heap.set h fresh ⟨key, value, some i, none, none⟩)
                i (nd.setRight (some fresh)), fresh))
          | some r => Node.insert f h r key value fresh
        else some (Except.error JsErr.duplicateKey) from rfl] at hx
      rw [show Node.insert (f2' + 1) h i key value fresh =
        (h i).bind fun nd =>
        if key < nd.key then
          match nd.leftChild with
          | none => some (Except.ok
              (Heap.set (Heap.set h fresh ⟨key, value, some i, none, none⟩)
                i (nd.setLeft (some fresh)), fresh))
          | some l => Node.insert f2' h l key value fresh
        else if nd.key < key then
          match nd.rightChild with
          | none => some (Except.ok
              (Heap.set (Heap.set h fresh ⟨key, value, some i, none, none⟩)
                i (nd.setRight (some fresh)), fresh))
          | some r => Node.insert f2' h r key value fresh
        else some (Except.error JsErr.duplicateKey) from rfl]
      cases hnd : h i with
      | none => rw [hnd] at hx; simp at hx
      | some nd =>
        rw [hnd] at hx
        simp only [Option.some_bind] at hx ⊢
        by_cases h1 : key < nd.key
        · rw [if_pos h1] at hx ⊢
          cases hlc : nd.leftChild with
          | none => rw [hlc] at hx; exact hx
          | some l =>
            rw [hlc] at hx
            exact ih (by omega) hx
        · rw [if_neg h1] at hx ⊢
          by_cases h2 : nd.key < key
          · rw [if_pos h2] at hx ⊢
            cases hrc : nd.rightChild with
            | none => rw [hrc] at hx; exact hx
            | some r =>
              rw [hrc] at hx
              exact ih (by omega) hx
          · rw [if_neg h2] at hx ⊢
            exact hx

theorem nodeRemove_mono {f1 f2 : Nat} {h : Heap} {n : NodeId}
    {x : Heap × Option NodeId} (hle : f1 ≤ f2)
    (hx : Node.remove f1 h n = some x) : Node.remove f2 h n = some x := by
  unfold Node.remove at hx ⊢
  cases hnd : h n with
  | none => rw [hnd] at hx; simp at hx
  | some nd =>
    rw [hnd] at hx
    simp only [Option.bind_eq_bind, Option.some_bind] at hx ⊢
    by_cases h1 : nd.rightChild = none
    · rw [if_pos h1] at hx ⊢
      exact hx
    · rw [if_neg h1] at hx ⊢
      by_cases h2 : nd.leftChild = none
      · rw [if_pos h2] at hx ⊢
        exact hx
      · rw [if_neg h2] at hx ⊢
        obtain ⟨l, hl⟩ : ∃ l, nd.leftChild = some l := by
          cases hlc : nd.leftChild with
          | none => exact absurd hlc h2
          | some l => exact ⟨l, rfl⟩
        obtain ⟨r, hr⟩ : ∃ r, nd.rightChild = some r := by
          cases hrc : nd.rightChild with
          | none => exact absurd hrc h1
          | some r => exact ⟨r, rfl⟩
        cases hp : nd.parent with
        | none =>
          rw [hp] at hx
          simp only [Option.some_bind, if_true] at hx ⊢
          rw [hl] at hx ⊢
          simp only [Option.some_bind] at hx ⊢
          cases hm1 : Node.max f1 h l with
          | none => rw [hm1] at hx; simp at hx
          | some m =>
            rw [hm1] at hx
            rw [nodeMax_mono hle hm1]
            simp only [Option.some_bind] at hx ⊢
            exact hx
        | some p =>
          rw [hp] at hx
          split at hx
          · rename_i heq
            exact Option.noConfusion heq
          rename_i p' heq
          injection heq with e
          subst e
          cases hpd : h p with
          | none => rw [hpd] at hx; simp at hx
          | some pd =>
            rw [hpd] at hx
            simp only [Option.some_bind] at hx ⊢
            by_cases h3 : (pd.leftChild == some n) = true
            · rw [if_pos h3] at hx ⊢
              rw [hl] at hx ⊢
              simp only [Option.some_bind] at hx ⊢
              cases hm1 : Node.max f1 h l with
              | none => rw [hm1] at hx; simp at hx
              | some m =>
                rw [hm1] at hx
                rw [nodeMax_mono hle hm1]
                simp only [Option.some_bind] at hx ⊢
                exact hx
            · rw [if_neg h3] at hx ⊢
              rw [hr] at hx ⊢
              simp only [Option.some_bind] at hx ⊢
              cases hm1 : Node.min f1 h r with
              | none => rw [hm1] at hx; simp at hx
              | some m =>
                rw [hm1] at hx
                rw [nodeMin_mono hle hm1]
                simp only [Option.some_bind] at hx ⊢
                exact hx

theorem treeGet_mono {t : BinarySearchTree} {f1 f2 : Nat} {key : Int}
    {x : Option NodeId} (hle : f1 ≤ f2) (hx : t.get f1 key = some x) :
    t.get f2 key = some x := by
  unfold BinarySearchTree.get at hx ⊢
  cases hr : t.root with
  | none => rw [hr] at hx; exact hx
  | some r =>
    rw [hr] at hx
    exact nodeGet_mono hle hx

theorem treeInsert_mono {t : BinarySearchTree} {f1 f2 : Nat} {key value : Int}
    {x : BinarySearchTree × Except JsErr (Option NodeId)} (hle : f1 ≤ f2)
    (hx : t.insert f1 key value = some x) : t.insert f2 key value = some x := by
  unfold BinarySearchTree.insert at hx ⊢
  cases hr : t.root with
  | none => rw [hr] at hx; exact hx
  | some r =>
    rw [hr] at hx
    have hx' : (match Node.insert f1 t.heap r key value t.nextId with
      | none => none
      | some (Except.error e) => some (t, Except.error e)
      | some (Except.ok (h1, _)) =>
        some ((⟨h1, some r, t.numNodes + 1, t.nextId + 1⟩ : BinarySearchTree),
          Except.ok none)) = some x := hx
    show (match Node.insert f2 t.heap r key value t.nextId with
      | none => none
      | some (Except.error e) => some (t, Except.error e)
      | some (Except.ok (h1, _)) =>
        some ((⟨h1, some r, t.numNodes + 1, t.nextId + 1⟩ : BinarySearchTree),
          Except.ok none)) = some x
    cases hi : Node.insert f1 t.heap r key value t.nextId with
    | none =>
      rw [hi] at hx'
      exact Option.noConfusion hx'
    | some y =>
      rw [hi] at hx'
      rw [nodeInsert_mono hle hi]
      exact hx'

theorem treeRemove_mono {t : BinarySearchTree} {f1 f2 : Nat} {key : Int}
    {x : BinarySearchTree × Except JsErr Unit} (hle : f1 ≤ f2)
    (hx : t.remove f1 key = some x) : t.remove f2 key = some x := by
  unfold BinarySearchTree.remove at hx ⊢
  cases hg : t.get f1 key with
  | none =>
    rw [hg] at hx
    simp [Option.bind_eq_bind] at hx
  | some found =>
    rw [hg] at hx
    rw [treeGet_mono hle hg]
    simp only [Option.bind_eq_bind, Option.some_bind] at hx ⊢
    cases found with
    | none => exact hx
    | some nodeToRemove =>
      have hx' : ((Node.remove f1 t.heap nodeToRemove).bind fun res =>
        some ((⟨res.1,
          if t.root = some nodeToRemove then res.2 else t.root,
          t.numNodes - 1, t.nextId⟩ : BinarySearchTree),
          Except.ok ())) = some x := hx
      show ((Node.remove f2 t.heap nodeToRemove).bind fun res =>
        some ((⟨res.1,
          if t.root = some nodeToRemove then res.2 else t.root,
          t.numNodes - 1, t.nextId⟩ : BinarySearchTree),
          Except.ok ())) = some x
      cases hrm : Node.remove f1 t.heap nodeToRemove with
      | none =>
        rw [hrm] at hx'
        exact Option.noConfusion hx'
      | some y =>
        rw [hrm] at hx'
        rw [nodeRemove_mono hle hrm]
        exact hx'

theorem applyOp_mono {t : BinarySearchTree} {f1 f2 : Nat} {op : Op}
    {t' : BinarySearchTree} (hle : f1 ≤ f2)
    (hx : applyOp t f1 op = some t') : applyOp t f2 op = some t' := by
  cases op with
  | ins k v =>
    have hx' : (t.insert f1 k v).map Prod.fst = some t' := hx
    show (t.insert f2 k v).map Prod.fst = some t'
    cases hi : t.insert f1 k v with
    | none => rw [hi] at hx'; simp at hx'
    | some y =>
      rw [hi] at hx'
      rw [treeInsert_mono hle hi]
      exact hx'
  | del k =>
    have hx' : (t.remove f1 k).map Prod.fst = some t' := hx
    show (t.remove f2 k).map Prod.fst = some t'
    cases hi : t.remove f1 k with
    | none => rw [hi] at hx'; simp at hx'
    | some y =>
      rw [hi] at hx'
      rw [treeRemove_mono hle hi]
      exact hx'

theorem applyOps_mono {ops : List Op} : ∀ {t : BinarySearchTree}
    {f1 f2 : Nat} {t' : BinarySearchTree}, f1 ≤ f2 →
    applyOps t f1 ops = some t' → applyOps t f2 ops = some t' := by
  induction ops with
  | nil =>
    intro t f1 f2 t' _ hx
    exact hx
  | cons op ops ih =>
    intro t f1 f2 t' hle hx
    rw [show applyOps t f1 (op :: ops) =
      (applyOp t f1 op).bind fun t1 => applyOps t1 f1 ops from rfl] at hx
    rw [show applyOps t f2 (op :: ops) =
      (applyOp t f2 op).bind fun t1 => applyOps t1 f2 ops from rfl]
    cases h1 : applyOp t f1 op with
    | none => rw [h1] at hx; simp at hx
    | some t1 =>
      rw [h1] at hx
      rw [applyOp_mono hle h1]
      simp only [Option.some_bind] at hx ⊢
      exact ih hle hx

/- ------------------------------------------------------------------ -/
/- Tree-level operation specifications.                                -/
/- ------------------------------------------------------------------ -/

theorem mem_entries_of_mem_keys {t : ATree} {k : Int} (hk : k ∈ t.keys) :
    ∃ n v, (n, k, v) ∈ t.entries := by
  rcases List.mem_map.1 hk with ⟨⟨n, kk, v⟩, he, rfl⟩
  exact ⟨n, v, he⟩

theorem rootId_mem_ids {t : ATree} {x : NodeId} (hx : t.rootId = some x) :
    x ∈ t.ids := by
  cases t with
  | leaf => exact Option.noConfusion hx
  | node i k v l r =>
    obtain rfl : i = x := Option.some.inj hx
    simp

theorem treeGet_eq_root_none {t : BinarySearchTree} {fuel : Nat} {key : Int}
    (hr : t.root = none) : t.get fuel key = some none := by
  unfold BinarySearchTree.get
  rw [hr]

theorem treeGet_eq_root_some {t : BinarySearchTree} {r : NodeId} {fuel : Nat}
    {key : Int} (hr : t.root = some r) :
    t.get fuel key = Node.get fuel t.heap r key := by
  unfold BinarySearchTree.get
  rw [hr]

theorem treeInsert_eq_root_none {t : BinarySearchTree} {fuel : Nat}
    {key value : Int} (hr : t.root = none) :
    t.insert fuel key value = some
      (⟨Heap.set t.heap t.nextId ⟨key, value, none, none, none⟩,
        some t.nextId, t.numNodes + 1, t.nextId + 1⟩, Except.ok none) := by
  unfold BinarySearchTree.insert
  rw [hr]

theorem treeInsert_eq_root_some {t : BinarySearchTree} {r : NodeId}
    {fuel : Nat} {key value : Int} (hr : t.root = some r) :
    t.insert fuel key value =
      match Node.insert fuel t.heap r key value t.nextId with
      | none => none
      | some (Except.error e) => some (t, Except.error e)
      | some (Except.ok (h1, _)) =>
        some (⟨h1, t.root, t.numNodes + 1, t.nextId + 1⟩, Except.ok none) := by
  unfold BinarySearchTree.insert
  rw [hr]

theorem treeRemove_eq_absent {t : BinarySearchTree} {fuel : Nat} {key : Int}
    (hg : t.get fuel key = some none) :
    t.remove fuel key = some (t, Except.error JsErr.keyNotFound) := by
  unfold BinarySearchTree.remove
  rw [hg]
  rfl

theorem treeRemove_eq_found {t : BinarySearchTree} {fuel : Nat} {key : Int}
    {n : NodeId} (hg : t.get fuel key = some (some n)) :
    t.remove fuel key = (Node.remove fuel t.heap n).bind fun res =>
      some (⟨res.1, if t.root = some n then res.2 else t.root,
        t.numNodes - 1, t.nextId⟩, Except.ok ()) := by
  unfold BinarySearchTree.remove
  rw [hg]
  rfl

theorem treeGet_found {t : BinarySearchTree} {A : ATree} {fuel : Nat}
    {n : NodeId} {k v : Int} (hrep : Rep t A) (hs : SortedKeys A)
    (he : (n, k, v) ∈ A.entries) (hfuel : A.size < fuel) :
    t.get fuel k = some (some n) := by
  obtain ⟨hag, hroot, _, _, _⟩ := hrep
  cases A with
  | leaf => simp at he
  | node i ki vi l r =>
    rw [treeGet_eq_root_some hroot]
    exact nodeGet_found hag hs he rfl hfuel

theorem treeGet_notFound {t : BinarySearchTree} {A : ATree} {fuel : Nat}
    {k : Int} (hrep : Rep t A) (hk : k ∉ A.keys) (hfuel : A.size < fuel) :
    t.get fuel k = some none := by
  obtain ⟨hag, hroot, _, _, _⟩ := hrep
  cases A with
  | leaf => exact treeGet_eq_root_none hroot
  | node i ki vi l r =>
    rw [treeGet_eq_root_some hroot]
    exact nodeGet_absent hag hk rfl hfuel

theorem treeInsert_ok {t : BinarySearchTree} {A : ATree} {fuel : Nat}
    {key value : Int} (hrep : Rep t A) (hs : SortedKeys A)
    (hk : key ∉ A.keys) (hfuel : A.size < fuel) :
    ∃ t', t.insert fuel key value = some (t', Except.ok none) ∧
      Rep t' (insertF A key value t.nextId) ∧
      SortedKeys (insertF A key value t.nextId) ∧
      t'.nextId = t.nextId + 1 := by
  obtain ⟨hag, hroot, hnodup, hbound, hcount⟩ := hrep
  have hsorted' := insertF_sorted hs hk value t.nextId
  cases A with
  | leaf =>
    refine ⟨_, treeInsert_eq_root_none hroot, ?_, hsorted', rfl⟩
    refine ⟨?_, rfl, by simp [insertF], ?_, ?_⟩
    · exact agrees_node_iff.2 ⟨⟨key, value, none, none, none⟩,
        Heap.set_self _ _ _, rfl, rfl, rfl, rfl, rfl, by simp, by simp⟩
    · intro i hi
      rw [show insertF ATree.leaf key value t.nextId =
        ATree.node t.nextId key value ATree.leaf ATree.leaf from rfl] at hi
      have hieq : i = t.nextId := by
        simpa [ATree.ids, ATree.entries] using hi
      show i < t.nextId + 1
      rw [hieq]
      exact Nat.lt_succ_self _
    · rw [show ((ATree.leaf : ATree).size : Int) = 0 from rfl] at hcount
      show t.numNodes + 1 =
        ((insertF ATree.leaf key value t.nextId).size : Int)
      rw [show (insertF ATree.leaf key value t.nextId).size = 1 from rfl]
      omega
  | node i ki vi l r =>
    have hfresh : t.nextId ∉ (ATree.node i ki vi l r).ids := by
      intro hc
      exact absurd (hbound _ hc) (lt_irrefl _)
    obtain ⟨h', hrun, hag', hframe⟩ :=
      nodeInsert_spec hag hnodup hk hfresh rfl hfuel
    refine ⟨⟨h', t.root, t.numNodes + 1, t.nextId + 1⟩, ?_, ?_, hsorted', rfl⟩
    · rw [treeInsert_eq_root_some hroot, hrun]
    · obtain ⟨X, Y, hXY, hXY'⟩ := insertF_split hk value t.nextId
      have hids' : (insertF (ATree.node i ki vi l r) key value t.nextId).ids =
          X.map Prod.fst ++ t.nextId :: Y.map Prod.fst := by
        rw [show (insertF (ATree.node i ki vi l r) key value t.nextId).ids =
          (insertF (ATree.node i ki vi l r) key value t.nextId).entries.map
            Prod.fst from rfl, hXY']
        simp
      have hids : (ATree.node i ki vi l r).ids =
          X.map Prod.fst ++ Y.map Prod.fst := by
        rw [show (ATree.node i ki vi l r).ids =
          (ATree.node i ki vi l r).entries.map Prod.fst from rfl, hXY]
        simp
      refine ⟨hag', ?_, ?_, ?_, ?_⟩
      · rw [show (⟨h', t.root, t.numNodes + 1, t.nextId + 1⟩ :
          BinarySearchTree).root = t.root from rfl, hroot]
        exact (insertF_rootId (by simp) key value t.nextId).symm
      · rw [hids']
        have hnd : (X.map Prod.fst ++ Y.map Prod.fst).Nodup := by
          rw [← hids]; exact hnodup
        have hmem : t.nextId ∉ X.map Prod.fst ++ Y.map Prod.fst := by
          rw [← hids]; exact hfresh
        rw [List.nodup_append] at hnd ⊢
        rcases hnd with ⟨hndX, hndY, hdisj⟩
        refine ⟨hndX, ?_, ?_⟩
        · exact List.nodup_cons.2 ⟨fun hc => hmem (by simp [hc]), hndY⟩
        · intro a haX hc
          rcases List.mem_cons.1 hc with rfl | hc
          · exact hmem (List.mem_append.2 (Or.inl haX))
          · exact hdisj haX hc
      · intro j hj
        show j < t.nextId + 1
        rw [hids'] at hj
        rcases List.mem_append.1 hj with hj | hj
        · have hb : j < t.nextId := hbound _ (by
            rw [hids]; exact List.mem_append.2 (Or.inl hj))
          exact Nat.lt_succ_of_lt hb
        · rcases List.mem_cons.1 hj with rfl | hj
          · exact Nat.lt_succ_self _
          · have hb : j < t.nextId := hbound _ (by
              rw [hids]; exact List.mem_append.2 (Or.inr hj))
            exact Nat.lt_succ_of_lt hb
      · show t.numNodes + 1 =
          ((insertF (ATree.node i ki vi l r) key value t.nextId).size : Int)
        rw [show (insertF (ATree.node i ki vi l r) key value t.nextId).size =
          (insertF (ATree.node i ki vi l r) key value t.nextId).entries.length
          from rfl, hXY']
        rw [show (ATree.node i ki vi l r).size =
          (ATree.node i ki vi l r).entries.length from rfl, hXY] at hcount
        simp only [List.length_append, List.length_cons] at hcount ⊢
        omega

theorem treeInsert_dup {t : BinarySearchTree} {A : ATree} {fuel : Nat}
    {key value : Int} (hrep : Rep t A) (hs : SortedKeys A)
    (hk : key ∈ A.keys) (hfuel : A.size < fuel) :
    t.insert fuel key value = some (t, Except.error JsErr.duplicateKey) := by
  obtain ⟨hag, hroot, _, _, _⟩ := hrep
  cases A with
  | leaf => simp at hk
  | node i ki vi l r =>
    rw [treeInsert_eq_root_some hroot,
      nodeInsert_dup hag hs hk rfl hfuel]

theorem treeRemove_absent {t : BinarySearchTree} {A : ATree} {fuel : Nat}
    {key : Int} (hrep : Rep t A) (hk : key ∉ A.keys)
    (hfuel : A.size < fuel) :
    t.remove fuel key = some (t, Except.error JsErr.keyNotFound) :=
  treeRemove_eq_absent (treeGet_notFound hrep hk hfuel)

/-- The id chosen by the upward walk is determined by the path shape; here,
    dispatch of Node.prototype.remove on an arbitrary found position: the
    four cases of the algorithm, packaged. -/
theorem nodeRemove_found_master {h : Heap} {n : NodeId} {k v : Int}
    {L R : ATree} {P : List Step} {fuel : Nat}
    (hag : agrees h none (plug (ATree.node n k v L R) P) = true)
    (hnodup : (plug (ATree.node n k v L R) P).ids.Nodup)
    (hfuelL : L.size < fuel) (hfuelR : R.size < fuel) :
    ∃ h' rep A', Node.remove fuel h n = some (h', rep) ∧
      agrees h' none A' = true ∧
      A'.entries = ctxI P ++ (L.entries ++ R.entries) ++ ctxJ P ∧
      h' n = h n ∧
      (P = [] → A'.rootId = rep) ∧
      (∀ s rest, P = s :: rest →
        A'.rootId = (plug (ATree.node n k v L R) P).rootId) := by
  cases R with
  | leaf =>
    obtain ⟨h', hrun, hagA, hhn⟩ := nodeRemove_case1 fuel hag hnodup
    refine ⟨h', L.rootId, plug L P, hrun, hagA, ?_, hhn, ?_, ?_⟩
    · rw [plug_entries]
      simp [ATree.entries]
    · intro hP
      subst hP
      rfl
    · intro s rest hP
      subst hP
      exact plug_cons_rootId L (ATree.node n k v L ATree.leaf) s rest
  | node r0 kr vr rl rr =>
    cases L with
    | leaf =>
      obtain ⟨h', hrun, hagA, hhn⟩ := nodeRemove_case2 fuel hag hnodup
      refine ⟨h', some r0, plug (ATree.node r0 kr vr rl rr) P, hrun, hagA,
        ?_, hhn, ?_, ?_⟩
      · rw [plug_entries]
        simp [ATree.entries]
      · intro hP
        subst hP
        rfl
      · intro s rest hP
        subst hP
        exact plug_cons_rootId (ATree.node r0 kr vr rl rr)
          (ATree.node n k v ATree.leaf (ATree.node r0 kr vr rl rr)) s rest
    | node l0 lk lv la lb =>
      have hcase : (P = [] ∨ ∃ s rest, P = s :: rest ∧ s.dir = Dir.left) ∨
          ∃ s rest, P = s :: rest ∧ s.dir = Dir.right := by
        cases P with
        | nil => exact Or.inl (Or.inl rfl)
        | cons s rest =>
          cases hd : s.dir with
          | left => exact Or.inl (Or.inr ⟨s, rest, rfl, hd⟩)
          | right => exact Or.inr ⟨s, rest, rfl, hd⟩
      rcases hcase with hLoR | ⟨s, rest, hP, hdir⟩
      · obtain ⟨⟨m, km, vm⟩, hm⟩ :=
          @maxEntry_isSome (ATree.node l0 lk lv la lb) (by simp)
        obtain ⟨h', hrun, hagA, hhn⟩ :=
          nodeRemove_case3 hag hnodup hm hLoR hfuelL
        refine ⟨h', some m,
          plug (ATree.node m km vm (removeMaxF (ATree.node l0 lk lv la lb))
            (ATree.node r0 kr vr rl rr)) P, hrun, hagA, ?_, hhn, ?_, ?_⟩
        · rw [plug_entries]
          have hrm := removeMaxF_entries hm
          rw [ATree.entries_node, ← hrm]
          simp
        · intro hP
          subst hP
          rfl
        · intro s rest hP
          subst hP
          exact plug_cons_rootId _ _ s rest
      · obtain ⟨⟨m, km, vm⟩, hm⟩ :=
          @minEntry_isSome (ATree.node r0 kr vr rl rr) (by simp)
        obtain ⟨h', hrun, hagA, hhn⟩ :=
          nodeRemove_case4 hag hnodup hm hP hdir hfuelR
        refine ⟨h', some m,
          plug (ATree.node m km vm (ATree.node l0 lk lv la lb)
            (removeMinF (ATree.node r0 kr vr rl rr))) P, hrun, hagA,
          ?_, hhn, ?_, ?_⟩
        · rw [plug_entries]
          have hrm := removeMinF_entries hm
          rw [ATree.entries_node, ← hrm]
        · intro hP0
          rw [hP0] at hP
          exact absurd hP (by simp)
        · intro s1 rest1 hP1
          subst hP1
          exact plug_cons_rootId _ _ s1 rest1

theorem treeRemove_found {t : BinarySearchTree} {A : ATree} {fuel : Nat}
    {key : Int} (hrep : Rep t A) (hs : SortedKeys A) (hk : key ∈ A.keys)
    (hfuel : A.size < fuel) :
    ∃ t' A' n value X Y,
      t.remove fuel key = some (t', Except.ok ()) ∧
      Rep t' A' ∧ SortedKeys A' ∧
      A.entries = X ++ (n, key, value) :: Y ∧
      A'.entries = X ++ Y ∧
      t'.heap n = t.heap n ∧ t'.numNodes = t.numNodes - 1 ∧
      t'.nextId = t.nextId := by
  obtain ⟨n, value, he⟩ := mem_entries_of_mem_keys hk
  have hget : t.get fuel key = some (some n) := treeGet_found hrep hs he hfuel
  obtain ⟨hag, hroot, hnodup, hbound, hcount⟩ := hrep
  obtain ⟨L, R, P, hA0⟩ := mem_entries_decomp he
  have hA : A = plug (ATree.node n key value L R) P := hA0
  subst hA
  have hsize : (plug (ATree.node n key value L R) P).size =
      (ctxI P).length + (L.size + R.size + 1) + (ctxJ P).length := by
    rw [show (plug (ATree.node n key value L R) P).size =
      (plug (ATree.node n key value L R) P).entries.length from rfl,
      plug_entries, ATree.entries_node]
    simp [ATree.size]
    omega
  have hfuelL : L.size < fuel := by omega
  have hfuelR : R.size < fuel := by omega
  obtain ⟨h', rep, A', hrun, hagA, hAe', hhn, hroot_nil, hroot_cons⟩ :=
    nodeRemove_found_master hag hnodup hfuelL hfuelR
  have hndP := nodup_plug_facts hnodup
  refine ⟨⟨h', if t.root = some n then rep else t.root,
      t.numNodes - 1, t.nextId⟩, A', n, value,
    ctxI P ++ L.entries, R.entries ++ ctxJ P, ?_, ?_, ?_, ?_, ?_, hhn,
    rfl, rfl⟩
  · rw [treeRemove_eq_found hget, hrun]
    rfl
  · have hsub : A'.entries.Sublist
        (plug (ATree.node n key value L R) P).entries := by
      rw [hAe', plug_entries, ATree.entries_node]
      refine List.Sublist.append (List.Sublist.append
        (List.Sublist.refl _) ?_) (List.Sublist.refl _)
      exact List.Sublist.append (List.Sublist.refl _)
        (List.sublist_cons_self _ _)
    refine ⟨hagA, ?_, ?_, ?_, ?_⟩
    · show (if t.root = some n then rep else t.root) = A'.rootId
      cases hP : P with
      | nil =>
        rw [if_pos (by rw [hroot, hP]; rfl)]
        exact (hroot_nil hP).symm
      | cons s rest =>
        rw [if_neg ?_]
        · rw [hroot]
          exact (hroot_cons s rest hP).symm
        · intro hc
          rw [hroot, hP] at hc
          have hmem := plug_rootId_mem rest (ATree.node n key value L R) s hc
          rw [← hP] at hmem
          exact hndP.2.2 n (by simp) hmem
    · exact (hsub.map Prod.fst).nodup hnodup
    · intro j hj
      show j < t.nextId
      exact hbound j ((hsub.map Prod.fst).subset hj)
    · show t.numNodes - 1 = (A'.size : Int)
      rw [show A'.size = A'.entries.length from rfl, hAe']
      rw [show (plug (ATree.node n key value L R) P).size =
        (plug (ATree.node n key value L R) P).entries.length from rfl,
        plug_entries, ATree.entries_node] at hcount
      simp only [List.length_append, List.length_cons] at hcount ⊢
      omega
  · show (A'.entries.map (fun e => e.2.1)).Pairwise (fun a b => a < b)
    have hs' : (((plug (ATree.node n key value L R) P).entries.map
        (fun e => e.2.1)).Pairwise (fun a b => a < b)) := hs
    have hsub : A'.entries.Sublist
        (plug (ATree.node n key value L R) P).entries := by
      rw [hAe', plug_entries, ATree.entries_node]
      refine List.Sublist.append (List.Sublist.append
        (List.Sublist.refl _) ?_) (List.Sublist.refl _)
      exact List.Sublist.append (List.Sublist.refl _)
        (List.sublist_cons_self _ _)
    exact List.Pairwise.sublist (hsub.map (fun e => e.2.1)) hs'
  · rw [plug_entries, ATree.entries_node]
    simp
  · rw [hAe']
    simp

/- ------------------------------------------------------------------ -/
/- The representation invariant holds initially and is preserved by    -/
/- every completed operation.                                          -/
/- ------------------------------------------------------------------ -/

theorem Rep_new : Rep BinarySearchTree.new ATree.leaf := by
  refine ⟨rfl, rfl, by simp [ATree.ids, ATree.entries], ?_, ?_⟩
  · intro i hi
    exact absurd hi (by simp [ATree.ids, ATree.entries])
  · simp [ATree.size, ATree.entries, BinarySearchTree.new]

theorem Inv_new : Inv BinarySearchTree.new :=
  ⟨ATree.leaf, Rep_new, by simp [SortedKeys, ATree.keys, ATree.entries]⟩

theorem applyOp_inv {t : BinarySearchTree} {fuel : Nat} {op : Op}
    {t' : BinarySearchTree} (hinv : Inv t)
    (hx : applyOp t fuel op = some t') : Inv t' := by
  obtain ⟨A, hrep, hs⟩ := hinv
  have hx2 : applyOp t (fuel + A.size + 1) op = some t' :=
    applyOp_mono (by omega) hx
  cases op with
  | ins k v =>
    rw [show applyOp t (fuel + A.size + 1) (Op.ins k v) =
      (t.insert (fuel + A.size + 1) k v).map Prod.fst from rfl] at hx2
    by_cases hk : k ∈ A.keys
    · rw [@treeInsert_dup t A (fuel + A.size + 1) k v hrep hs hk
        (by omega)] at hx2
      obtain rfl : t = t' := by simpa using hx2
      exact ⟨A, hrep, hs⟩
    · obtain ⟨t'', hrun, hrep', hs', _⟩ :=
        @treeInsert_ok t A (fuel + A.size + 1) k v hrep hs hk (by omega)
      rw [hrun] at hx2
      obtain rfl : t'' = t' := by simpa using hx2
      exact ⟨_, hrep', hs'⟩
  | del k =>
    rw [show applyOp t (fuel + A.size + 1) (Op.del k) =
      (t.remove (fuel + A.size + 1) k).map Prod.fst from rfl] at hx2
    by_cases hk : k ∈ A.keys
    · obtain ⟨t'', A', n, value, X, Y, hrun, hrep', hs', _, _, _, _, _⟩ :=
        @treeRemove_found t A (fuel + A.size + 1) k hrep hs hk (by omega)
      rw [hrun] at hx2
      obtain rfl : t'' = t' := by simpa using hx2
      exact ⟨A', hrep', hs'⟩
    · rw [@treeRemove_absent t A (fuel + A.size + 1) k hrep hk
        (by omega)] at hx2
      obtain rfl : t = t' := by simpa using hx2
      exact ⟨A, hrep, hs⟩

theorem applyOps_inv {ops : List Op} : ∀ {t : BinarySearchTree} {fuel : Nat}
    {t' : BinarySearchTree}, Inv t → applyOps t fuel ops = some t' →
    Inv t' := by
  induction ops with
  | nil =>
    intro t fuel t' hinv hx
    obtain rfl : t = t' := by simpa [applyOps] using hx
    exact hinv
  | cons op ops ih =>
    intro t fuel t' hinv hx
    rw [show applyOps t fuel (op :: ops) =
      (applyOp t fuel op).bind fun t1 => applyOps t1 fuel ops from rfl] at hx
    cases h1 : applyOp t fuel op with
    | none => rw [h1] at hx; simp at hx
    | some t1 =>
      rw [h1] at hx
      simp only [Option.some_bind] at hx
      exact ih (applyOp_inv hinv h1) hx

/- ------------------------------------------------------------------ -/
/- Traversal monotonicity and the predecessor/successor upward walks.  -/
/- ------------------------------------------------------------------ -/

theorem traverseLoop_mono {f1 : Nat} : ∀ {f2 : Nat} {h : Heap}
    {stack : List NodeId} {curr : Option NodeId}
    {acc res : List (NodeId × Int × Int)}, f1 ≤ f2 →
    Node.traverseLoop f1 h stack curr acc = some res →
    Node.traverseLoop f2 h stack curr acc = some res := by
  induction f1 with
  | zero =>
    intro f2 h stack curr acc res _ hx
    rw [traverseLoop_zero] at hx
    exact Option.noConfusion hx
  | succ f ih =>
    intro f2 h stack curr acc res hle hx
    cases f2 with
    | zero => omega
    | succ f2' =>
      cases curr with
      | some c =>
        rw [traverseLoop_succ_some] at hx
        rw [traverseLoop_succ_some]
        cases hnd : h c with
        | none => rw [hnd] at hx; simp at hx
        | some nd =>
          rw [hnd] at hx
          simp only [Option.some_bind] at hx ⊢
          exact ih (by omega) hx
      | none =>
        cases stack with
        | nil =>
          rw [traverseLoop_succ_nil] at hx ⊢
          exact hx
        | cons top rest =>
          rw [traverseLoop_succ_pop] at hx
          rw [traverseLoop_succ_pop]
          cases hnd : h top with
          | none => rw [hnd] at hx; simp at hx
          | some nd =>
            rw [hnd] at hx
            simp only [Option.some_bind] at hx ⊢
            exact ih (by omega) hx

theorem treeTraverse_mono {t : BinarySearchTree} {f1 f2 : Nat}
    {res : List (NodeId × Int × Int)} (hle : f1 ≤ f2)
    (hx : t.traverse f1 = some res) : t.traverse f2 = some res := by
  unfold BinarySearchTree.traverse at hx ⊢
  cases hr : t.root with
  | none => rw [hr] at hx; exact hx
  | some r =>
    rw [hr] at hx
    have hx' : Node.traverse f1 t.heap r = some res := hx
    show Node.traverse f2 t.heap r = some res
    unfold Node.traverse at hx' ⊢
    cases hnd : t.heap r with
    | none => rw [hnd] at hx'; simp at hx'
    | some nd =>
      rw [hnd] at hx'
      simp only [Option.bind_eq_bind, Option.some_bind] at hx' ⊢
      exact traverseLoop_mono hle hx'

theorem pathIds_length_ge (P : List Step) :
    P.length ≤ (pathIds P).length := by
  induction P with
  | nil => simp [pathIds]
  | cons s rest ih =>
    rw [show pathIds (s :: rest) = s.id :: (s.other.ids ++ pathIds rest)
      from rfl]
    simp only [List.length_cons, List.length_append]
    omega

theorem firstRightId_eq_ctxI_getLast (P : List Step) :
    firstRightId P = (ctxI P).getLast?.map Prod.fst := by
  induction P with
  | nil => rfl
  | cons s rest ih =>
    cases hd : s.dir with
    | left =>
      rw [show firstRightId (s :: rest) =
        (match s.dir with
         | Dir.right => some s.id
         | Dir.left => firstRightId rest) from rfl, hd]
      rw [show ctxI (s :: rest) =
        (match s.dir with
         | Dir.left => ctxI rest
         | Dir.right => ctxI rest ++ s.other.entries ++
             [(s.id, s.key, s.value)]) from rfl, hd]
      exact ih
    | right =>
      rw [show firstRightId (s :: rest) =
        (match s.dir with
         | Dir.right => some s.id
         | Dir.left => firstRightId rest) from rfl, hd]
      rw [show ctxI (s :: rest) =
        (match s.dir with
         | Dir.left => ctxI rest
         | Dir.right => ctxI rest ++ s.other.entries ++
             [(s.id, s.key, s.value)]) from rfl, hd]
      rw [List.getLast?_concat]
      rfl

theorem firstLeftId_eq_ctxJ_head (P : List Step) :
    firstLeftId P = (ctxJ P).head?.map Prod.fst := by
  induction P with
  | nil => rfl
  | cons s rest ih =>
    cases hd : s.dir with
    | right =>
      rw [show firstLeftId (s :: rest) =
        (match s.dir with
         | Dir.left => some s.id
         | Dir.right => firstLeftId rest) from rfl, hd]
      rw [show ctxJ (s :: rest) =
        (match s.dir with
         | Dir.left => (s.id, s.key, s.value) ::
             (s.other.entries ++ ctxJ rest)
         | Dir.right => ctxJ rest) from rfl, hd]
      exact ih
    | left =>
      rw [show firstLeftId (s :: rest) =
        (match s.dir with
         | Dir.left => some s.id
         | Dir.right => firstLeftId rest) from rfl, hd]
      rw [show ctxJ (s :: rest) =
        (match s.dir with
         | Dir.left => (s.id, s.key, s.value) ::
             (s.other.entries ++ ctxJ rest)
         | Dir.right => ctxJ rest) from rfl, hd]
      rfl

theorem predecessorLoop_spec {h : Heap} {P : List Step} :
    ∀ {T : ATree} {prev : NodeId} {fuel : Nat},
    pathOK h none T.rootId P = true →
    T.rootId = some prev →
    (plug T P).ids.Nodup →
    P.length < fuel →
    Node.predecessorLoop fuel h prev (parentOf none P) =
      some (firstRightId P) := by
  induction P with
  | nil =>
    intro T prev fuel _ _ _ hfuel
    cases fuel with
    | zero => omega
    | succ f => rfl
  | cons s rest ih =>
    intro T prev fuel hpath hTprev hnodup hfuel
    cases fuel with
    | zero => omega
    | succ f =>
      rw [pathOK_cons] at hpath
      simp only [Bool.and_eq_true] at hpath
      obtain ⟨hhead, htail⟩ := hpath
      obtain ⟨nd, hnd, hfields⟩ : ∃ nd, h s.id = some nd ∧
          (nd.key == s.key && nd.value == s.value &&
            nd.parent == parentOf none rest &&
            (match s.dir with
             | Dir.left => nd.leftChild == T.rootId &&
                 nd.rightChild == s.other.rootId
             | Dir.right => nd.leftChild == s.other.rootId &&
                 nd.rightChild == T.rootId) &&
            agrees h (some s.id) s.other) = true := by
        cases hns : h s.id with
        | none => rw [hns] at hhead; exact absurd hhead (by simp)
        | some nd => rw [hns] at hhead; exact ⟨nd, rfl, hhead⟩
      simp only [Bool.and_eq_true, beq_iff_eq] at hfields
      obtain ⟨⟨⟨⟨_, _⟩, hparent⟩, hchild⟩, _⟩ := hfields
      rw [show parentOf none (s :: rest) = some s.id from rfl]
      rw [show Node.predecessorLoop (f + 1) h prev (some s.id) =
        (h s.id).bind fun cd =>
          if cd.rightChild = some prev then some (some s.id)
          else Node.predecessorLoop f h s.id cd.parent from rfl]
      rw [hnd]
      simp only [Option.some_bind]
      have hrw : plug T (s :: rest) =
          (match s.dir with
           | Dir.left => plug (ATree.node s.id s.key s.value T s.other) rest
           | Dir.right =>
               plug (ATree.node s.id s.key s.value s.other T) rest) := rfl
      cases hd : s.dir with
      | right =>
        rw [hd] at hchild
        simp only [Bool.and_eq_true, beq_iff_eq] at hchild
        rw [if_pos (by rw [hchild.2, hTprev])]
        rw [show firstRightId (s :: rest) =
          (match s.dir with
           | Dir.right => some s.id
           | Dir.left => firstRightId rest) from rfl, hd]
      | left =>
        rw [hd] at hchild
        simp only [Bool.and_eq_true, beq_iff_eq] at hchild
        rw [hd] at hrw
        rw [hrw] at hnodup
        have hnds := nodup_plug_facts hnodup
        obtain ⟨hinT, hinO, hndT, hndO, hdisjTO⟩ := nodup_node_facts hnds.1
        have hneq : nd.rightChild ≠ some prev := by
          rw [hchild.2]
          intro hc
          have hprevO : prev ∈ s.other.ids := rootId_mem_ids hc
          have hprevT : prev ∈ T.ids := rootId_mem_ids hTprev
          exact hdisjTO prev hprevT hprevO
        rw [if_neg hneq, hparent]
        have hrec := @ih (ATree.node s.id s.key s.value T s.other) s.id f
          htail rfl hnodup (by simpa using Nat.lt_of_succ_lt_succ hfuel)
        rw [hrec]
        rw [show firstRightId (s :: rest) =
          (match s.dir with
           | Dir.right => some s.id
           | Dir.left => firstRightId rest) from rfl, hd]

theorem successorLoop_spec {h : Heap} {P : List Step} :
    ∀ {T : ATree} {prev : NodeId} {fuel : Nat},
    pathOK h none T.rootId P = true →
    T.rootId = some prev →
    (plug T P).ids.Nodup →
    P.length < fuel →
    Node.successorLoop fuel h prev (parentOf none P) =
      some (firstLeftId P) := by
  induction P with
  | nil =>
    intro T prev fuel _ _ _ hfuel
    cases fuel with
    | zero => omega
    | succ f => rfl
  | cons s rest ih =>
    intro T prev fuel hpath hTprev hnodup hfuel
    cases fuel with
    | zero => omega
    | succ f =>
      rw [pathOK_cons] at hpath
      simp only [Bool.and_eq_true] at hpath
      obtain ⟨hhead, htail⟩ := hpath
      obtain ⟨nd, hnd, hfields⟩ : ∃ nd, h s.id = some nd ∧
          (nd.key == s.key && nd.value == s.value &&
            nd.parent == parentOf none rest &&
            (match s.dir with
             | Dir.left => nd.leftChild == T.rootId &&
                 nd.rightChild == s.other.rootId
             | Dir.right => nd.leftChild == s.other.rootId &&
                 nd.rightChild == T.rootId) &&
            agrees h (some s.id) s.other) = true := by
        cases hns : h s.id with
        | none => rw [hns] at hhead; exact absurd hhead (by simp)
        | some nd => rw [hns] at hhead; exact ⟨nd, rfl, hhead⟩
      simp only [Bool.and_eq_true, beq_iff_eq] at hfields
      obtain ⟨⟨⟨⟨_, _⟩, hparent⟩, hchild⟩, _⟩ := hfields
      rw [show parentOf none (s :: rest) = some s.id from rfl]
      rw [show Node.successorLoop (f + 1) h prev (some s.id) =
        (h s.id).bind fun cd =>
          if cd.leftChild = some prev then some (some s.id)
          else Node.successorLoop f h s.id cd.parent from rfl]
      rw [hnd]
      simp only [Option.some_bind]
      have hrw : plug T (s :: rest) =
          (match s.dir with
           | Dir.left => plug (ATree.node s.id s.key s.value T s.other) rest
           | Dir.right =>
               plug (ATree.node s.id s.key s.value s.other T) rest) := rfl
      cases hd : s.dir with
      | left =>
        rw [hd] at hchild
        simp only [Bool.and_eq_true, beq_iff_eq] at hchild
        rw [if_pos (by rw [hchild.1, hTprev])]
        rw [show firstLeftId (s :: rest) =
          (match s.dir with
           | Dir.left => some s.id
           | Dir.right => firstLeftId rest) from rfl, hd]
      | right =>
        rw [hd] at hchild
        simp only [Bool.and_eq_true, beq_iff_eq] at hchild
        rw [hd] at hrw
        rw [hrw] at hnodup
        have hnds := nodup_plug_facts hnodup
        obtain ⟨hinO, hinT, hndO, hndT, hdisjOT⟩ := nodup_node_facts hnds.1
        have hneq : nd.leftChild ≠ some prev := by
          rw [hchild.1]
          intro hc
          have hprevO : prev ∈ s.other.ids := rootId_mem_ids hc
          have hprevT : prev ∈ T.ids := rootId_mem_ids hTprev
          exact hdisjOT prev hprevO hprevT
        rw [if_neg hneq, hparent]
        have hrec := @ih (ATree.node s.id s.key s.value s.other T) s.id f
          htail rfl hnodup (by simpa using Nat.lt_of_succ_lt_succ hfuel)
        rw [hrec]
        rw [show firstLeftId (s :: rest) =
          (match s.dir with
           | Dir.left => some s.id
           | Dir.right => firstLeftId rest) from rfl, hd]

/-- Node.prototype.predecessor returns the id of the entry immediately
    before this node in the in-order entry sequence (`none` at the min). -/
theorem nodePredecessor_spec {h : Heap} {n : NodeId} {k v : Int}
    {L R : ATree} {P : List Step} {fuel : Nat}
    (hag : agrees h none (plug (ATree.node n k v L R) P) = true)
    (hnodup : (plug (ATree.node n k v L R) P).ids.Nodup)
    (hfuelL : L.size < fuel) (hfuelP : P.length < fuel) :
    Node.predecessor fuel h n =
      some (((ctxI P ++ L.entries).getLast?).map Prod.fst) := by
  rcases (agrees_plug_iff P none _).1 hag with ⟨hpath, hagn⟩
  obtain ⟨nd, hnd, hkey, hval, hpar, hle, hri, hagL, hagR⟩ :=
    agrees_node_iff.1 hagn
  unfold Node.predecessor
  rw [hnd]
  simp only [Option.bind_eq_bind, Option.some_bind]
  cases L with
  | leaf =>
    rw [show (ATree.leaf : ATree).rootId = none from rfl] at hle
    rw [hle]
    show Node.predecessorLoop fuel h n nd.parent = _
    rw [hpar]
    rw [predecessorLoop_spec hpath rfl hnodup hfuelP]
    rw [firstRightId_eq_ctxI_getLast]
    rw [show (ATree.leaf : ATree).entries = [] from rfl, List.append_nil]
  | node l0 lk lv la lb =>
    rw [show (ATree.node l0 lk lv la lb).rootId = some l0 from rfl] at hle
    rw [hle]
    show (Node.max fuel h l0).bind (fun m => some (some m)) = _
    obtain ⟨⟨m, km, vm⟩, hm⟩ :=
      @maxEntry_isSome (ATree.node l0 lk lv la lb) (by simp)
    rw [nodeMax_spec hagL hm hfuelL]
    simp only [Option.some_bind]
    rw [List.getLast?_append, ← maxEntry_eq_getLast, hm]
    rfl

/-- Node.prototype.successor returns the id of the entry immediately after
    this node in the in-order entry sequence (`none` at the max). -/
theorem nodeSuccessor_spec {h : Heap} {n : NodeId} {k v : Int}
    {L R : ATree} {P : List Step} {fuel : Nat}
    (hag : agrees h none (plug (ATree.node n k v L R) P) = true)
    (hnodup : (plug (ATree.node n k v L R) P).ids.Nodup)
    (hfuelR : R.size < fuel) (hfuelP : P.length < fuel) :
    Node.successor fuel h n =
      some (((R.entries ++ ctxJ P).head?).map Prod.fst) := by
  rcases (agrees_plug_iff P none _).1 hag with ⟨hpath, hagn⟩
  obtain ⟨nd, hnd, hkey, hval, hpar, hle, hri, hagL, hagR⟩ :=
    agrees_node_iff.1 hagn
  unfold Node.successor
  rw [hnd]
  simp only [Option.bind_eq_bind, Option.some_bind]
  cases R with
  | leaf =>
    rw [show (ATree.leaf : ATree).rootId = none from rfl] at hri
    rw [hri]
    show Node.successorLoop fuel h n nd.parent = _
    rw [hpar]
    rw [successorLoop_spec hpath rfl hnodup hfuelP]
    rw [firstLeftId_eq_ctxJ_head]
    rw [show (ATree.leaf : ATree).entries = [] from rfl, List.nil_append]
  | node r0 kr vr rl rr =>
    rw [show (ATree.node r0 kr vr rl rr).rootId = some r0 from rfl] at hri
    rw [hri]
    show (Node.min fuel h r0).bind (fun m => some (some m)) = _
    obtain ⟨⟨m, km, vm⟩, hm⟩ :=
      @minEntry_isSome (ATree.node r0 kr vr rl rr) (by simp)
    rw [nodeMin_spec hagR hm hfuelR]
    simp only [Option.some_bind]
    have hhead : ((ATree.node r0 kr vr rl rr).entries ++ ctxJ P).head? =
        some (m, km, vm) := by
      rw [minEntry_eq_head] at hm
      cases hE : (ATree.node r0 kr vr rl rr).entries with
      | nil => simp at hE
      | cons e es =>
        rw [hE] at hm
        rw [List.cons_append, List.head?_cons]
        rw [List.head?_cons] at hm
        exact hm
    rw [hhead]
    rfl

theorem nodup_split_unique {X1 : List (NodeId × Int × Int)} :
    ∀ {X2 Y1 Y2 : List (NodeId × Int × Int)} {e : NodeId × Int × Int},
    ((X1 ++ e :: Y1).map Prod.fst).Nodup →
    X1 ++ e :: Y1 = X2 ++ e :: Y2 → X1 = X2 ∧ Y1 = Y2 := by
  induction X1 with
  | nil =>
    intro X2 Y1 Y2 e hnd heq
    cases X2 with
    | nil =>
      refine ⟨rfl, ?_⟩
      simpa using heq
    | cons x xs =>
      rw [List.nil_append, List.cons_append] at heq
      injection heq with h1 h2
      exfalso
      rw [List.nil_append, List.map_cons, List.nodup_cons] at hnd
      apply hnd.1
      rw [h2]
      exact List.mem_map_of_mem Prod.fst (by simp)
  | cons x xs ih =>
    intro X2 Y1 Y2 e hnd heq
    cases X2 with
    | nil =>
      rw [List.nil_append, List.cons_append] at heq
      injection heq with h1 h2
      exfalso
      rw [List.cons_append, List.map_cons, List.nodup_cons] at hnd
      apply hnd.1
      rw [h1]
      exact List.mem_map_of_mem Prod.fst (by simp)
    | cons y ys =>
      rw [List.cons_append, List.cons_append] at heq
      injection heq with h1 h2
      obtain ⟨hx, hy⟩ := ih (by
        rw [List.cons_append, List.map_cons, List.nodup_cons] at hnd
        exact hnd.2) h2
      exact ⟨by rw [h1, hx], hy⟩

theorem getLast?_some_decomp {α : Type} {l : List α} {a : α} :
    l.getLast? = some a → ∃ l0, l = l0 ++ [a] := by
  induction l with
  | nil => intro h; exact Option.noConfusion h
  | cons x xs ih =>
    intro h
    cases xs with
    | nil =>
      obtain rfl : x = a := by simpa using h
      exact ⟨[], rfl⟩
    | cons y ys =>
      rw [List.getLast?_cons_cons] at h
      obtain ⟨l0, hl0⟩ := ih h
      exact ⟨x :: l0, by rw [List.cons_append, ← hl0]⟩

theorem head?_some_decomp {α : Type} {l : List α} {a : α} :
    l.head? = some a → ∃ l0, l = a :: l0 := by
  cases l with
  | nil => intro h; exact Option.noConfusion h
  | cons x xs =>
    intro h
    obtain rfl : x = a := by simpa using h
    exact ⟨xs, rfl⟩

/-- Predecessor against an arbitrary split of the in-order entry list: the
    result is the id of the last entry before this node. -/
theorem nodePred_adjacent {t : BinarySearchTree} {A : ATree} {fuel : Nat}
    {n : NodeId} {k v : Int} {X Y : List (NodeId × Int × Int)}
    (hrep : Rep t A) (hsplit : A.entries = X ++ (n, k, v) :: Y)
    (hfuel : A.size < fuel) :
    Node.predecessor fuel t.heap n = some (X.getLast?.map Prod.fst) := by
  obtain ⟨hag, hroot, hnodup, hbound, hcount⟩ := hrep
  have he : (n, k, v) ∈ A.entries := by rw [hsplit]; simp
  obtain ⟨L, R, P, hA0⟩ := mem_entries_decomp he
  have hA : A = plug (ATree.node n k v L R) P := hA0
  subst hA
  have hsize : (plug (ATree.node n k v L R) P).size =
      (ctxI P).length + (L.size + R.size + 1) + (ctxJ P).length := by
    rw [show (plug (ATree.node n k v L R) P).size =
      (plug (ATree.node n k v L R) P).entries.length from rfl,
      plug_entries, ATree.entries_node]
    simp [ATree.size]
    omega
  have hlenP : (plug (ATree.node n k v L R) P).size =
      (ATree.node n k v L R).size + (pathIds P).length := by
    have hperm := (plug_ids_perm P (ATree.node n k v L R)).length_eq
    rw [List.length_append] at hperm
    rw [show (plug (ATree.node n k v L R) P).size =
      (plug (ATree.node n k v L R) P).ids.length by
        rw [show (plug (ATree.node n k v L R) P).ids =
          (plug (ATree.node n k v L R) P).entries.map Prod.fst from rfl]
        rw [List.length_map]; rfl]
    rw [show (ATree.node n k v L R).size =
      (ATree.node n k v L R).ids.length by
        rw [show (ATree.node n k v L R).ids =
          (ATree.node n k v L R).entries.map Prod.fst from rfl]
        rw [List.length_map]; rfl]
    exact hperm
  have hPlen := pathIds_length_ge P
  have hnsz : 1 ≤ (ATree.node n k v L R).size := by
    rw [ATree.size_node]; omega
  have hcanon : (plug (ATree.node n k v L R) P).entries =
      (ctxI P ++ L.entries) ++ (n, k, v) :: (R.entries ++ ctxJ P) := by
    rw [plug_entries, ATree.entries_node]
    simp
  obtain ⟨hX, hY⟩ := nodup_split_unique
    (by rw [← hcanon]; exact hnodup) (hcanon.symm.trans hsplit)
  rw [nodePredecessor_spec hag hnodup (by omega) (by omega)]
  rw [hX]

/-- Successor against an arbitrary split of the in-order entry list: the
    result is the id of the first entry after this node. -/
theorem nodeSucc_adjacent {t : BinarySearchTree} {A : ATree} {fuel : Nat}
    {n : NodeId} {k v : Int} {X Y : List (NodeId × Int × Int)}
    (hrep : Rep t A) (hsplit : A.entries = X ++ (n, k, v) :: Y)
    (hfuel : A.size < fuel) :
    Node.successor fuel t.heap n = some (Y.head?.map Prod.fst) := by
  obtain ⟨hag, hroot, hnodup, hbound, hcount⟩ := hrep
  have he : (n, k, v) ∈ A.entries := by rw [hsplit]; simp
  obtain ⟨L, R, P, hA0⟩ := mem_entries_decomp he
  have hA : A = plug (ATree.node n k v L R) P := hA0
  subst hA
  have hsize : (plug (ATree.node n k v L R) P).size =
      (ctxI P).length + (L.size + R.size + 1) + (ctxJ P).length := by
    rw [show (plug (ATree.node n k v L R) P).size =
      (plug (ATree.node n k v L R) P).entries.length from rfl,
      plug_entries, ATree.entries_node]
    simp [ATree.size]
    omega
  have hlenP : (plug (ATree.node n k v L R) P).size =
      (ATree.node n k v L R).size + (pathIds P).length := by
    have hperm := (plug_ids_perm P (ATree.node n k v L R)).length_eq
    rw [List.length_append] at hperm
    rw [show (plug (ATree.node n k v L R) P).size =
      (plug (ATree.node n k v L R) P).ids.length by
        rw [show (plug (ATree.node n k v L R) P).ids =
          (plug (ATree.node n k v L R) P).entries.map Prod.fst from rfl]
        rw [List.length_map]; rfl]
    rw [show (ATree.node n k v L R).size =
      (ATree.node n k v L R).ids.length by
        rw [show (ATree.node n k v L R).ids =
          (ATree.node n k v L R).entries.map Prod.fst from rfl]
        rw [List.length_map]; rfl]
    exact hperm
  have hPlen := pathIds_length_ge P
  have hnsz : 1 ≤ (ATree.node n k v L R).size := by
    rw [ATree.size_node]; omega
  have hcanon : (plug (ATree.node n k v L R) P).entries =
      (ctxI P ++ L.entries) ++ (n, k, v) :: (R.entries ++ ctxJ P) := by
    rw [plug_entries, ATree.entries_node]
    simp
  obtain ⟨hX, hY⟩ := nodup_split_unique
    (by rw [← hcanon]; exact hnodup) (hcanon.symm.trans hsplit)
  rw [nodeSuccessor_spec hag hnodup (by omega) (by omega)]
  rw [hY]

/- ------------------------------------------------------------------ -/
/- A keyed variant of the unique-split lemma, and entry bookkeeping    -/
/- for the insert-then-remove round trip.                              -/
/- ------------------------------------------------------------------ -/

theorem nodup_split_unique_key {X1 : List (NodeId × Int × Int)} :
    ∀ {X2 Y1 Y2 : List (NodeId × Int × Int)}
      {e1 e2 : NodeId × Int × Int},
    ((X1 ++ e1 :: Y1).map (fun e => e.2.1)).Nodup →
    X1 ++ e1 :: Y1 = X2 ++ e2 :: Y2 → e1.2.1 = e2.2.1 →
    X1 = X2 ∧ e1 = e2 ∧ Y1 = Y2 := by
  induction X1 with
  | nil =>
    intro X2 Y1 Y2 e1 e2 hnd heq hkey
    cases X2 with
    | nil =>
      rw [List.nil_append, List.nil_append] at heq
      injection heq with h1 h2
      exact ⟨rfl, h1, h2⟩
    | cons x xs =>
      rw [List.nil_append, List.cons_append] at heq
      injection heq with h1 h2
      exfalso
      rw [List.nil_append, List.map_cons, List.nodup_cons] at hnd
      apply hnd.1
      show e1.2.1 ∈ Y1.map (fun e => e.2.1)
      rw [h2, hkey]
      exact List.mem_map_of_mem (fun e : NodeId × Int × Int => e.2.1)
        (show e2 ∈ xs ++ e2 :: Y2 by simp)
  | cons x xs ih =>
    intro X2 Y1 Y2 e1 e2 hnd heq hkey
    cases X2 with
    | nil =>
      rw [List.nil_append, List.cons_append] at heq
      injection heq with h1 h2
      exfalso
      rw [List.cons_append, List.map_cons, List.nodup_cons] at hnd
      apply hnd.1
      show x.2.1 ∈ (xs ++ e1 :: Y1).map (fun e => e.2.1)
      rw [h1, ← hkey]
      exact List.mem_map_of_mem (fun e : NodeId × Int × Int => e.2.1)
        (show e1 ∈ xs ++ e1 :: Y1 by simp)
    | cons y ys =>
      rw [List.cons_append, List.cons_append] at heq
      injection heq with h1 h2
      obtain ⟨hx, he, hy⟩ := ih (by
        rw [List.cons_append, List.map_cons, List.nodup_cons] at hnd
        exact hnd.2) h2 hkey
      exact ⟨by rw [h1, hx], he, hy⟩

/- ------------------------------------------------------------------ -/
/- The ten specification claims.                                       -/
/- ------------------------------------------------------------------ -/

/-- C1: starting from any tree state satisfying the representation
    invariant (in particular the freshly constructed empty tree), after any
    completed sequence of tree-level insert and remove operations, a
    completed in-order traversal yields the keys in strictly ascending
    order. -/
theorem claim_C1 {t0 t' : BinarySearchTree} {ops : List Op} {f1 f2 : Nat}
    {tr : List (NodeId × Int × Int)} (hinv : Inv t0)
    (hops : applyOps t0 f1 ops = some t')
    (htr : t'.traverse f2 = some tr) :
    (tr.map (fun e => e.2.1)).Pairwise (· < ·) := by
  obtain ⟨A, hrep, hs⟩ := applyOps_inv hinv hops
  have htr2 : t'.traverse (Nat.max f2 (2 * A.size)) = some tr :=
    treeTraverse_mono (Nat.le_max_left _ _) htr
  have hspec : t'.traverse (Nat.max f2 (2 * A.size)) = some A.entries :=
    treeTraverse_spec hrep (Nat.le_max_right _ _)
  obtain rfl : tr = A.entries := by
    rw [htr2] at hspec
    exact Option.some.inj hspec
  exact hs

/-- C2: the specification says the tree-level insert returns a reference to
    the created node, but the method body of
    BinarySearchTree.prototype.insert contains no return statement, so
    every successful call evaluates to undefined (`none`), never to a node
    reference. -/
theorem claim_C2 {t t' : BinarySearchTree} {fuel : Nat} {key value : Int}
    {ret : Option NodeId}
    (h : t.insert fuel key value = some (t', Except.ok ret)) :
    ret = none := by
  unfold BinarySearchTree.insert at h
  cases hr : t.root with
  | none =>
    rw [hr] at h
    have h' : ((⟨Heap.set t.heap t.nextId ⟨key, value, none, none, none⟩,
        some t.nextId, t.numNodes + 1, t.nextId + 1⟩ : BinarySearchTree),
        (Except.ok none : Except JsErr (Option NodeId))) =
        (t', Except.ok ret) := Option.some.inj h
    have h2 : (Except.ok none : Except JsErr (Option NodeId)) =
        Except.ok ret := congrArg Prod.snd h'
    injection h2 with h3
    exact h3.symm
  | some r =>
    rw [hr] at h
    have h' : (match Node.insert fuel t.heap r key value t.nextId with
      | none => none
      | some (Except.error e) => some (t, Except.error e)
      | some (Except.ok (h1, _)) =>
        some ((⟨h1, some r, t.numNodes + 1, t.nextId + 1⟩ :
          BinarySearchTree), Except.ok none)) =
        some (t', Except.ok ret) := h
    cases hi : Node.insert fuel t.heap r key value t.nextId with
    | none =>
      rw [hi] at h'
      exact Option.noConfusion h'
    | some res =>
      rw [hi] at h'
      cases res with
      | error e =>
        have h2 := congrArg Prod.snd (Option.some.inj h')
        exact absurd h2 (by simp)
      | ok pr =>
        obtain ⟨h1, m⟩ := pr
        have h2 := congrArg Prod.snd (Option.some.inj h')
        have h3 : (Except.ok (none : Option NodeId) :
            Except JsErr (Option NodeId)) = Except.ok ret := h2
        injection h3 with h4
        exact h4.symm

/-- C3: when the removed node has two children, the node that takes its
    structural position (the returned replacement, installed at the removed
    node's position) is the in-order predecessor — the max of the left
    subtree — when the node is the root or a left child, and the in-order
    successor — the min of the right subtree — when it is a right child. -/
theorem claim_C3 {h : Heap} {n l0 r0 : NodeId} {k v lk lv kr vr : Int}
    {ll lr rl rr : ATree} {P : List Step} {fuel : Nat}
    (hag : agrees h none (plug (ATree.node n k v
      (ATree.node l0 lk lv ll lr) (ATree.node r0 kr vr rl rr)) P) = true)
    (hnodup : (plug (ATree.node n k v (ATree.node l0 lk lv ll lr)
      (ATree.node r0 kr vr rl rr)) P).ids.Nodup)
    (hfuelL : (ATree.node l0 lk lv ll lr).size < fuel)
    (hfuelR : (ATree.node r0 kr vr rl rr).size < fuel) :
    ((P = [] ∨ ∃ s rest, P = s :: rest ∧ s.dir = Dir.left) →
      ∃ h' m km vm,
        maxEntry (ATree.node l0 lk lv ll lr) = some (m, km, vm) ∧
        Node.remove fuel h n = some (h', some m) ∧
        agrees h' none (plug (ATree.node m km vm
          (removeMaxF (ATree.node l0 lk lv ll lr))
          (ATree.node r0 kr vr rl rr)) P) = true) ∧
    (∀ s rest, P = s :: rest → s.dir = Dir.right →
      ∃ h' m km vm,
        minEntry (ATree.node r0 kr vr rl rr) = some (m, km, vm) ∧
        Node.remove fuel h n = some (h', some m) ∧
        agrees h' none (plug (ATree.node m km vm
          (ATree.node l0 lk lv ll lr)
          (removeMinF (ATree.node r0 kr vr rl rr))) P) = true) := by
  constructor
  · intro hLoR
    obtain ⟨⟨m, km, vm⟩, hm⟩ :=
      @maxEntry_isSome (ATree.node l0 lk lv ll lr) (by simp)
    obtain ⟨h', hrun, hagA, _⟩ := nodeRemove_case3 hag hnodup hm hLoR hfuelL
    exact ⟨h', m, km, vm, hm, hrun, hagA⟩
  · intro s rest hP hdir
    obtain ⟨⟨m, km, vm⟩, hm⟩ :=
      @minEntry_isSome (ATree.node r0 kr vr rl rr) (by simp)
    obtain ⟨h', hrun, hagA, _⟩ :=
      nodeRemove_case4 hag hnodup hm hP hdir hfuelR
    exact ⟨h', m, km, vm, hm, hrun, hagA⟩

/-- C4: removing a present key removes exactly its node: every other
    node keeps its key and value, its heap cell can only change its link
    fields, and it remains in the in-order entry sequence of the resulting
    tree, hence reachable from the new root. -/
theorem claim_C4 {t : BinarySearchTree} {A : ATree} {fuel : Nat} {key : Int}
    (hrep : Rep t A) (hs : SortedKeys A) (hk : key ∈ A.keys)
    (hfuel : A.size < fuel) :
    ∃ t' A' n value X Y,
      t.remove fuel key = some (t', Except.ok ()) ∧
      Rep t' A' ∧
      A.entries = X ++ (n, key, value) :: Y ∧
      t'.heap n = t.heap n ∧
      ∀ e ∈ A.entries, e.1 ≠ n → e ∈ A'.entries := by
  obtain ⟨t', A', n, value, X, Y, hrun, hrep', hs', hAe, hA'e, hheap, _, _⟩ :=
    treeRemove_found hrep hs hk hfuel
  refine ⟨t', A', n, value, X, Y, hrun, hrep', hAe, hheap, ?_⟩
  intro e heA hne
  rw [hAe] at heA
  rw [hA'e]
  rcases List.mem_append.1 heA with hX | hXY
  · exact List.mem_append.2 (Or.inl hX)
  · rcases List.mem_cons.1 hXY with rfl | hY
    · exact absurd rfl hne
    · exact List.mem_append.2 (Or.inr hY)

/-- C5: on any tree reached from the empty tree by a completed sequence
    of operations, size() equals the number of entries visited by a
    completed full traversal. -/
theorem claim_C5 {t' : BinarySearchTree} {ops : List Op} {f1 f2 : Nat}
    {tr : List (NodeId × Int × Int)}
    (hops : applyOps BinarySearchTree.new f1 ops = some t')
    (htr : t'.traverse f2 = some tr) :
    t'.size = (tr.length : Int) := by
  obtain ⟨A, hrep, hs⟩ := applyOps_inv Inv_new hops
  have htr2 : t'.traverse (Nat.max f2 (2 * A.size)) = some tr :=
    treeTraverse_mono (Nat.le_max_left _ _) htr
  have hspec : t'.traverse (Nat.max f2 (2 * A.size)) = some A.entries :=
    treeTraverse_spec hrep (Nat.le_max_right _ _)
  obtain rfl : tr = A.entries := by
    rw [htr2] at hspec
    exact Option.some.inj hspec
  show t'.numNodes = (A.entries.length : Int)
  exact hrep.2.2.2.2

/-- C6: inserting an already-present key fails with the duplicate-key
    exception and returns the tree state completely unchanged, so size()
    and the traversal sequence are unaffected. -/
theorem claim_C6 {t : BinarySearchTree} {A : ATree} {fuel : Nat}
    {key value : Int} (hrep : Rep t A) (hs : SortedKeys A)
    (hk : key ∈ A.keys) (hfuel : A.size < fuel) :
    t.insert fuel key value = some (t, Except.error JsErr.duplicateKey) :=
  treeInsert_dup hrep hs hk hfuel

/-- C7: removing an absent key (also from the empty tree) fails with the
    key-not-found exception leaving the state untouched, while removing a
    present key succeeds. -/
theorem claim_C7 {t : BinarySearchTree} {A : ATree} {fuel : Nat} {key : Int}
    (hrep : Rep t A) (hs : SortedKeys A) (hfuel : A.size < fuel) :
    (key ∉ A.keys →
      t.remove fuel key = some (t, Except.error JsErr.keyNotFound)) ∧
    (key ∈ A.keys → ∃ t', t.remove fuel key = some (t', Except.ok ())) := by
  constructor
  · intro hk
    exact treeRemove_absent hrep hk hfuel
  · intro hk
    obtain ⟨t', _, _, _, _, _, hrun, _⟩ := treeRemove_found hrep hs hk hfuel
    exact ⟨t', hrun⟩

/-- C8: predecessor and successor are inverse on adjacent nodes: if a
    node's predecessor exists, the predecessor's successor is the node
    itself, and symmetrically. -/
theorem claim_C8 {t : BinarySearchTree} {A : ATree} {fuel : Nat}
    {n : NodeId} {k v : Int} (hrep : Rep t A) (hs : SortedKeys A)
    (he : (n, k, v) ∈ A.entries) (hfuel : A.size < fuel) :
    (∀ m, Node.predecessor fuel t.heap n = some (some m) →
      Node.successor fuel t.heap m = some (some n)) ∧
    (∀ m, Node.successor fuel t.heap n = some (some m) →
      Node.predecessor fuel t.heap m = some (some n)) := by
  obtain ⟨X, Y, hsplit⟩ := List.append_of_mem he
  constructor
  · intro m hpred
    rw [nodePred_adjacent hrep hsplit hfuel] at hpred
    have hmap : X.getLast?.map Prod.fst = some m := Option.some.inj hpred
    obtain ⟨em, hem, hm⟩ := Option.map_eq_some'.1 hmap
    obtain ⟨X0, hX0⟩ := getLast?_some_decomp hem
    obtain ⟨m', km, vm⟩ := em
    have hm2 : m' = m := hm
    subst hm2
    have hsplit2 : A.entries = X0 ++ (m', km, vm) :: ((n, k, v) :: Y) := by
      rw [hsplit, hX0]
      simp
    rw [nodeSucc_adjacent hrep hsplit2 hfuel]
    rfl
  · intro m hsucc
    rw [nodeSucc_adjacent hrep hsplit hfuel] at hsucc
    have hmap : Y.head?.map Prod.fst = some m := Option.some.inj hsucc
    obtain ⟨em, hem, hm⟩ := Option.map_eq_some'.1 hmap
    obtain ⟨Y0, hY0⟩ := head?_some_decomp hem
    obtain ⟨m', km, vm⟩ := em
    have hm2 : m' = m := hm
    subst hm2
    have hsplit2 : A.entries = (X ++ [(n, k, v)]) ++ (m', km, vm) :: Y0 := by
      rw [hsplit, hY0]
      simp
    rw [nodePred_adjacent hrep hsplit2 hfuel]
    rw [List.getLast?_concat]
    rfl

/-- C9: inserting an absent key and then immediately removing the same key
    gives back a tree whose completed in-order traversal equals that of the
    original tree (same reachable ids, keys and values in the same
    order). -/
theorem claim_C9 {t : BinarySearchTree} {A : ATree} {f1 f2 f3 : Nat}
    {key value : Int} (hrep : Rep t A) (hs : SortedKeys A)
    (hk : key ∉ A.keys) (hf1 : A.size < f1) (hf2 : A.size + 1 < f2)
    (hf3 : 2 * A.size ≤ f3) :
    ∃ t1 t2 tr,
      t.insert f1 key value = some (t1, Except.ok none) ∧
      t1.remove f2 key = some (t2, Except.ok ()) ∧
      t.traverse f3 = some tr ∧
      t2.traverse f3 = some tr := by
  obtain ⟨t1, hins, hrep1, hs1, hnext1⟩ :=
    @treeInsert_ok t A f1 key value hrep hs hk hf1
  obtain ⟨X, Y, hXY, hXY'⟩ := insertF_split hk value t.nextId
  have hkeys1 : key ∈ (insertF A key value t.nextId).keys := by
    show key ∈ (insertF A key value t.nextId).entries.map (fun e => e.2.1)
    rw [hXY']
    exact List.mem_map_of_mem (fun e : NodeId × Int × Int => e.2.1)
      (List.mem_append.2 (Or.inr (List.mem_cons_self _ _)))
  have hsize1 : (insertF A key value t.nextId).size = A.size + 1 := by
    rw [show (insertF A key value t.nextId).size =
      (insertF A key value t.nextId).entries.length from rfl, hXY']
    rw [show A.size = A.entries.length from rfl, hXY]
    simp only [List.length_append, List.length_cons]
    omega
  obtain ⟨t2, A2, n, value', X', Y', hrun, hrep2, hs2, hA1e, hA2e, _, _, _⟩ :=
    @treeRemove_found t1 (insertF A key value t.nextId) f2 key hrep1 hs1
      hkeys1 (by omega)
  have hkeysnd : ((insertF A key value t.nextId).entries.map
      (fun e => e.2.1)).Nodup := by
    have : ((insertF A key value t.nextId).keys).Nodup :=
      hs1.imp (fun hab => ne_of_lt hab)
    exact this
  obtain ⟨hXeq, heeq, hYeq⟩ := nodup_split_unique_key
    (by rw [← hXY']; exact hkeysnd)
    ((hXY'.symm).trans hA1e) rfl
  have hA2A : A2.entries = A.entries := by
    rw [hA2e, ← hXeq, ← hYeq, hXY]
  have htrA : t.traverse f3 = some A.entries :=
    treeTraverse_spec hrep hf3
  have htrA2 : t2.traverse f3 = some A.entries := by
    have h2 : t2.traverse f3 = some A2.entries :=
      @treeTraverse_spec t2 A2 f3 hrep2 (by
        rw [show A2.size = A2.entries.length from rfl, hA2A,
          show A.entries.length = A.size from rfl]
        exact hf3)
    rw [hA2A] at h2
    exact h2
  exact ⟨t1, t2, A.entries, hins, hrun, htrA, htrA2⟩

/-- C10: Node.prototype.remove never writes to the removed node itself:
    after a completed removal the removed node's heap cell — key, value,
    parent and both child links — is byte-for-byte the one from before the
    call. -/
theorem claim_C10 {h : Heap} {n : NodeId} {k v : Int} {L R : ATree}
    {P : List Step} {fuel : Nat} {h' : Heap} {rep : Option NodeId}
    (hag : agrees h none (plug (ATree.node n k v L R) P) = true)
    (hnodup : (plug (ATree.node n k v L R) P).ids.Nodup)
    (hfuelL : L.size < fuel) (hfuelR : R.size < fuel)
    (hrun : Node.remove fuel h n = some (h', rep)) :
    h' n = h n := by
  obtain ⟨h'', rep', A', hrun', _, _, hhn, _, _⟩ :=
    nodeRemove_found_master hag hnodup hfuelL hfuelR
  rw [hrun'] at hrun
  have hpair := Option.some.inj hrun
  have hh : h'' = h' := congrArg Prod.fst hpair
  rw [← hh]
  exact hhn

/- ------------------------------------------------------------------ -/
/- Concrete instantiations of the claims.                              -/
/- ------------------------------------------------------------------ -/

theorem sampleRep : Rep sampleTree sampleATree :=
  ⟨by decide, by decide, by decide, by decide, by decide⟩

theorem sampleSorted : SortedKeys sampleATree := by
  show sampleATree.keys.Pairwise (· < ·)
  decide

theorem claim_C1_witness :
    ∃ t', applyOps BinarySearchTree.new 5 [Op.ins 10 100, Op.ins 5 50] =
        some t' ∧
      (([((1 : NodeId), (5 : Int), (50 : Int)), (0, 10, 100)].map
        (fun e => e.2.1)).Pairwise (· < ·)) := by
  refine ⟨_, rfl, ?_⟩
  exact @claim_C1 BinarySearchTree.new _ [Op.ins 10 100, Op.ins 5 50] 5 10
    [(1, 5, 50), (0, 10, 100)] Inv_new rfl rfl

theorem claim_C2_witness :
    BinarySearchTree.new.insert 1 0 0 =
      some (⟨Heap.set Heap.empty 0 ⟨0, 0, none, none, none⟩,
        some 0, 1, 1⟩, Except.ok none) ∧
    (none : Option NodeId) = none :=
  ⟨rfl, @claim_C2 BinarySearchTree.new
    ⟨Heap.set Heap.empty 0 ⟨0, 0, none, none, none⟩, some 0, 1, 1⟩
    1 0 0 none rfl⟩

theorem claim_C3_witness :
    agrees sampleHeap none (plug (ATree.node 1 10 100
      (ATree.node 0 5 50 ATree.leaf ATree.leaf)
      (ATree.node 2 15 150 ATree.leaf ATree.leaf)) []) = true ∧
    (((([] : List Step) = [] ∨ ∃ s rest, ([] : List Step) = s :: rest ∧
        s.dir = Dir.left) →
      ∃ h' m km vm,
        maxEntry (ATree.node 0 5 50 ATree.leaf ATree.leaf) =
          some (m, km, vm) ∧
        Node.remove 5 sampleHeap 1 = some (h', some m) ∧
        agrees h' none (plug (ATree.node m km vm
          (removeMaxF (ATree.node 0 5 50 ATree.leaf ATree.leaf))
          (ATree.node 2 15 150 ATree.leaf ATree.leaf)) []) = true) ∧
    (∀ s rest, ([] : List Step) = s :: rest → s.dir = Dir.right →
      ∃ h' m km vm,
        minEntry (ATree.node 2 15 150 ATree.leaf ATree.leaf) =
          some (m, km, vm) ∧
        Node.remove 5 sampleHeap 1 = some (h', some m) ∧
        agrees h' none (plug (ATree.node m km vm
          (ATree.node 0 5 50 ATree.leaf ATree.leaf)
          (removeMinF (ATree.node 2 15 150 ATree.leaf ATree.leaf))) []) =
          true)) :=
  ⟨by decide, @claim_C3 sampleHeap 1 0 2 10 100 5 50 15 150
    ATree.leaf ATree.leaf ATree.leaf ATree.leaf [] 5
    (by decide) (by decide) (by decide) (by decide)⟩

theorem claim_C4_witness :
    (5 : Int) ∈ sampleATree.keys ∧
    (∃ t' A' n value X Y,
      sampleTree.remove 5 5 = some (t', Except.ok ()) ∧
      Rep t' A' ∧
      sampleATree.entries = X ++ (n, 5, value) :: Y ∧
      t'.heap n = sampleTree.heap n ∧
      ∀ e ∈ sampleATree.entries, e.1 ≠ n → e ∈ A'.entries) :=
  ⟨by decide, @claim_C4 sampleTree sampleATree 5 5 sampleRep sampleSorted
    (by decide) (by decide)⟩

theorem claim_C5_witness :
    ∃ t', applyOps BinarySearchTree.new 5 [Op.ins 10 100, Op.ins 5 50] =
        some t' ∧
      t'.size = (([((1 : NodeId), (5 : Int), (50 : Int)),
        (0, 10, 100)].length : Nat) : Int) := by
  refine ⟨_, rfl, ?_⟩
  exact @claim_C5 _ [Op.ins 10 100, Op.ins 5 50] 5 10
    [(1, 5, 50), (0, 10, 100)] rfl rfl

theorem claim_C6_witness :
    (10 : Int) ∈ sampleATree.keys ∧
    sampleTree.insert 5 10 999 =
      some (sampleTree, Except.error JsErr.duplicateKey) :=
  ⟨by decide, @claim_C6 sampleTree sampleATree 5 10 999 sampleRep
    sampleSorted (by decide) (by decide)⟩

theorem claim_C7_witness :
    ((7 : Int) ∉ sampleATree.keys →
      sampleTree.remove 5 7 =
        some (sampleTree, Except.error JsErr.keyNotFound)) ∧
    ((7 : Int) ∈ sampleATree.keys →
      ∃ t', sampleTree.remove 5 7 = some (t', Except.ok ())) :=
  @claim_C7 sampleTree sampleATree 5 7 sampleRep sampleSorted (by decide)

theorem claim_C8_witness :
    (∀ m, Node.predecessor 5 sampleTree.heap 1 = some (some m) →
      Node.successor 5 sampleTree.heap m = some (some 1)) ∧
    (∀ m, Node.successor 5 sampleTree.heap 1 = some (some m) →
      Node.predecessor 5 sampleTree.heap m = some (some 1)) :=
  @claim_C8 sampleTree sampleATree 5 1 10 100 sampleRep sampleSorted
    (by decide) (by decide)

theorem claim_C9_witness :
    ∃ t1 t2 tr,
      sampleTree.insert 5 7 70 = some (t1, Except.ok none) ∧
      t1.remove 6 7 = some (t2, Except.ok ()) ∧
      sampleTree.traverse 10 = some tr ∧
      t2.traverse 10 = some tr :=
  @claim_C9 sampleTree sampleATree 5 6 10 7 70 sampleRep sampleSorted
    (by decide) (by decide) (by decide) (by decide)

theorem claim_C10_witness :
    ∃ h' rep, Node.remove 5 sampleHeap 1 = some (h', rep) ∧
      h' 1 = sampleHeap 1 := by
  refine ⟨_, _, rfl, ?_⟩
  exact @claim_C10 sampleHeap 1 10 100
    (ATree.node 0 5 50 ATree.leaf ATree.leaf)
    (ATree.node 2 15 150 ATree.leaf ATree.leaf) [] 5 _ _
    (by decide) (by decide) (by decide) (by decide) rfl

end BSTree
